import Mathlib

/-!
# ArgParser: a verification development

A shallow embedding of the command-line argument parser of `lib/ArgParser`
(`argument.h`, `argument.cpp`, `arg_parser.h`, `arg_parser.cpp`) and theorems about it.

Conventions of the embedding:
* `std::string` is a list of characters (`Str`);
* every `PrintError` ends the process (`exit(EXIT_FAILURE)`), so a function that may call it
  returns `Except Error _` and the caller never continues after an error;
* the template parameter `T` of `Argument<T, Multivalued>` ranges over the three types the
  library itself names in `GetTypeName` (`bool`, `int`, `std::string`); a stored `T` is a `Value`;
* a `std::unordered_map` is an association list in iteration order; pointers into
  `argument_map_` (`help_argument_`, `positional_argument_`) are the keys of their pointees.
-/

namespace ArgumentParser

/-- Text, the embedding of `std::string`. -/
abbrev Str := List Char

/-- The errors of `enum ArgumentError` (argument.h) and `enum ArgParserError` (arg_parser.h);
each is reported by a `PrintError` overload, which then calls `exit`. `UndefinedBehaviour` is not
an error of the library: it marks the places where the C++ code dereferences an end iterator or a
null pointer without a check. -/
inductive Error
  | EmptyArgumentLongName
  | EmptyArgumentShortName
  | NoArgumentValue
  | InvalidArgumentType
  | ArgumentAlreadyExists
  | HelpArgumentAlreadyExists
  | UnknownArgument
  | NoPositionalArgument
  | UndefinedBehaviour
  deriving DecidableEq

/-- The run-time type of a declaration, `typeid(T)`. -/
inductive TypeTag
  | bool
  | int
  | string
  deriving DecidableEq

/-- A stored value of type `T`. -/
inductive Value
  | bool (b : Bool)
  | int (i : Int)
  | string (s : Str)
  deriving DecidableEq

/-! ## Formatted extraction (`std::istringstream stream(value); stream >> val;`) -/

/-- The white space of the classic locale: space, and the characters 9 to 13
(tab, line feed, vertical tab, form feed, carriage return). -/
def isspace (c : Char) : Bool :=
  c.toNat = 32 || (9 ≤ c.toNat && c.toNat ≤ 13)

/-- Decimal digit test. -/
def isdigit (c : Char) : Bool :=
  48 ≤ c.toNat && c.toNat ≤ 57

/-- Numeric value of a run of decimal digits. -/
def digitsValue (ds : List Char) : Nat :=
  ds.foldl (fun n c => 10 * n + (c.toNat - 48)) 0

/-- The integer numeral that `operator>>` reads for an arithmetic type in base ten: leading white
space is skipped, then an optional sign and the longest run of digits are consumed; `none` when no
digit is found. Characters after the numeral are left in the stream. -/
def readInteger (s : Str) : Option Int :=
  let body := s.dropWhile isspace
  let signed : Bool × Str :=
    match body with
    | '-' :: r => (true, r)
    | '+' :: r => (false, r)
    | _ => (false, body)
  let ds := signed.2.takeWhile isdigit
  if ds.isEmpty then none
  else some (if signed.1 then -(digitsValue ds : Int) else (digitsValue ds : Int))

/-- Least value of a 32-bit `int`. -/
def INT_MIN : Int := -2147483648

/-- Greatest value of a 32-bit `int`. -/
def INT_MAX : Int := 2147483647

/-- Extraction `stream >> val` for `int`: `none` stands for `stream.fail()` (no numeral, or a
numeral outside the range of `int`). -/
def extractInt (s : Str) : Option Int :=
  match readInteger s with
  | some v => if INT_MIN ≤ v ∧ v ≤ INT_MAX then some v else none
  | none => none

/-- Extraction `stream >> val` for `bool` (without `boolalpha`): a numeral is read; 0 gives
`false`, 1 gives `true`, every other outcome sets the fail bit. -/
def extractBool (s : Str) : Option Bool :=
  match readInteger s with
  | some 0 => some false
  | some 1 => some true
  | _ => none

/-- Extraction `stream >> val` for `std::string`: leading white space is skipped and the
characters up to the next white space are read; the fail bit is set when nothing was read. -/
def extractString (s : Str) : Option Str :=
  let w := (s.dropWhile isspace).takeWhile (fun c => !isspace c)
  if w.isEmpty then none else some w

/-- Extraction at type `T`; `none` stands for `stream.fail()`. -/
def extract : TypeTag → Str → Option Value
  | .bool, s => (extractBool s).map Value.bool
  | .int, s => (extractInt s).map Value.int
  | .string, s => (extractString s).map Value.string

/-! ## Declarations (argument.h, argument.cpp) -/

/-- The data members of `class ArgumentBase`. -/
structure ArgumentBase where
  long_name_ : Str
  short_name_ : Option Char
  description_ : Str
  is_positional_ : Bool
  deriving DecidableEq

/-- Constructor `ArgumentBase(long_name, description)`. -/
def ArgumentBase.new (long_name : Str) (description : Str) : Except Error ArgumentBase :=
  if long_name.isEmpty then .error .EmptyArgumentLongName
  else .ok ⟨long_name, none, description, false⟩

/-- Constructor `ArgumentBase(short_name, long_name, description)`. -/
def ArgumentBase.newShort (short_name : Char) (long_name : Str) (description : Str) :
    Except Error ArgumentBase :=
  if short_name = ' ' then .error .EmptyArgumentShortName
  else if long_name.isEmpty then .error .EmptyArgumentLongName
  else .ok ⟨long_name, some short_name, description, false⟩

/-- The primary template `Argument<T, false>`: a scalar declaration. -/
structure Argument where
  base : ArgumentBase
  T : TypeTag
  value_ : Option Value
  default_value_ : Option Value
  deriving DecidableEq

/-- The specialisation `Argument<T, true>`: a repeated declaration. -/
structure ArgumentMulti where
  base : ArgumentBase
  T : TypeTag
  min_size_ : Nat
  value_ : List Value
  default_value_ : Option Value
  deriving DecidableEq

namespace Argument

/-- The method `Argument<T,false>::SetValueFromString`. -/
def SetValueFromString (a : Argument) (value : Str) : Except Error Argument :=
  match extract a.T value with
  | some val => .ok { a with value_ := some val }
  | none => .error .InvalidArgumentType

/-- The method `Argument<T,false>::SetValue`. -/
def SetValue (a : Argument) (value : Value) : Argument :=
  { a with value_ := some value }

/-- The method `Argument<T,false>::HasValue`. -/
def HasValue (a : Argument) : Bool :=
  a.value_.isSome || a.default_value_.isSome

/-- The method `Argument<T,false>::GetValue`. -/
def GetValue (a : Argument) : Except Error Value :=
  if !a.HasValue then .error .NoArgumentValue
  else
    match a.value_ with
    | some v => .ok v
    | none =>
      match a.default_value_ with
      | some d => .ok d
      | none => .error .UndefinedBehaviour

/-- The method `Argument<T,false>::Default`. -/
def Default (a : Argument) (value : Value) : Argument :=
  { a with default_value_ := some value }

/-- The method `Argument<T,false>::Positional`. -/
def Positional (a : Argument) : Argument :=
  { a with base := { a.base with is_positional_ := true } }

/-- The value-initialised `T()`. -/
def zero : TypeTag → Value
  | .bool => .bool false
  | .int => .int 0
  | .string => .string []

/-- The method `Argument<T,false>::GetStorage`: the declaration after the call (the returned
reference designates its `value_`). -/
def GetStorage (a : Argument) : Argument :=
  match a.value_ with
  | some _ => a
  | none =>
    { a with value_ := some (match a.default_value_ with
                             | some d => d
                             | none => zero a.T) }

end Argument

namespace ArgumentMulti

/-- The method `Argument<T,true>::SetValueFromString`. -/
def SetValueFromString (a : ArgumentMulti) (value : Str) : Except Error ArgumentMulti :=
  match extract a.T value with
  | some val => .ok { a with value_ := a.value_ ++ [val] }
  | none => .error .InvalidArgumentType

/-- The method `Argument<T,true>::SetValue`. -/
def SetValue (a : ArgumentMulti) (value : Value) : ArgumentMulti :=
  { a with value_ := a.value_ ++ [value] }

/-- The method `Argument<T,true>::HasValue`. -/
def HasValue (a : ArgumentMulti) : Bool :=
  decide (a.value_.length ≥ a.min_size_) || a.default_value_.isSome

/-- The method `Argument<T,true>::GetValue(index)`. -/
def GetValue (a : ArgumentMulti) (index : Nat) : Except Error Value :=
  if !a.HasValue || decide (index ≥ a.value_.length) then .error .NoArgumentValue
  else
    if index < a.value_.length then
      match a.value_.get? index with
      | some v => .ok v
      | none => .error .UndefinedBehaviour
    else
      match a.default_value_ with
      | some d => .ok d
      | none => .error .UndefinedBehaviour

/-- The method `Argument<T,true>::Default`. -/
def Default (a : ArgumentMulti) (val : Value) : ArgumentMulti :=
  { a with default_value_ := some val }

/-- The method `Argument<T,true>::Positional`. -/
def Positional (a : ArgumentMulti) : ArgumentMulti :=
  { a with base := { a.base with is_positional_ := true } }

end ArgumentMulti

/-- The object behind an `ArgumentBase*`: one of the two class templates. -/
inductive Declaration
  | scalar (a : Argument)
  | repeated (a : ArgumentMulti)
  deriving DecidableEq

namespace Declaration

/-- The base-class members of a declaration. -/
def base : Declaration → ArgumentBase
  | .scalar a => a.base
  | .repeated a => a.base

/-- The method `ArgumentBase::GetLongName`. -/
def GetLongName (d : Declaration) : Str := d.base.long_name_

/-- The virtual method `SetValueFromString`. -/
def SetValueFromString : Declaration → Str → Except Error Declaration
  | .scalar a, value =>
    match a.SetValueFromString value with
    | .ok b => .ok (.scalar b)
    | .error e => .error e
  | .repeated a, value =>
    match a.SetValueFromString value with
    | .ok b => .ok (.repeated b)
    | .error e => .error e

/-- The virtual method `HasValue`. -/
def HasValue : Declaration → Bool
  | .scalar a => a.HasValue
  | .repeated a => a.HasValue

/-- The virtual method `GetType`. -/
def GetType : Declaration → TypeTag
  | .scalar a => a.T
  | .repeated a => a.T

/-- The virtual method `IsMultivalued`. -/
def IsMultivalued : Declaration → Bool
  | .scalar _ => false
  | .repeated _ => true

/-- The method `ArgumentBase::IsPositional`. -/
def IsPositional (d : Declaration) : Bool := d.base.is_positional_

/-- The virtual method `HasDefaultValue`. -/
def HasDefaultValue : Declaration → Bool
  | .scalar a => a.default_value_.isSome
  | .repeated a => a.default_value_.isSome

/-- The virtual method `MinSize`. -/
def MinSize : Declaration → Nat
  | .scalar _ => 1
  | .repeated a => a.min_size_

/-- The default of a declaration (the member `default_value_` of either template). -/
def default_value_ : Declaration → Option Value
  | .scalar a => a.default_value_
  | .repeated a => a.default_value_

end Declaration

/-! ## The registry and the parser (arg_parser.h, arg_parser.cpp) -/

/-- Lookup in a `std::unordered_map`: the method `find`, `none` standing for `end()`. -/
def find {κ ν : Type} [DecidableEq κ] (m : List (κ × ν)) (k : κ) : Option ν :=
  (m.find? (fun e => decide (e.1 = k))).map Prod.snd

/-- Write through a pointer to the mapped object of key `k` (the element `find` designates): the
mapped object becomes `v`. -/
def assign {κ ν : Type} [DecidableEq κ] : List (κ × ν) → κ → ν → List (κ × ν)
  | [], _, _ => []
  | e :: m, k, v => if e.1 = k then (e.1, v) :: m else e :: assign m k v

/-- Insertion into a `std::unordered_map`: the method `emplace`. `none` when the key is present
(nothing is inserted); otherwise the new element is linked into the iteration order at a position
the container chooses, here `slot`. -/
def emplace {κ ν : Type} [DecidableEq κ] (slot : Nat) (m : List (κ × ν)) (k : κ) (v : ν) :
    Option (List (κ × ν)) :=
  match find m k with
  | some _ => none
  | none => some (m.take slot ++ (k, v) :: m.drop slot)

/-- The data members of `class ArgParser`. -/
structure ArgParser where
  name_ : Str
  description_ : Str
  help_argument_ : Option Str
  positional_argument_ : Option Str
  argument_map_ : List (Str × Declaration)
  long_name_map_ : List (Char × Str)
  deriving DecidableEq

namespace ArgParser

/-- Constructor `ArgParser(name)`. -/
def new (name : Str) : ArgParser :=
  ⟨name, [], none, none, [], []⟩

/-- Effect of a mutating call through the pointer `argument` to the declaration of key `key`:
the process ends when the call reports an error, otherwise the declaration is updated in place. -/
def store (p : ArgParser) (key : Str) (r : Except Error Declaration) : Except Error ArgParser :=
  match r with
  | .error e => .error e
  | .ok d => .ok { p with argument_map_ := assign p.argument_map_ key d }

/-- Shared body of the four `AddArgument` overloads, after the declaration object was built:
`argument_map_.emplace(long_name, std::move(argument))`. -/
def insertDeclaration (p : ArgParser) (slot : Nat) (long_name : Str) (d : Declaration) :
    Except Error ArgParser :=
  match emplace slot p.argument_map_ long_name d with
  | none => .error .ArgumentAlreadyExists
  | some m => .ok { p with argument_map_ := m }

/-- The overload `AddArgument<T>(long_name, description)`. -/
def AddArgument (p : ArgParser) (slot : Nat) (T : TypeTag) (long_name : Str)
    (description : Str := []) : Except Error ArgParser :=
  match ArgumentBase.new long_name description with
  | .error e => .error e
  | .ok b => p.insertDeclaration slot long_name (.scalar ⟨b, T, none, none⟩)

/-- The overload `AddArgument<T>(short_name, long_name, description)`. -/
def AddArgumentShort (p : ArgParser) (slot : Nat) (T : TypeTag) (short_name : Char)
    (long_name : Str) (description : Str := []) : Except Error ArgParser :=
  match emplace slot p.long_name_map_ short_name long_name with
  | none => .error .ArgumentAlreadyExists
  | some names =>
    match ArgumentBase.newShort short_name long_name description with
    | .error e => .error e
    | .ok b =>
      ({ p with long_name_map_ := names }).insertDeclaration slot long_name
        (.scalar ⟨b, T, none, none⟩)

/-- The overload `AddArgument<T, min_size>(long_name, description)`. -/
def AddArgumentMulti (p : ArgParser) (slot : Nat) (T : TypeTag) (min_size : Nat)
    (long_name : Str) (description : Str := []) : Except Error ArgParser :=
  match ArgumentBase.new long_name description with
  | .error e => .error e
  | .ok b => p.insertDeclaration slot long_name (.repeated ⟨b, T, min_size, [], none⟩)

/-- The overload `AddArgument<T, min_size>(short_name, long_name, description)`. -/
def AddArgumentMultiShort (p : ArgParser) (slot : Nat) (T : TypeTag) (min_size : Nat)
    (short_name : Char) (long_name : Str) (description : Str := []) : Except Error ArgParser :=
  match emplace slot p.long_name_map_ short_name long_name with
  | none => .error .ArgumentAlreadyExists
  | some names =>
    match ArgumentBase.newShort short_name long_name description with
    | .error e => .error e
    | .ok b =>
      ({ p with long_name_map_ := names }).insertDeclaration slot long_name
        (.repeated ⟨b, T, min_size, [], none⟩)

/-- A call of a member function of `Argument<T,false>` on the reference an `AddArgument` call
returned for `long_name` (`Default`, `SetValue`, `Positional`, `GetStorage`). -/
def onScalar (p : ArgParser) (long_name : Str) (f : Argument → Argument) : ArgParser :=
  match find p.argument_map_ long_name with
  | some (.scalar a) =>
    { p with argument_map_ := assign p.argument_map_ long_name (.scalar (f a)) }
  | _ => p

/-- A call of a member function of `Argument<T,true>` on the reference an `AddArgument` call
returned for `long_name`. -/
def onRepeated (p : ArgParser) (long_name : Str) (f : ArgumentMulti → ArgumentMulti) :
    ArgParser :=
  match find p.argument_map_ long_name with
  | some (.repeated a) =>
    { p with argument_map_ := assign p.argument_map_ long_name (.repeated (f a)) }
  | _ => p

/-- The method `AddFlag(long_name, description)`. -/
def AddFlag (p : ArgParser) (slot : Nat) (long_name : Str) (description : Str := []) :
    Except Error ArgParser :=
  match p.AddArgument slot .bool long_name description with
  | .error e => .error e
  | .ok q => .ok (q.onScalar long_name (fun a => a.Default (.bool false)))

/-- The method `AddFlag(short_name, long_name, description)`. -/
def AddFlagShort (p : ArgParser) (slot : Nat) (short_name : Char) (long_name : Str)
    (description : Str := []) : Except Error ArgParser :=
  match p.AddArgumentShort slot .bool short_name long_name description with
  | .error e => .error e
  | .ok q => .ok (q.onScalar long_name (fun a => a.Default (.bool false)))

/-- The method `AddHelp`. -/
def AddHelp (p : ArgParser) (slot : Nat) (description : Str := []) : Except Error ArgParser :=
  if p.help_argument_.isSome then .error .HelpArgumentAlreadyExists
  else
    match p.AddArgumentShort slot .bool 'h' "help".toList "Display this help and exit".toList with
    | .error e => .error e
    | .ok q =>
      .ok { q.onScalar "help".toList (fun a => a.Default (.bool false)) with
            help_argument_ := some "help".toList
            description_ := description }

/-- The method `Help`. -/
def Help (p : ArgParser) : Except Error Bool :=
  match p.help_argument_ with
  | none => .ok false
  | some key =>
    match find p.argument_map_ key with
    | some (.scalar a) =>
      match a.GetValue with
      | .ok (.bool b) => .ok b
      | .ok _ => .error .UndefinedBehaviour
      | .error e => .error e
    | _ => .error .UndefinedBehaviour

/-- The overload `GetArgumentValue<T>(long_name)`. -/
def GetArgumentValue (p : ArgParser) (T : TypeTag) (long_name : Str) : Except Error Value :=
  match find p.argument_map_ long_name with
  | none => .error .UnknownArgument
  | some argument =>
    if argument.GetType ≠ T then .error .InvalidArgumentType
    else
      match argument with
      | .scalar a => a.GetValue
      | .repeated _ => .error .UndefinedBehaviour

/-- The overload `GetArgumentValue<T>(short_name)`. -/
def GetArgumentValueShort (p : ArgParser) (T : TypeTag) (short_name : Char) :
    Except Error Value :=
  match find p.long_name_map_ short_name with
  | none => .error .UnknownArgument
  | some long_name => p.GetArgumentValue T long_name

/-- The overload `GetArgumentValue<T>(long_name, index)`. -/
def GetArgumentValueAt (p : ArgParser) (T : TypeTag) (long_name : Str) (index : Nat) :
    Except Error Value :=
  match find p.argument_map_ long_name with
  | none => .error .UnknownArgument
  | some argument =>
    if argument.GetType ≠ T then .error .InvalidArgumentType
    else
      match argument with
      | .repeated a => a.GetValue index
      | .scalar _ => .error .UndefinedBehaviour

/-- The overload `GetArgumentValue<T>(short_name, index)`. -/
def GetArgumentValueShortAt (p : ArgParser) (T : TypeTag) (short_name : Char) (index : Nat) :
    Except Error Value :=
  match find p.long_name_map_ short_name with
  | none => .error .UnknownArgument
  | some long_name => p.GetArgumentValueAt T long_name index

/-- The method `std::string::find(char)`, `none` standing for `npos`. -/
def strFind : Str → Char → Option Nat
  | [], _ => none
  | x :: xs, c => if x = c then some 0 else (strFind xs c).map (fun i => i + 1)

/-- The method `std::string::substr(pos, count)`. -/
def substr (s : Str) (pos : Nat) (count : Nat) : Str :=
  (s.drop pos).take count

/-- Long-option branch of `Parse` (`str->starts_with("--")`). With `border == npos` the count
`border - 2` exceeds every length, so `long_name` runs to the end of the token, and `border + 1`
wraps to 0, so `value` is the whole token. -/
def Parse.longOption (p : ArgParser) (str : Str) : Except Error ArgParser :=
  let border := strFind str '='
  let long_name : Str :=
    match border with
    | some b => substr str 2 (b - 2)
    | none => str.drop 2
  let value : Str :=
    match border with
    | some b => str.drop (b + 1)
    | none => str
  match find p.argument_map_ long_name with
  | none => .error .UnknownArgument
  | some argument =>
    if border = none then
      if argument.GetType = .bool then
        p.store long_name (argument.SetValueFromString ['1'])
      else .error .NoArgumentValue
    else if argument.GetType ≠ .bool ∧ value.isEmpty then .error .NoArgumentValue
    else p.store long_name (argument.SetValueFromString value)

/-- Short-cluster branch of `Parse`: the inner `for` loop over the characters after the leading
`-`. `cs` are the characters from position `i` on and `next` is the token after the current one,
if any. The result holds the new state and whether `++str` consumed the next token. -/
def Parse.cluster (next : Option Str) : ArgParser → List Char → Except Error (ArgParser × Bool)
  | p, [] => .ok (p, false)
  | p, c :: cs =>
    match find p.long_name_map_ c with
    | none => .error .UnknownArgument
    | some long_name =>
      match find p.argument_map_ long_name with
      | none => .error .UndefinedBehaviour
      | some argument =>
        if argument.GetType = .bool then
          match p.store long_name (argument.SetValueFromString ['1']) with
          | .error e => .error e
          | .ok q => Parse.cluster next q cs
        else if cs ≠ [] then .error .UnknownArgument
        else
          match next with
          | none => .error .NoArgumentValue
          | some v =>
            match p.store long_name (argument.SetValueFromString v) with
            | .error e => .error e
            | .ok q => .ok (q, true)

/-- Plain-token branch of `Parse`. -/
def Parse.plain (p : ArgParser) (str : Str) : Except Error ArgParser :=
  let positional : Option Str :=
    match p.positional_argument_ with
    | some key => some key
    | none => (p.argument_map_.find? (fun e => e.2.IsPositional)).map Prod.fst
  match positional with
  | none => .error .NoPositionalArgument
  | some key =>
    match find p.argument_map_ key with
    | none => .error .UndefinedBehaviour
    | some argument =>
      ({ p with positional_argument_ := some key }).store key (argument.SetValueFromString str)

/-- The outer `for` loop of `Parse` over the tokens after the program name. -/
def Parse.loop : ArgParser → List Str → Except Error ArgParser
  | p, [] => .ok p
  | p, str :: rest =>
    match str with
    | '-' :: '-' :: _ =>
      match Parse.longOption p str with
      | .error e => .error e
      | .ok q => Parse.loop q rest
    | '-' :: cs =>
      match Parse.cluster rest.head? p cs with
      | .error e => .error e
      | .ok (q, consumed) =>
        if consumed then
          match rest with
          | [] => .ok q
          | _ :: rest' => Parse.loop q rest'
        else Parse.loop q rest
    | _ =>
      match Parse.plain p str with
      | .error e => .error e
      | .ok q => Parse.loop q rest

/-- The method `Parse(vec)`: the state after the call and the returned flag. `vec[0]` is the
program name; with an empty `vec` the iterator `vec.begin() + 1` is already past the end. -/
def Parse (p : ArgParser) (vec : List Str) : Except Error (ArgParser × Bool) :=
  match vec with
  | [] => .error .UndefinedBehaviour
  | _ :: tokens =>
    match Parse.loop p tokens with
    | .error e => .error e
    | .ok q => .ok (q, q.argument_map_.all (fun e => e.2.HasValue))

end ArgParser

/-! ## Vocabulary of the specification -/

/-- The declaration after a converted value was stored in it: a scalar declaration is
overwritten, a repeated declaration is appended to. -/
def Declaration.stored : Declaration → Value → Declaration
  | .scalar a, val => .scalar { a with value_ := some val }
  | .repeated a, val => .repeated { a with value_ := a.value_ ++ [val] }

/-- What the classification of tokens depends on: the alias index, the type of each registered
declaration, and the declaration plain tokens go to (the bound positional target, or else the
first declaration marked positional in iteration order). -/
structure Grammar where
  aliasOf : Char → Option Str
  typeOf : Str → Option TypeTag
  positional : Option Str

/-- The grammar of a registry. -/
def ArgParser.grammar (p : ArgParser) : Grammar where
  aliasOf := find p.long_name_map_
  typeOf := fun key => (find p.argument_map_ key).map Declaration.GetType
  positional :=
    match p.positional_argument_ with
    | some key => some key
    | none => (p.argument_map_.find? (fun e => e.2.IsPositional)).map Prod.fst

/-- The declarations a short cluster (the characters after the leading `-`) addresses, in order,
and whether the cluster takes the following token as the value of its last character. -/
def Grammar.clusterTargets (g : Grammar) : List Char → List Str × Bool
  | [] => ([], false)
  | c :: cs =>
    match g.aliasOf c with
    | none => ([], false)
    | some long_name =>
      match g.typeOf long_name with
      | none => ([], false)
      | some .bool => (long_name :: (g.clusterTargets cs).1, (g.clusterTargets cs).2)
      | some _ => ([long_name], true)

/-- The name of a long option: the text between the leading `--` and the first `=`, or to the
end of the token. `body` is the token without its leading `--`. -/
def optionName (body : Str) : Str :=
  body.takeWhile (fun c => c ≠ '=')

/-- The value text of a long option: the text after the first `=`. -/
def optionValue (body : Str) : Str :=
  (body.dropWhile (fun c => c ≠ '=')).drop 1

/-- The occurrences in a token stream: for each token that carries a value to a declaration (a
long option, each character of a short cluster, a plain token), the long name of the declaration
it addresses, in order. A token taken as the value of a short option is not an occurrence. -/
def Grammar.targets (g : Grammar) : List Str → List Str
  | [] => []
  | str :: rest =>
    match str with
    | '-' :: '-' :: body => optionName body :: g.targets rest
    | '-' :: cs =>
      (g.clusterTargets cs).1 ++
        (if (g.clusterTargets cs).2 then
          match rest with
          | [] => []
          | _ :: rest' => g.targets rest'
        else g.targets rest)
    | _ =>
      match g.positional with
      | some key => key :: g.targets rest
      | none => []

/-- The registry after the converted value `val` was stored in the declaration of key `key`. -/
def ArgParser.stored (p : ArgParser) (key : Str) (val : Value) : ArgParser :=
  match find p.argument_map_ key with
  | some d => { p with argument_map_ := assign p.argument_map_ key (d.stored val) }
  | none => p

/-- The values of a trace (pairs of a long name and a stored value, in order) that went to the
declaration of key `key`. -/
def valuesFor (trace : List (Str × Value)) (key : Str) : List Value :=
  (trace.filter (fun e => decide (e.1 = key))).map Prod.snd

/-- The relation between a registry `p` and a later state `q` of it, reached by storing the values
of `trace` (pairs of a long name and a value, in order): names, aliases, types, positional marks
and the classification of tokens are those of `p`; the declaration of every key is the one of `p`
with the values of the trace for that key stored in it, in order. -/
def Advances (p q : ArgParser) (trace : List (Str × Value)) : Prop :=
  q.grammar = p.grammar ∧
  q.long_name_map_ = p.long_name_map_ ∧
  q.help_argument_ = p.help_argument_ ∧
  q.argument_map_.map Prod.fst = p.argument_map_.map Prod.fst ∧
  ∀ key : Str, find q.argument_map_ key =
    (find p.argument_map_ key).map (fun d => (valuesFor trace key).foldl Declaration.stored d)

/-- The conversions a short cluster asks for, in order: for each character the long name it
addresses and the text converted for it, which is `1` for a boolean declaration and the following
token `next` for the value-taking declaration that ends the cluster. -/
def Grammar.clusterCalls (g : Grammar) (next : Option Str) : List Char → List (Str × Str)
  | [] => []
  | c :: cs =>
    match g.aliasOf c with
    | none => []
    | some long_name =>
      match g.typeOf long_name with
      | none => []
      | some .bool => (long_name, ['1']) :: g.clusterCalls next cs
      | some _ => [(long_name, next.getD [])]

/-- The conversions a token stream asks for, in order: for each occurrence the long name it
addresses and the text converted for it. A long option without `=` converts the text `1`, a long
option with `=` the text after its first `=`, a plain token its own text. -/
def Grammar.calls (g : Grammar) : List Str → List (Str × Str)
  | [] => []
  | str :: rest =>
    match str with
    | '-' :: '-' :: body =>
      (optionName body, if '=' ∈ body then optionValue body else ['1']) :: g.calls rest
    | '-' :: cs =>
      g.clusterCalls rest.head? cs ++
        (if (g.clusterTargets cs).2 then
          match rest with
          | [] => []
          | _ :: rest' => g.calls rest'
        else g.calls rest)
    | _ =>
      match g.positional with
      | some key => (key, str) :: g.calls rest
      | none => []

/-- A trace of stored values answers a list of conversions: entry by entry the long names agree
and the stored value is the conversion of the text at the type of the declaration. -/
def Converted (g : Grammar) (calls : List (Str × Str)) (trace : List (Str × Value)) : Prop :=
  List.Forall₂
    (fun call e => e.1 = call.1 ∧ ∃ T, g.typeOf call.1 = some T ∧ extract T call.2 = some e.2)
    calls trace

/-- The registry `q` is `p` with the declaration `d` added under the long name `long_name`:
lookup of that name gives `d`, every other lookup is as in `p`, the entries of the declaration map
are those of `p` and the new one (in some iteration order), and the name, description, help
pointer and positional pointer of the parser are unchanged. -/
def Registered (p q : ArgParser) (long_name : Str) (d : Declaration) : Prop :=
  find q.argument_map_ long_name = some d ∧
  (∀ key, key ≠ long_name → find q.argument_map_ key = find p.argument_map_ key) ∧
  q.argument_map_.Perm ((long_name, d) :: p.argument_map_) ∧
  q.name_ = p.name_ ∧ q.description_ = p.description_ ∧
  q.help_argument_ = p.help_argument_ ∧ q.positional_argument_ = p.positional_argument_

/-- The alias index of `q` is the one of `p` with the alias `short_name` added for `long_name`:
lookup of that character gives `long_name`, every other lookup is as in `p`. -/
def Aliased (p q : ArgParser) (short_name : Char) (long_name : Str) : Prop :=
  find q.long_name_map_ short_name = some long_name ∧
  (∀ c, c ≠ short_name → find q.long_name_map_ c = find p.long_name_map_ c) ∧
  q.long_name_map_.Perm ((short_name, long_name) :: p.long_name_map_)

/-- Whether a short cluster (the characters after the leading `-`) reaches the statement
`++str`, which takes the following token as the value of its last character: its characters but
the last are aliases of boolean declarations and the last is the alias of a non-boolean one. -/
def Grammar.clusterTakesNext (g : Grammar) : List Char → Bool
  | [] => false
  | c :: cs =>
    match g.aliasOf c with
    | none => false
    | some long_name =>
      match g.typeOf long_name with
      | none => false
      | some .bool => g.clusterTakesNext cs
      | some _ => cs.isEmpty

/-- No token `-` of the stream is taken as the value of a short option: along the scan of the
stream, the token that follows a cluster which takes its value from the following token is not
the token `-`. -/
def Grammar.noDashValue (g : Grammar) : List Str → Bool
  | [] => true
  | str :: rest =>
    match str with
    | '-' :: '-' :: _ => g.noDashValue rest
    | '-' :: cs =>
      if g.clusterTakesNext cs then
        match rest with
        | [] => true
        | v :: rest' => decide (v ≠ ['-']) && g.noDashValue rest'
      else g.noDashValue rest
    | _ => g.noDashValue rest

/-- The declaration map `m'` has the entries of `m`, in the same order and under the same keys,
each with some values stored in it (none removed). -/
def Accumulates (m m' : List (Str × Declaration)) : Prop :=
  List.Forall₂ (fun e e' => e'.1 = e.1 ∧ ∃ vals : List Value, e'.2 = vals.foldl Declaration.stored e.2)
    m m'

/-- The alias index is sound: every short name in `long_name_map_` maps to a long name that is a
key of `argument_map_`, and the short name of the declaration under that key is that character. -/
def AliasIndexSound (p : ArgParser) : Prop :=
  ∀ c long_name, find p.long_name_map_ c = some long_name →
    ∃ d, find p.argument_map_ long_name = some d ∧ d.base.short_name_ = some c

/-- The registry states a program reaches from the constructor by calls that return: the
`AddArgument` overloads, `AddFlag`, `AddHelp`, the member functions of the declarations called on
the references those return, and `Parse`. -/
inductive Reachable : ArgParser → Prop
  | new (name : Str) : Reachable (ArgParser.new name)
  | AddArgument (p q : ArgParser) (slot : Nat) (T : TypeTag) (long_name description : Str) :
      Reachable p → p.AddArgument slot T long_name description = .ok q → Reachable q
  | AddArgumentShort (p q : ArgParser) (slot : Nat) (T : TypeTag) (short_name : Char)
      (long_name description : Str) :
      Reachable p → p.AddArgumentShort slot T short_name long_name description = .ok q →
      Reachable q
  | AddArgumentMulti (p q : ArgParser) (slot : Nat) (T : TypeTag) (min_size : Nat)
      (long_name description : Str) :
      Reachable p → p.AddArgumentMulti slot T min_size long_name description = .ok q →
      Reachable q
  | AddArgumentMultiShort (p q : ArgParser) (slot : Nat) (T : TypeTag) (min_size : Nat)
      (short_name : Char) (long_name description : Str) :
      Reachable p →
      p.AddArgumentMultiShort slot T min_size short_name long_name description = .ok q →
      Reachable q
  | AddFlag (p q : ArgParser) (slot : Nat) (long_name description : Str) :
      Reachable p → p.AddFlag slot long_name description = .ok q → Reachable q
  | AddFlagShort (p q : ArgParser) (slot : Nat) (short_name : Char)
      (long_name description : Str) :
      Reachable p → p.AddFlagShort slot short_name long_name description = .ok q → Reachable q
  | AddHelp (p q : ArgParser) (slot : Nat) (description : Str) :
      Reachable p → p.AddHelp slot description = .ok q → Reachable q
  | scalarDefault (p : ArgParser) (long_name : Str) (value : Value) :
      Reachable p → Reachable (p.onScalar long_name (fun a => a.Default value))
  | scalarSetValue (p : ArgParser) (long_name : Str) (value : Value) :
      Reachable p → Reachable (p.onScalar long_name (fun a => a.SetValue value))
  | scalarPositional (p : ArgParser) (long_name : Str) :
      Reachable p → Reachable (p.onScalar long_name (fun a => a.Positional))
  | scalarGetStorage (p : ArgParser) (long_name : Str) :
      Reachable p → Reachable (p.onScalar long_name (fun a => a.GetStorage))
  | repeatedDefault (p : ArgParser) (long_name : Str) (value : Value) :
      Reachable p → Reachable (p.onRepeated long_name (fun a => a.Default value))
  | repeatedSetValue (p : ArgParser) (long_name : Str) (value : Value) :
      Reachable p → Reachable (p.onRepeated long_name (fun a => a.SetValue value))
  | repeatedPositional (p : ArgParser) (long_name : Str) :
      Reachable p → Reachable (p.onRepeated long_name (fun a => a.Positional))
  | Parse (p q : ArgParser) (vec : List Str) (b : Bool) :
      Reachable p → p.Parse vec = .ok (q, b) → Reachable q

/-- The text of a plain decimal numeral: an optional `+` sign, then a run of digits. -/
def numeralText (n : Bool × List Char) : Str :=
  if n.1 then '+' :: n.2 else n.2

/-- The decimal text of an integer: a `-` for a negative number, then the digits of its
absolute value. -/
def decimalText (i : Int) : Str :=
  if i < 0 then '-' :: Nat.toDigits 10 i.natAbs else Nat.toDigits 10 i.natAbs

/-! ## The help formatter (`operator<<` of argument.h, `HelpDescription` of arg_parser.cpp) -/

/-- The line feed character. -/
def newline : Char := Char.ofNat 10

/-- The method `ArgumentBase::GetTypeName`. -/
def GetTypeName : TypeTag → Str
  | .bool => "bool".toList
  | .int => "int".toList
  | .string => "string".toList

/-- Insertion `ss << std::boolalpha << value` of a stored value. -/
def Value.inserted : Value → Str
  | .bool b => if b then "true".toList else "false".toList
  | .int i => decimalText i
  | .string s => s

/-- The virtual method `DefaultValueString` (called only when a default exists). -/
def Declaration.DefaultValueString (d : Declaration) : Str :=
  match d.default_value_ with
  | some v => v.inserted
  | none => []

/-- The friend `operator<<(std::ostream&, const ArgumentBase&)`: the line of a declaration. -/
def Declaration.line (arg : Declaration) : Str :=
  (match arg.base.short_name_ with
    | some c => ['-', c] ++ ",  ".toList
    | none => "     ".toList) ++
  "--".toList ++ arg.base.long_name_ ++
  (if arg.GetType ≠ .bool then "=<".toList ++ GetTypeName arg.GetType ++ ">".toList else []) ++
  (if !arg.base.description_.isEmpty then ", ".toList ++ arg.base.description_ else []) ++
  (if arg.IsPositional || arg.IsMultivalued || arg.HasDefaultValue then
    " [".toList ++
    (if arg.IsPositional then "positional".toList else []) ++
    (if arg.IsMultivalued then
      (if arg.IsPositional then ", ".toList else []) ++
        "multivalued (min = ".toList ++ Nat.toDigits 10 arg.MinSize ++ ")".toList
    else []) ++
    (if arg.HasDefaultValue then
      (if arg.IsPositional || arg.IsMultivalued then ", ".toList else []) ++
        "default = ".toList ++ arg.DefaultValueString
    else []) ++
    "]".toList
  else [])

/-- The main list of `HelpDescription`: the loop over `argument_map_`, one line per entry, and
the empty line after it; nothing for an empty map. -/
def ArgParser.mainList (p : ArgParser) : Str :=
  if !p.argument_map_.isEmpty then
    (p.argument_map_.map (fun e => e.2.line ++ [newline])).flatten ++ [newline]
  else []

/-- The method `HelpDescription`. -/
def ArgParser.HelpDescription (p : ArgParser) : Except Error Str :=
  let head : Str :=
    p.name_ ++ [newline] ++
    (if !p.description_.isEmpty then p.description_ ++ [newline] else []) ++ [newline]
  match p.help_argument_ with
  | none => .ok (head ++ p.mainList)
  | some key =>
    match find p.argument_map_ key with
    | some d => .ok (head ++ p.mainList ++ (d.line ++ [newline]))
    | none => .error .UndefinedBehaviour

/-! ## Example registries and declarations -/

/-- Name of the program, `vec[0]`. -/
def app : Str := "app".toList

/-- The long name used by the tests of the library. -/
def param1 : Str := "param1".toList

/-- Registry of the test `NoDefaultTest`: one scalar string declaration `param1`. -/
def registryString : ArgParser :=
  ⟨"My Parser".toList, [], none, none,
   [(param1, .scalar ⟨⟨param1, none, [], false⟩, .string, none, none⟩)], []⟩

/-- A scalar int declaration holding 7 with default 5. -/
def scalarSetAndDefault : Argument :=
  ⟨⟨param1, none, [], false⟩, .int, some (.int 7), some (.int 5)⟩

/-- A repeated int declaration with minimum count 10 (test `MinCountMultiValueTest`) after the
three values 1, 2, 3 were stored, without default. -/
def repeatedBelowMinimum : ArgumentMulti :=
  ⟨⟨param1, some 'p', [], false⟩, .int, 10, [.int 1, .int 2, .int 3], none⟩

/-- A repeated int declaration with minimum count 1 holding 1, 2, 3, with default 0. -/
def repeatedWithDefault : ArgumentMulti :=
  ⟨⟨param1, some 'p', [], false⟩, .int, 1, [.int 1, .int 2, .int 3], some (.int 0)⟩

/-- Registry of the test `ShortNameTest`: one scalar string declaration `param1` with the short
alias `p`. -/
def registryShort : ArgParser :=
  ⟨"My Parser".toList, [], none, none,
   [(param1, .scalar ⟨⟨param1, some 'p', [], false⟩, .string, none, none⟩)], [('p', param1)]⟩

/-- Registry of the test `FlagsTest`: the flags `flag1`, `flag2`, `flag3` with the aliases `a`,
`b`, `c`; `flag2` has the default true, and `GetStorage` was called on `flag3`. -/
def registryFlags : ArgParser :=
  ⟨"My Parser".toList, [], none, none,
   [("flag1".toList, .scalar ⟨⟨"flag1".toList, some 'a', [], false⟩, .bool, none,
      some (.bool false)⟩),
    ("flag2".toList, .scalar ⟨⟨"flag2".toList, some 'b', [], false⟩, .bool, none,
      some (.bool true)⟩),
    ("flag3".toList, .scalar ⟨⟨"flag3".toList, some 'c', [], false⟩, .bool, some (.bool false),
      some (.bool false)⟩)],
   [('a', "flag1".toList), ('b', "flag2".toList), ('c', "flag3".toList)]⟩

/-- Registry of the test `PositionalArgTest`: one repeated int declaration `Param1` with minimum
count 1, marked positional. -/
def registryPositional : ArgParser :=
  ⟨"My Parser".toList, [], none, none,
   [("Param1".toList, .repeated ⟨⟨"Param1".toList, none, [], true⟩, .int, 1, [], none⟩)], []⟩

/-- Registry of the test `MinCountMultiValueTest`: one repeated int declaration `param1` with
alias `p` and minimum count 10, no default. -/
def registryMinCount : ArgParser :=
  ⟨"My Parser".toList, [], none, none,
   [(param1, .repeated ⟨⟨param1, some 'p', [], false⟩, .int, 10, [], none⟩)], [('p', param1)]⟩

/-- The registry of `MinCountMultiValueTest` after `Default(0)` on its declaration. -/
def registryMinCountDefault : ArgParser :=
  ⟨"My Parser".toList, [], none, none,
   [(param1, .repeated ⟨⟨param1, some 'p', [], false⟩, .int, 10, [], some (.int 0)⟩)],
   [('p', param1)]⟩

/-- The three tokens of the tests `MultiValueTest` and `MinCountMultiValueTest`. -/
def threeValues : List Str :=
  ["--param1=1".toList, "--param1=2".toList, "--param1=3".toList]

/-- A registry with one repeated int declaration `param1`, minimum count 1, default 42. -/
def registryRepeatedDefault : ArgParser :=
  ⟨"My Parser".toList, [], none, none,
   [(param1, .repeated ⟨⟨param1, none, [], false⟩, .int, 1, [], some (.int 42)⟩)], []⟩

/-- Registry of the test `DefaultTest`: one scalar string declaration `param1` with the default
`value1`. -/
def registryDefault : ArgParser :=
  ⟨"My Parser".toList, [], none, none,
   [(param1, .scalar ⟨⟨param1, none, [], false⟩, .string, none,
      some (.string "value1".toList)⟩)], []⟩

/-- The declarations of the test `HelpStringTest`, in its order, every `emplace` linking the new
element in front. -/
def declareHelpTest : Except Error ArgParser := do
  let p ← (ArgParser.new "My Parser".toList).AddHelp 0 "Some Description about program".toList
  let p ← p.AddArgumentMultiShort 0 .string 1 'i' "input".toList
    "File path for input file".toList
  let p ← p.AddFlagShort 0 's' "flag1".toList "Use some logic".toList
  let p := p.onScalar "flag1".toList (fun a => a.Default (.bool true))
  let p ← p.AddFlagShort 0 'p' "flag2".toList "Use some logic".toList
  p.AddArgument 0 .int "number".toList "Some Number".toList

/-- The registry `declareHelpTest` builds. -/
def registryHelpTest : ArgParser :=
  ⟨"My Parser".toList, "Some Description about program".toList, some "help".toList, none,
   [("number".toList, .scalar ⟨⟨"number".toList, none, "Some Number".toList, false⟩, .int,
      none, none⟩),
    ("flag2".toList, .scalar ⟨⟨"flag2".toList, some 'p', "Use some logic".toList, false⟩,
      .bool, none, some (.bool false)⟩),
    ("flag1".toList, .scalar ⟨⟨"flag1".toList, some 's', "Use some logic".toList, false⟩,
      .bool, none, some (.bool true)⟩),
    ("input".toList, .repeated ⟨⟨"input".toList, some 'i', "File path for input file".toList,
      false⟩, .string, 1, [], none⟩),
    ("help".toList, .scalar ⟨⟨"help".toList, some 'h', "Display this help and exit".toList,
      false⟩, .bool, none, some (.bool false)⟩)],
   [('p', "flag2".toList), ('s', "flag1".toList), ('i', "input".toList),
    ('h', "help".toList)]⟩

/-- A registry with the flags `flag1` (alias `a`) and `flag2` (alias `b`), both with default
false, and the scalar string declaration `param1` (alias `x`). -/
def registryMixed : ArgParser :=
  ⟨"My Parser".toList, [], none, none,
   [("flag1".toList, .scalar ⟨⟨"flag1".toList, some 'a', [], false⟩, .bool, none,
      some (.bool false)⟩),
    ("flag2".toList, .scalar ⟨⟨"flag2".toList, some 'b', [], false⟩, .bool, none,
      some (.bool false)⟩),
    (param1, .scalar ⟨⟨param1, some 'x', [], false⟩, .string, none, none⟩)],
   [('a', "flag1".toList), ('b', "flag2".toList), ('x', param1)]⟩

/-- A registry holding one flag `hidden` with the alias `h`, declared as by
`AddFlag('h', "hidden")`. -/
def registryAliasH : ArgParser :=
  ⟨"My Parser".toList, [], none, none,
   [("hidden".toList, .scalar ⟨⟨"hidden".toList, some 'h', [], false⟩, .bool, none,
      some (.bool false)⟩)],
   [('h', "hidden".toList)]⟩

/-- The horizontal tab, a white space character other than the blank. -/
def tab : Char := Char.ofNat 9

/-- The declaration `AddHelp` registers. -/
def helpDeclaration : Declaration :=
  .scalar ⟨⟨"help".toList, some 'h', "Display this help and exit".toList, false⟩, .bool, none,
    some (.bool false)⟩

/-- The line `operator<<` writes for the help declaration. -/
def helpLine : Str := "-h,  --help, Display this help and exit [default = false]".toList

/-- The lines of the text `HelpDescription` returns for the registry of `HelpStringTest`. -/
def helpTestLines : List Str :=
  ["My Parser".toList,
   "Some Description about program".toList,
   [],
   "     --number=<int>, Some Number".toList,
   "-p,  --flag2, Use some logic [default = false]".toList,
   "-s,  --flag1, Use some logic [default = true]".toList,
   "-i,  --input=<string>, File path for input file [multivalued (min = 1)]".toList,
   helpLine,
   [],
   helpLine]

/-- A registry with one scalar int declaration `number`, marked positional. -/
def registryScalarPositional : ArgParser :=
  ⟨"My Parser".toList, [], none, none,
   [("number".toList, .scalar ⟨⟨"number".toList, none, [], true⟩, .int, none, none⟩)], []⟩

/-- The registry after `AddHelp` on a new registry: only the help declaration. -/
def registryHelpOnly : ArgParser :=
  ⟨"My Parser".toList, [], some "help".toList, none,
   [("help".toList, helpDeclaration)], [('h', "help".toList)]⟩

/-- Two scalar string declarations, `first` and then `second`, each marked positional right after
its declaration, every `emplace` linking the new element in front. -/
def declareTwoPositional : Except Error ArgParser := do
  let p ← (ArgParser.new "My Parser".toList).AddArgument 0 .string "first".toList
  let p := p.onScalar "first".toList (fun a => a.Positional)
  let p ← p.AddArgument 0 .string "second".toList
  pure (p.onScalar "second".toList (fun a => a.Positional))

/-- The registry `declareTwoPositional` builds. -/
def registryTwoPositional : ArgParser :=
  ⟨"My Parser".toList, [], none, none,
   [("second".toList, .scalar ⟨⟨"second".toList, none, [], true⟩, .string, none, none⟩),
    ("first".toList, .scalar ⟨⟨"first".toList, none, [], true⟩, .string, none, none⟩)], []⟩

/-- A scalar int declaration `param1` without value and without default (test `IntTest`). -/
def scalarInt : Argument :=
  ⟨⟨param1, none, [], false⟩, .int, none, none⟩

/-- A repeated int declaration `param1` with alias `p` and minimum count 1, nothing stored
(test `MultiValueTest`). -/
def repeatedInt : ArgumentMulti :=
  ⟨⟨param1, some 'p', [], false⟩, .int, 1, [], none⟩

/-- Registry of the test `MultiValueTest`: one repeated int declaration `param1` with alias `p`
and minimum count 1. -/
def registryMultiValue : ArgParser :=
  ⟨"My Parser".toList, [], none, none, [(param1, .repeated repeatedInt)], [('p', param1)]⟩

/-! ## Lemmas on the containers -/

theorem find_nil {κ ν : Type} [DecidableEq κ] (k : κ) : find ([] : List (κ × ν)) k = none := rfl

theorem find_cons {κ ν : Type} [DecidableEq κ] (e : κ × ν) (m : List (κ × ν)) (k : κ) :
    find (e :: m) k = if e.1 = k then some e.2 else find m k := by
  by_cases h : e.1 = k <;> simp [find, List.find?_cons, h]

theorem find_assign {κ ν : Type} [DecidableEq κ] (m : List (κ × ν)) (k k' : κ) (v : ν) :
    find (assign m k v) k' = if k' = k then (find m k).map (fun _ => v) else find m k' := by
  induction m with
  | nil => simp [assign, find_nil]
  | cons e m ih =>
    by_cases hk : e.1 = k
    · by_cases hk' : k' = k
      · subst hk'
        simp [assign, find_cons, hk]
      · have hne : ¬ e.1 = k' := fun h => hk' (h ▸ hk)
        have hne' : ¬ k = k' := fun h => hk' h.symm
        simp [assign, find_cons, hk, hk', hne']
    · by_cases hk' : k' = k
      · subst hk'
        simp [assign, find_cons, hk, ih]
      · simp only [assign, hk, if_false, find_cons, ih, hk']

theorem map_fst_assign {κ ν : Type} [DecidableEq κ] (m : List (κ × ν)) (k : κ) (v : ν) :
    (assign m k v).map Prod.fst = m.map Prod.fst := by
  induction m with
  | nil => rfl
  | cons e m ih =>
    by_cases hk : e.1 = k
    · simp [assign, hk]
    · simp [assign, hk, ih]

theorem find?_assign {κ ν : Type} [DecidableEq κ] (P : ν → Bool) (m : List (κ × ν)) (k : κ)
    (v d : ν) (h : find m k = some d) (hP : P v = P d) :
    ((assign m k v).find? (fun e => P e.2)).map Prod.fst =
      (m.find? (fun e => P e.2)).map Prod.fst := by
  induction m with
  | nil => rfl
  | cons e m ih =>
    by_cases hk : e.1 = k
    · have hd : e.2 = d := by simpa [find_cons, hk] using h
      cases hPd : P d
      · simp [assign, hk, List.find?_cons, hP, hPd, hd]
      · simp [assign, hk, List.find?_cons, hP, hPd, hd]
    · have h' : find m k = some d := by simpa [find_cons, hk] using h
      cases hPe : P e.2
      · simp [assign, hk, List.find?_cons, hPe, ih h']
      · simp [assign, hk, List.find?_cons, hPe]

/-! ## Lemmas on declarations -/

theorem Declaration.SetValueFromString_eq (d : Declaration) (s : Str) :
    d.SetValueFromString s =
      match extract d.GetType s with
      | some val => .ok (d.stored val)
      | none => .error .InvalidArgumentType := by
  cases d with
  | scalar a =>
    simp only [Declaration.SetValueFromString, Argument.SetValueFromString, Declaration.GetType]
    cases extract a.T s <;> rfl
  | repeated a =>
    simp only [Declaration.SetValueFromString, ArgumentMulti.SetValueFromString,
      Declaration.GetType]
    cases extract a.T s <;> rfl

theorem Declaration.GetType_stored (d : Declaration) (val : Value) :
    (d.stored val).GetType = d.GetType := by
  cases d <;> rfl

theorem Declaration.IsPositional_stored (d : Declaration) (val : Value) :
    (d.stored val).IsPositional = d.IsPositional := by
  cases d <;> rfl

theorem Declaration.default_value__stored (d : Declaration) (val : Value) :
    (d.stored val).default_value_ = d.default_value_ := by
  cases d <;> rfl

theorem extract_bool_one : extract .bool ['1'] = some (.bool true) := by
  rfl

/-! ## Lemmas on formatted extraction -/

theorem digitsValue_append (l : List Char) (c : Char) :
    digitsValue (l ++ [c]) = 10 * digitsValue l + (c.toNat - 48) := by
  simp [digitsValue, List.foldl_append]

theorem digitChar_isdigit (m : Nat) (h : m < 10) :
    isdigit (Nat.digitChar m) = true ∧ (Nat.digitChar m).toNat - 48 = m := by
  interval_cases m <;> exact ⟨rfl, rfl⟩

/-- The digits `Nat.toDigitsCore` puts in front of its accumulator: a non-empty run of decimal
digits whose value is the number. -/
theorem toDigitsCore_spec (fuel : Nat) :
    ∀ (n : Nat) (ds : List Char), n < fuel →
      ∃ l, Nat.toDigitsCore 10 fuel n ds = l ++ ds ∧ l ≠ [] ∧
        (∀ c ∈ l, isdigit c = true) ∧ digitsValue l = n := by
  induction fuel with
  | zero => intro n ds h; omega
  | succ fuel ih =>
    intro n ds h
    have hmod : n % 10 < 10 := Nat.mod_lt _ (by decide)
    obtain ⟨hdig, hval⟩ := digitChar_isdigit (n % 10) hmod
    by_cases hq : n / 10 = 0
    · refine ⟨[Nat.digitChar (n % 10)], ?_, by simp, ?_, ?_⟩
      · simp [Nat.toDigitsCore, hq]
      · intro c hc
        rw [List.mem_singleton.mp hc]
        exact hdig
      · have hn : n % 10 = n := by omega
        simp only [digitsValue, List.foldl_cons, List.foldl_nil, hval]
        omega
    · have hlt : n / 10 < fuel := by omega
      obtain ⟨l, hl, hne, hall, hv⟩ := ih (n / 10) (Nat.digitChar (n % 10) :: ds) hlt
      refine ⟨l ++ [Nat.digitChar (n % 10)], ?_, by simp, ?_, ?_⟩
      · simp [Nat.toDigitsCore, hq, hl]
      · intro c hc
        rcases List.mem_append.mp hc with hc | hc
        · exact hall c hc
        · rw [List.mem_singleton.mp hc]
          exact hdig
      · rw [digitsValue_append, hv, hval]
        omega

theorem toDigits_spec (n : Nat) :
    Nat.toDigits 10 n ≠ [] ∧ (∀ c ∈ Nat.toDigits 10 n, isdigit c = true) ∧
      digitsValue (Nat.toDigits 10 n) = n := by
  obtain ⟨l, hl, hne, hall, hv⟩ := toDigitsCore_spec (n + 1) n [] (Nat.lt_succ_self n)
  rw [List.append_nil] at hl
  rw [Nat.toDigits, hl]
  exact ⟨hne, hall, hv⟩

theorem isdigit_not_special {c : Char} (h : isdigit c = true) :
    isspace c = false ∧ c ≠ '-' ∧ c ≠ '+' := by
  simp only [isdigit, Bool.and_eq_true, decide_eq_true_eq] at h
  refine ⟨?_, ?_, ?_⟩
  · simp only [isspace, Bool.or_eq_false_iff, decide_eq_false_iff_not, Bool.and_eq_false_iff]
    omega
  · intro e
    rw [e] at h
    revert h
    decide
  · intro e
    rw [e] at h
    revert h
    decide

theorem takeWhile_eq_self_of_all {P : Char → Bool} {l : List Char} (h : ∀ c ∈ l, P c = true) :
    l.takeWhile P = l := by
  induction l with
  | nil => rfl
  | cons x xs ih =>
    rw [List.takeWhile_cons, h x (by simp), ih (fun c hc => h c (by simp [hc]))]
    rfl

/-- The numeral read from a non-empty run of digits is its value. -/
theorem readInteger_digits (l : List Char) (hne : l ≠ []) (hall : ∀ c ∈ l, isdigit c = true) :
    readInteger l = some (digitsValue l : Int) := by
  cases l with
  | nil => exact absurd rfl hne
  | cons x xs =>
    obtain ⟨hsp, hminus, hplus⟩ := isdigit_not_special (hall x (by simp))
    have hdrop : (x :: xs).dropWhile isspace = x :: xs := by
      rw [List.dropWhile_cons, hsp]
      rfl
    have htake : (x :: xs).takeWhile isdigit = x :: xs := takeWhile_eq_self_of_all hall
    have hsign : (match x :: xs with
        | '-' :: r => (true, r)
        | '+' :: r => (false, r)
        | _ => (false, x :: xs)) = (false, x :: xs) := by
      split
      · rename_i r heq
        exact absurd (by injection heq) hminus
      · rename_i r heq
        exact absurd (by injection heq) hplus
      · rfl
    simp only [readInteger, hdrop, hsign, htake]
    rfl

/-- The numeral read from `-` followed by a non-empty run of digits is minus its value. -/
theorem readInteger_minus_digits (l : List Char) (hne : l ≠ [])
    (hall : ∀ c ∈ l, isdigit c = true) :
    readInteger ('-' :: l) = some (-(digitsValue l : Int)) := by
  have hdrop : ('-' :: l).dropWhile isspace = '-' :: l := by
    rw [List.dropWhile_cons]
    rfl
  have htake : l.takeWhile isdigit = l := takeWhile_eq_self_of_all hall
  have hempty : l.isEmpty = false := by
    cases l with
    | nil => exact absurd rfl hne
    | cons x xs => rfl
  simp only [readInteger, hdrop, htake, hempty]
  rfl

/-- Reading back the decimal text of an integer gives the integer. -/
theorem readInteger_decimalText (i : Int) : readInteger (decimalText i) = some i := by
  obtain ⟨hne, hall, hv⟩ := toDigits_spec i.natAbs
  unfold decimalText
  by_cases hi : i < 0
  · rw [if_pos hi, readInteger_minus_digits _ hne hall, hv]
    congr 1
    omega
  · rw [if_neg hi, readInteger_digits _ hne hall, hv]
    congr 1
    omega

theorem extractInt_decimalText (i : Int) (hlo : INT_MIN ≤ i) (hhi : i ≤ INT_MAX) :
    extractInt (decimalText i) = some i := by
  simp only [extractInt, readInteger_decimalText]
  rw [if_pos ⟨hlo, hhi⟩]

theorem extractString_word (v : Str) (hne : v ≠ []) (hall : ∀ c ∈ v, isspace c = false) :
    extractString v = some v := by
  cases v with
  | nil => exact absurd rfl hne
  | cons x xs =>
    have hdrop : (x :: xs).dropWhile isspace = x :: xs := by
      rw [List.dropWhile_cons, hall x (by simp)]
      rfl
    have htake : (x :: xs).takeWhile (fun c => !isspace c) = x :: xs :=
      takeWhile_eq_self_of_all (fun c hc => by simp [hall c hc])
    simp only [extractString, hdrop, htake]
    rfl

/-! ## Lemmas on the registry -/

theorem ArgParser.store_SetValueFromString (p : ArgParser) (key : Str) (d : Declaration)
    (s : Str) (h : find p.argument_map_ key = some d) :
    p.store key (d.SetValueFromString s) =
      match extract d.GetType s with
      | some val => .ok (p.stored key val)
      | none => .error .InvalidArgumentType := by
  rw [Declaration.SetValueFromString_eq]
  cases extract d.GetType s with
  | none => rfl
  | some val => simp [ArgParser.store, ArgParser.stored, h]

theorem ArgParser.find_stored (p : ArgParser) (key key' : Str) (val : Value) :
    find (p.stored key val).argument_map_ key' =
      if key' = key then (find p.argument_map_ key).map (fun d => d.stored val)
      else find p.argument_map_ key' := by
  unfold ArgParser.stored
  cases h : find p.argument_map_ key with
  | none =>
    by_cases hk : key' = key
    · subst hk; simp [h]
    · simp [hk]
  | some d => simp [find_assign, h]

theorem ArgParser.long_name_map__stored (p : ArgParser) (key : Str) (val : Value) :
    (p.stored key val).long_name_map_ = p.long_name_map_ := by
  unfold ArgParser.stored
  cases find p.argument_map_ key <;> rfl

theorem ArgParser.positional_argument__stored (p : ArgParser) (key : Str) (val : Value) :
    (p.stored key val).positional_argument_ = p.positional_argument_ := by
  unfold ArgParser.stored
  cases find p.argument_map_ key <;> rfl

theorem ArgParser.help_argument__stored (p : ArgParser) (key : Str) (val : Value) :
    (p.stored key val).help_argument_ = p.help_argument_ := by
  unfold ArgParser.stored
  cases find p.argument_map_ key <;> rfl

theorem ArgParser.keys_stored (p : ArgParser) (key : Str) (val : Value) :
    (p.stored key val).argument_map_.map Prod.fst = p.argument_map_.map Prod.fst := by
  unfold ArgParser.stored
  cases find p.argument_map_ key with
  | none => rfl
  | some d => exact map_fst_assign _ _ _

theorem ArgParser.grammar_stored (p : ArgParser) (key : Str) (val : Value) :
    (p.stored key val).grammar = p.grammar := by
  have htype : (fun k => (find (p.stored key val).argument_map_ k).map Declaration.GetType) =
      fun k => (find p.argument_map_ k).map Declaration.GetType := by
    funext k
    rw [ArgParser.find_stored]
    by_cases hk : k = key
    · subst hk
      cases find p.argument_map_ k <;> simp [Declaration.GetType_stored]
    · simp [hk]
  have hpos : ((p.stored key val).argument_map_.find? (fun e => e.2.IsPositional)).map Prod.fst =
      (p.argument_map_.find? (fun e => e.2.IsPositional)).map Prod.fst := by
    unfold ArgParser.stored
    cases h : find p.argument_map_ key with
    | none => rfl
    | some d =>
      exact find?_assign Declaration.IsPositional _ _ _ _ h (Declaration.IsPositional_stored d val)
  simp only [ArgParser.grammar, htype, hpos, ArgParser.long_name_map__stored,
    ArgParser.positional_argument__stored]

/-! ## The three branches of `Parse` in terms of the vocabulary of the specification -/

open ArgParser

theorem strFind_eq_none {s : Str} {c : Char} : strFind s c = none ↔ c ∉ s := by
  induction s with
  | nil => simp [strFind]
  | cons x xs ih =>
    by_cases h : x = c
    · simp [strFind, h]
    · have h' : ¬ c = x := fun e => h e.symm
      simp [strFind, h, h', ih]

theorem strFind_some {s : Str} {c : Char} {b : Nat} (h : strFind s c = some b) :
    s.take b = s.takeWhile (fun x => x ≠ c) ∧
    s.drop (b + 1) = (s.dropWhile (fun x => x ≠ c)).drop 1 := by
  induction s generalizing b with
  | nil => simp [strFind] at h
  | cons x xs ih =>
    by_cases hx : x = c
    · simp only [strFind, hx, if_true, Option.some.injEq] at h
      subst h
      simp [List.takeWhile_cons, List.dropWhile_cons, hx]
    · simp only [strFind, hx, if_false] at h
      cases hf : strFind xs c with
      | none => simp [hf] at h
      | some b' =>
        simp only [hf, Option.map_some', Option.some.injEq] at h
        subst h
        obtain ⟨h1, h2⟩ := ih hf
        have hdx : decide (x ≠ c) = true := by simpa using hx
        refine ⟨?_, ?_⟩
        · rw [List.take_succ_cons, List.takeWhile_cons, hdx, h1]
          rfl
        · rw [List.drop_succ_cons, List.dropWhile_cons, hdx, h2]
          rfl

theorem takeWhile_ne_of_not_mem {s : Str} {c : Char} (h : c ∉ s) :
    s.takeWhile (fun x => x ≠ c) = s := by
  induction s with
  | nil => rfl
  | cons x xs ih =>
    have hx : ¬ x = c := fun e => h (by simp [e])
    have hxs : c ∉ xs := fun e => h (by simp [e])
    have hdx : decide (x ≠ c) = true := by simpa using hx
    rw [List.takeWhile_cons, hdx, ih hxs]
    rfl

theorem ArgParser.Parse.longOption_eq (p : ArgParser) (body : Str) :
    ArgParser.Parse.longOption p ('-' :: '-' :: body) =
      match find p.argument_map_ (optionName body) with
      | none => .error .UnknownArgument
      | some d =>
        if '=' ∉ body then
          if d.GetType = .bool then .ok (p.stored (optionName body) (.bool true))
          else .error .NoArgumentValue
        else if d.GetType ≠ .bool ∧ optionValue body = [] then .error .NoArgumentValue
        else
          match extract d.GetType (optionValue body) with
          | some val => .ok (p.stored (optionName body) val)
          | none => .error .InvalidArgumentType := by
  have hfind : strFind ('-' :: '-' :: body) '=' = (strFind body '=').map (fun i => i + 2) := by
    have h1 : ¬ ('-' = '=') := by decide
    simp only [strFind, h1, if_false, Option.map_map]
    rfl
  unfold ArgParser.Parse.longOption
  simp only [hfind]
  cases hb : strFind body '=' with
  | none =>
    have hmem : '=' ∉ body := strFind_eq_none.mp hb
    have hname : optionName body = body := takeWhile_ne_of_not_mem hmem
    simp only [Option.map_none', List.drop_succ_cons, List.drop_zero, hname]
    cases hd : find p.argument_map_ body with
    | none => rfl
    | some d =>
      dsimp only
      rw [if_pos trivial, if_pos hmem]
      by_cases hT : d.GetType = .bool
      · rw [if_pos hT, if_pos hT, ArgParser.store_SetValueFromString p body d _ hd, hT,
          extract_bool_one]
      · rw [if_neg hT, if_neg hT]
  | some b =>
    have hmem : ¬ ('=' ∉ body) := fun h => by
      rw [strFind_eq_none.mpr h] at hb
      cases hb
    obtain ⟨h1, h2⟩ := strFind_some hb
    have hname : substr ('-' :: '-' :: body) 2 (b + 2 - 2) = optionName body := by
      have hb2 : b + 2 - 2 = b := by omega
      rw [hb2]
      exact h1
    have hvalue : ('-' :: '-' :: body).drop (b + 2 + 1) = optionValue body := by
      have hb3 : b + 2 + 1 = (b + 1) + 1 + 1 := by omega
      rw [hb3, List.drop_succ_cons, List.drop_succ_cons, h2]
      rfl
    simp only [Option.map_some', hname, hvalue]
    cases hd : find p.argument_map_ (optionName body) with
    | none => rfl
    | some d =>
      have hne : ¬ (some (b + 2) = (none : Option Nat)) := by simp
      dsimp only
      rw [if_neg hne, if_neg hmem]
      by_cases hc : d.GetType ≠ .bool ∧ optionValue body = []
      · have hc' : d.GetType ≠ .bool ∧ (optionValue body).isEmpty = true := by
          simpa using hc
        rw [if_pos hc, if_pos hc']
      · have hc' : ¬ (d.GetType ≠ .bool ∧ (optionValue body).isEmpty = true) := by
          simpa using hc
        rw [if_neg hc, if_neg hc']
        exact ArgParser.store_SetValueFromString p _ d _ hd

theorem ArgParser.Parse.cluster_cons (next : Option Str) (p : ArgParser) (c : Char)
    (cs : List Char) :
    ArgParser.Parse.cluster next p (c :: cs) =
      match find p.long_name_map_ c with
      | none => .error .UnknownArgument
      | some long_name =>
        match find p.argument_map_ long_name with
        | none => .error .UndefinedBehaviour
        | some d =>
          if d.GetType = .bool then
            ArgParser.Parse.cluster next (p.stored long_name (.bool true)) cs
          else if cs ≠ [] then .error .UnknownArgument
          else
            match next with
            | none => .error .NoArgumentValue
            | some v =>
              match extract d.GetType v with
              | some val => .ok (p.stored long_name val, true)
              | none => .error .InvalidArgumentType := by
  rw [ArgParser.Parse.cluster]
  cases hn : find p.long_name_map_ c with
  | none => rfl
  | some long_name =>
    dsimp only
    cases hd : find p.argument_map_ long_name with
    | none => rfl
    | some d =>
      dsimp only
      by_cases hT : d.GetType = .bool
      · rw [if_pos hT, if_pos hT, ArgParser.store_SetValueFromString p long_name d _ hd, hT,
          extract_bool_one]
      · rw [if_neg hT, if_neg hT]
        by_cases hcs : cs ≠ []
        · rw [if_pos hcs, if_pos hcs]
        · rw [if_neg hcs, if_neg hcs]
          cases next with
          | none => rfl
          | some v =>
            dsimp only
            rw [ArgParser.store_SetValueFromString p long_name d _ hd]
            cases extract d.GetType v <;> rfl

theorem ArgParser.Parse.plain_eq (p : ArgParser) (str : Str) :
    ArgParser.Parse.plain p str =
      match p.grammar.positional with
      | none => .error .NoPositionalArgument
      | some key =>
        match find p.argument_map_ key with
        | none => .error .UndefinedBehaviour
        | some d =>
          match extract d.GetType str with
          | some val => .ok (({ p with positional_argument_ := some key }).stored key val)
          | none => .error .InvalidArgumentType := by
  have hstep : ∀ key : Str,
      (match find p.argument_map_ key with
        | none => (.error .UndefinedBehaviour : Except Error ArgParser)
        | some argument =>
          ({ p with positional_argument_ := some key }).store key
            (argument.SetValueFromString str)) =
      match find p.argument_map_ key with
        | none => .error .UndefinedBehaviour
        | some d =>
          match extract d.GetType str with
          | some val => .ok (({ p with positional_argument_ := some key }).stored key val)
          | none => .error .InvalidArgumentType := by
    intro key
    cases hd : find p.argument_map_ key with
    | none => rfl
    | some d =>
      exact ArgParser.store_SetValueFromString { p with positional_argument_ := some key }
        key d str hd
  unfold ArgParser.Parse.plain
  simp only [ArgParser.grammar]
  cases p.positional_argument_ with
  | some key => exact hstep key
  | none =>
    dsimp only
    cases (p.argument_map_.find? (fun e => e.2.IsPositional)) with
    | none => rfl
    | some e => exact hstep e.1

theorem optionName_append (n v : Str) (h : '=' ∉ n) : optionName (n ++ '=' :: v) = n := by
  have hall : ∀ c ∈ n, (fun c : Char => decide (c ≠ '=')) c = true := by
    intro c hc
    have : c ≠ '=' := fun e => h (e ▸ hc)
    simpa using this
  unfold optionName
  rw [List.takeWhile_append_of_pos hall, List.takeWhile_cons]
  simp

theorem optionValue_append (n v : Str) (h : '=' ∉ n) : optionValue (n ++ '=' :: v) = v := by
  have hall : ∀ c ∈ n, (fun c : Char => decide (c ≠ '=')) c = true := by
    intro c hc
    have : c ≠ '=' := fun e => h (e ▸ hc)
    simpa using this
  unfold optionValue
  rw [List.dropWhile_append_of_pos hall, List.dropWhile_cons]
  simp

theorem ArgParser.GetArgumentValue_stored (p : ArgParser) (n : Str) (a : Argument)
    (val : Value) (h : find p.argument_map_ n = some (.scalar a)) :
    (p.stored n val).GetArgumentValue a.T n = .ok val := by
  have hf : find (p.stored n val).argument_map_ n =
      some (.scalar { a with value_ := some val }) := by
    rw [ArgParser.find_stored, if_pos rfl, h]
    rfl
  simp [ArgParser.GetArgumentValue, hf, Declaration.GetType, Argument.GetValue,
    Argument.HasValue]

/-! ## The effect of a token stream on the registry -/

theorem valuesFor_append (t₁ t₂ : List (Str × Value)) (key : Str) :
    valuesFor (t₁ ++ t₂) key = valuesFor t₁ key ++ valuesFor t₂ key := by
  simp [valuesFor]

theorem length_valuesFor (trace : List (Str × Value)) (key : Str) :
    (valuesFor trace key).length = (trace.map Prod.fst).count key := by
  induction trace with
  | nil => rfl
  | cons e t ih =>
    by_cases h : e.1 = key
    · simp [valuesFor, List.filter_cons, h, List.count_cons] at ih ⊢
      exact ih
    · simp [valuesFor, List.filter_cons, h, List.count_cons] at ih ⊢
      exact ih

theorem Advances.refl (p : ArgParser) : Advances p p [] := by
  refine ⟨rfl, rfl, rfl, rfl, fun key => ?_⟩
  cases find p.argument_map_ key <;> rfl

theorem Advances.trans {p q r : ArgParser} {t₁ t₂ : List (Str × Value)}
    (h₁ : Advances p q t₁) (h₂ : Advances q r t₂) : Advances p r (t₁ ++ t₂) := by
  obtain ⟨g₁, n₁, e₁, k₁, f₁⟩ := h₁
  obtain ⟨g₂, n₂, e₂, k₂, f₂⟩ := h₂
  refine ⟨g₂.trans g₁, n₂.trans n₁, e₂.trans e₁, k₂.trans k₁, fun key => ?_⟩
  rw [f₂, f₁, valuesFor_append]
  cases find p.argument_map_ key with
  | none => rfl
  | some d => simp [List.foldl_append]

theorem Advances.stored (p : ArgParser) (key : Str) (val : Value) :
    Advances p (p.stored key val) [(key, val)] := by
  refine ⟨ArgParser.grammar_stored p key val, ArgParser.long_name_map__stored p key val,
    ArgParser.help_argument__stored p key val, ArgParser.keys_stored p key val, fun key' => ?_⟩
  rw [ArgParser.find_stored]
  by_cases hk : key' = key
  · subst hk
    cases find p.argument_map_ key' <;> simp [valuesFor]
  · have hk' : ¬ key = key' := fun e => hk e.symm
    rw [if_neg hk]
    cases find p.argument_map_ key' <;> simp [valuesFor, hk']

theorem Advances.bound (p : ArgParser) (key : Str) (h : p.grammar.positional = some key) :
    Advances p { p with positional_argument_ := some key } [] := by
  refine ⟨?_, rfl, rfl, rfl, fun key' => ?_⟩
  · simp only [ArgParser.grammar] at h ⊢
    rw [h]
  · cases find p.argument_map_ key' <;> rfl

theorem ArgParser.Parse.longOption_advances (p q : ArgParser) (body : Str)
    (h : Parse.longOption p ('-' :: '-' :: body) = .ok q) :
    ∃ val, Advances p q [(optionName body, val)] := by
  rw [ArgParser.Parse.longOption_eq] at h
  cases hd : find p.argument_map_ (optionName body) with
  | none => rw [hd] at h; cases h
  | some d =>
    rw [hd] at h
    dsimp only at h
    have key : ∀ val, (Except.ok (p.stored (optionName body) val) : Except Error ArgParser) =
        .ok q → ∃ val, Advances p q [(optionName body, val)] := by
      intro val hq
      simp only [Except.ok.injEq] at hq
      subst hq
      exact ⟨val, Advances.stored p _ val⟩
    split at h
    · split at h
      · exact key _ h
      · cases h
    · split at h
      · cases h
      · split at h
        · exact key _ h
        · cases h

theorem ArgParser.Parse.cluster_advances (next : Option Str) (cs : List Char) :
    ∀ (p q : ArgParser) (consumed : Bool), Parse.cluster next p cs = .ok (q, consumed) →
      (∃ trace, trace.map Prod.fst = (p.grammar.clusterTargets cs).1 ∧ Advances p q trace ∧
        ∀ e ∈ trace, p.grammar.typeOf e.1 = some .bool → e.2 = .bool true) ∧
      consumed = (p.grammar.clusterTargets cs).2 ∧
      (consumed = true → next.isSome = true) := by
  induction cs with
  | nil =>
    intro p q consumed h
    simp only [ArgParser.Parse.cluster, Except.ok.injEq, Prod.mk.injEq] at h
    obtain ⟨rfl, rfl⟩ := h
    exact ⟨⟨[], rfl, Advances.refl p, fun e he => by cases he⟩, rfl, fun h => by cases h⟩
  | cons c cs ih =>
    intro p q consumed h
    rw [ArgParser.Parse.cluster_cons] at h
    have halias : p.grammar.aliasOf c = find p.long_name_map_ c := rfl
    cases hn : find p.long_name_map_ c with
    | none => rw [hn] at h; cases h
    | some long_name =>
      rw [hn] at h
      dsimp only at h
      have htype : p.grammar.typeOf long_name =
          (find p.argument_map_ long_name).map Declaration.GetType := rfl
      cases hd : find p.argument_map_ long_name with
      | none => rw [hd] at h; cases h
      | some d =>
        rw [hd] at h
        dsimp only at h
        rw [hd, Option.map_some'] at htype
        by_cases hT : d.GetType = .bool
        · rw [if_pos hT] at h
          obtain ⟨⟨trace, hfst, ha, hval⟩, hc, hnext⟩ := ih _ _ _ h
          have hg := ArgParser.grammar_stored p long_name (.bool true)
          rw [hg] at hfst hc hval
          have hstep := Advances.stored p long_name (.bool true)
          have htargets : p.grammar.clusterTargets (c :: cs) =
              (long_name :: (p.grammar.clusterTargets cs).1, (p.grammar.clusterTargets cs).2) := by
            rw [Grammar.clusterTargets, halias, hn]
            dsimp only
            rw [htype, hT]
          rw [htargets]
          refine ⟨⟨(long_name, .bool true) :: trace, ?_, hstep.trans ha, ?_⟩, hc, hnext⟩
          · simp [hfst]
          · intro e he hb
            rcases List.mem_cons.mp he with rfl | he
            · rfl
            · exact hval e he hb
        · rw [if_neg hT] at h
          have htargets : p.grammar.clusterTargets (c :: cs) = ([long_name], true) := by
            rw [Grammar.clusterTargets, halias, hn]
            dsimp only
            rw [htype]
            cases hG : d.GetType with
            | bool => exact absurd hG hT
            | int => rfl
            | string => rfl
          rw [htargets]
          split at h
          · cases h
          · cases next with
            | none => cases h
            | some v =>
              dsimp only at h
              cases he : extract d.GetType v with
              | none => rw [he] at h; cases h
              | some val =>
                rw [he] at h
                simp only [Except.ok.injEq, Prod.mk.injEq] at h
                obtain ⟨rfl, rfl⟩ := h
                refine ⟨⟨[(long_name, val)], rfl, Advances.stored p long_name val, ?_⟩, rfl,
                  fun _ => rfl⟩
                intro e he hb
                rw [List.mem_singleton.mp he, htype] at hb
                exact absurd (Option.some.inj hb) hT

theorem ArgParser.Parse.plain_advances (p q : ArgParser) (str : Str)
    (h : Parse.plain p str = .ok q) :
    ∃ key val, p.grammar.positional = some key ∧ Advances p q [(key, val)] := by
  rw [ArgParser.Parse.plain_eq] at h
  cases hk : p.grammar.positional with
  | none => rw [hk] at h; cases h
  | some key =>
    rw [hk] at h
    dsimp only at h
    cases hd : find p.argument_map_ key with
    | none => rw [hd] at h; cases h
    | some d =>
      rw [hd] at h
      dsimp only at h
      cases he : extract d.GetType str with
      | none => rw [he] at h; cases h
      | some val =>
        rw [he] at h
        simp only [Except.ok.injEq] at h
        subst h
        have h1 := Advances.bound p key hk
        have h2 := Advances.stored { p with positional_argument_ := some key } key val
        exact ⟨key, val, rfl, h1.trans h2⟩

theorem ArgParser.Parse.loop_long (p : ArgParser) (body : Str) (rest : List Str) :
    Parse.loop p (('-' :: '-' :: body) :: rest) =
      match Parse.longOption p ('-' :: '-' :: body) with
      | .error e => .error e
      | .ok q => Parse.loop q rest := by
  rw [ArgParser.Parse.loop]

theorem ArgParser.Parse.loop_short (p : ArgParser) (cs : List Char) (rest : List Str)
    (h : ∀ cs', cs ≠ '-' :: cs') :
    Parse.loop p (('-' :: cs) :: rest) =
      match Parse.cluster rest.head? p cs with
      | .error e => .error e
      | .ok (q, consumed) => Parse.loop q (if consumed then rest.tail else rest) := by
  rw [ArgParser.Parse.loop.eq_3 p rest cs (fun body hb => h body hb)]
  cases hc : Parse.cluster rest.head? p cs with
  | error e => rfl
  | ok r =>
    obtain ⟨q, consumed⟩ := r
    cases consumed
    · rfl
    · cases rest with
      | nil => simp [ArgParser.Parse.loop]
      | cons v rest' => rfl

theorem ArgParser.Parse.loop_plain (p : ArgParser) (str : Str) (rest : List Str)
    (h : ∀ cs, str ≠ '-' :: cs) :
    Parse.loop p (str :: rest) =
      match Parse.plain p str with
      | .error e => .error e
      | .ok q => Parse.loop q rest := by
  exact ArgParser.Parse.loop.eq_4 p str rest (fun body hb => h _ hb) (fun cs hb => h _ hb)

theorem Grammar.targets_long (g : Grammar) (body : Str) (rest : List Str) :
    g.targets (('-' :: '-' :: body) :: rest) = optionName body :: g.targets rest := by
  rw [Grammar.targets]

theorem Grammar.targets_short (g : Grammar) (cs : List Char) (rest : List Str)
    (h : ∀ cs', cs ≠ '-' :: cs') :
    g.targets (('-' :: cs) :: rest) =
      (g.clusterTargets cs).1 ++
        g.targets (if (g.clusterTargets cs).2 then rest.tail else rest) := by
  cases rest with
  | nil =>
    rw [Grammar.targets.eq_3 g cs (fun body hb => h body hb)]
    cases (g.clusterTargets cs).2 <;> simp [Grammar.targets]
  | cons v rest' =>
    rw [Grammar.targets.eq_4 g cs v rest' (fun body hb => h body hb)]
    cases (g.clusterTargets cs).2 <;> rfl

theorem Grammar.targets_plain (g : Grammar) (str : Str) (rest : List Str)
    (h : ∀ cs, str ≠ '-' :: cs) :
    g.targets (str :: rest) =
      match g.positional with
      | some key => key :: g.targets rest
      | none => [] := by
  exact Grammar.targets.eq_5 g str rest (fun body hb => h _ hb) (fun cs hb => h _ hb)

/-- Every token starts with `--`, or with `-` not followed by `-`, or with no `-`. -/
theorem token_cases (str : Str) :
    (∃ body, str = '-' :: '-' :: body) ∨
    (∃ cs, str = '-' :: cs ∧ ∀ cs', cs ≠ '-' :: cs') ∨
    (∀ cs, str ≠ '-' :: cs) := by
  cases str with
  | nil => exact Or.inr (Or.inr (fun cs h => by cases h))
  | cons c cs =>
    by_cases hc : c = '-'
    · subst hc
      cases cs with
      | nil => exact Or.inr (Or.inl ⟨[], rfl, fun cs' h => by cases h⟩)
      | cons c' cs' =>
        by_cases hc' : c' = '-'
        · subst hc'
          exact Or.inl ⟨cs', rfl⟩
        · exact Or.inr (Or.inl ⟨c' :: cs', rfl, fun cs'' h => hc' (by injection h)⟩)
    · exact Or.inr (Or.inr (fun cs' h => hc (by injection h)))

/-- The state `Parse` reaches on a token stream is the initial registry with one value stored
for each occurrence in the stream, in the declaration the occurrence addresses. -/
theorem ArgParser.Parse.loop_advances (tokens : List Str) :
    ∀ (p q : ArgParser), Parse.loop p tokens = .ok q →
      ∃ trace, trace.map Prod.fst = p.grammar.targets tokens ∧ Advances p q trace := by
  generalize hn : tokens.length = n
  induction n using Nat.strong_induction_on generalizing tokens with
  | _ n ih =>
    intro p q h
    cases tokens with
    | nil =>
      simp only [ArgParser.Parse.loop, Except.ok.injEq] at h
      subst h
      exact ⟨[], rfl, Advances.refl p⟩
    | cons str rest =>
      have hrest : rest.length < n := by simp [← hn]
      rcases token_cases str with ⟨body, rfl⟩ | ⟨cs, rfl, hcs⟩ | hplain
      · rw [ArgParser.Parse.loop_long] at h
        rw [Grammar.targets_long]
        cases hl : Parse.longOption p ('-' :: '-' :: body) with
        | error e => rw [hl] at h; cases h
        | ok r =>
          rw [hl] at h
          dsimp only at h
          obtain ⟨val, h1⟩ := ArgParser.Parse.longOption_advances p r body hl
          obtain ⟨trace, hfst, h2⟩ := ih _ hrest rest rfl r q h
          rw [h1.1] at hfst
          exact ⟨(optionName body, val) :: trace, by simp [hfst], h1.trans h2⟩
      · rw [ArgParser.Parse.loop_short p cs rest hcs] at h
        rw [Grammar.targets_short _ cs rest hcs]
        cases hl : Parse.cluster rest.head? p cs with
        | error e => rw [hl] at h; cases h
        | ok r =>
          obtain ⟨r, consumed⟩ := r
          rw [hl] at h
          dsimp only at h
          obtain ⟨⟨t1, hfst1, h1, _⟩, hc, _⟩ :=
            ArgParser.Parse.cluster_advances rest.head? cs p r consumed hl
          rw [← hc]
          have hlen : (if consumed = true then rest.tail else rest).length < n := by
            split
            · exact lt_of_le_of_lt (by simp) hrest
            · exact hrest
          obtain ⟨t2, hfst2, h2⟩ := ih _ hlen _ rfl r q h
          rw [h1.1] at hfst2
          exact ⟨t1 ++ t2, by simp [hfst1, hfst2], h1.trans h2⟩
      · rw [ArgParser.Parse.loop_plain p str rest hplain] at h
        rw [Grammar.targets_plain _ str rest hplain]
        cases hl : Parse.plain p str with
        | error e => rw [hl] at h; cases h
        | ok r =>
          rw [hl] at h
          dsimp only at h
          obtain ⟨key, val, hk, h1⟩ := ArgParser.Parse.plain_advances p r str hl
          rw [hk]
          dsimp only
          obtain ⟨trace, hfst, h2⟩ := ih _ hrest rest rfl r q h
          rw [h1.1] at hfst
          exact ⟨(key, val) :: trace, by simp [hfst], h1.trans h2⟩

/-! ## Theorems -/

/-- C3: for a scalar declaration, `HasValue()` is true iff a current value was set or a default
exists; `GetValue()` returns the current value when one was set (whatever the default is),
otherwise the default, and fails with `NoArgumentValue` exactly when neither exists. -/
theorem scalar_HasValue_GetValue (a : Argument) :
    (a.HasValue = true ↔ (a.value_.isSome = true ∨ a.default_value_.isSome = true)) ∧
    (∀ v, a.value_ = some v → a.GetValue = .ok v) ∧
    (∀ d, a.value_ = none → a.default_value_ = some d → a.GetValue = .ok d) ∧
    (a.GetValue = .error .NoArgumentValue ↔ (a.value_ = none ∧ a.default_value_ = none)) := by
  obtain ⟨b, T, v, d⟩ := a
  cases v <;> cases d <;> simp [Argument.HasValue, Argument.GetValue]

/-- Witness of C3: the declaration holding 7 with default 5 has a value and reads 7. -/
theorem scalar_HasValue_GetValue_witness :
    scalarSetAndDefault.HasValue = true ∧ scalarSetAndDefault.GetValue = .ok (.int 7) :=
  ⟨(scalar_HasValue_GetValue scalarSetAndDefault).1.2 (Or.inl rfl),
   (scalar_HasValue_GetValue scalarSetAndDefault).2.1 (.int 7) rfl⟩

/-- C4, as amended: for a repeated declaration with current sequence `xs`, minimum count `M` and
optional default, `GetValue(index)` returns `xs[index]` whenever `index < length(xs)` and
`HasValue()` is true; it fails with `NoArgumentValue` whenever `HasValue()` is false, and whenever
`index` is outside the sequence and no default exists. -/
theorem repeated_GetValue (a : ArgumentMulti) (index : Nat) :
    (∀ v, a.value_.get? index = some v → a.HasValue = true → a.GetValue index = .ok v) ∧
    (a.HasValue = false → a.GetValue index = .error .NoArgumentValue) ∧
    (a.value_.length ≤ index → a.default_value_ = none →
      a.GetValue index = .error .NoArgumentValue) := by
  refine ⟨?_, ?_, ?_⟩
  · intro v hv hh
    have hlt : index < a.value_.length := by
      rcases Nat.lt_or_ge index a.value_.length with h | h
      · exact h
      · rw [List.get?_eq_none.mpr h] at hv
        cases hv
    have hnot : (!a.HasValue || decide (index ≥ a.value_.length)) = false := by
      simp [hh, hlt]
    simp only [ArgumentMulti.GetValue, hnot, Bool.false_eq_true, if_false, if_pos hlt, hv]
  · intro hh
    simp [ArgumentMulti.GetValue, hh]
  · intro hle _
    simp [ArgumentMulti.GetValue, hle]

/-- Witness of C4 as amended: index 1 of the sequence 1, 2, 3 (minimum count 1, default 0). -/
theorem repeated_GetValue_witness : repeatedWithDefault.GetValue 1 = .ok (.int 2) :=
  (repeated_GetValue repeatedWithDefault 1).1 (.int 2) rfl rfl

/-- Counterexample to C4 as stated: with minimum count 10, no default and the sequence 1, 2, 3,
index 0 is inside the sequence, yet `GetValue(0)` fails with `NoArgumentValue` instead of
returning 1 (the guard `!HasValue()` comes first). -/
theorem repeated_GetValue_counterexample :
    repeatedBelowMinimum.value_.get? 0 = some (.int 1) ∧
    repeatedBelowMinimum.GetValue 0 = .error .NoArgumentValue := by
  constructor <;> rfl

/-- The other departure from C4 as stated: the guard of `GetValue(index)` also fires on every
`index` outside the sequence, so the default is never returned (the second operand of the
conditional expression in the `return` statement is never evaluated). -/
theorem repeated_GetValue_outside (a : ArgumentMulti) (index : Nat)
    (h : a.value_.length ≤ index) : a.GetValue index = .error .NoArgumentValue := by
  simp [ArgumentMulti.GetValue, h]

/-- Instance of `repeated_GetValue_outside`: default 0 exists, index 3 is outside 1, 2, 3. -/
theorem repeated_GetValue_outside_witness :
    repeatedWithDefault.default_value_ = some (.int 0) ∧
    repeatedWithDefault.GetValue 3 = .error .NoArgumentValue :=
  ⟨rfl, repeated_GetValue_outside repeatedWithDefault 3 (by decide)⟩

/-- C1: whenever `Parse` ends without a fatal error, the state it leaves is the one reached by
applying all tokens after the program name, and it returns true iff every declaration of the
registry (the help declaration is one of them) reports `HasValue()`. In particular an empty
registry with no tokens gives true, and a registry holding one freshly declared scalar
declaration (no default) with no tokens gives false. -/
theorem Parse_true_iff_all_HasValue :
    (∀ (p q : ArgParser) (program : Str) (tokens : List Str) (b : Bool),
      p.Parse (program :: tokens) = .ok (q, b) →
        ArgParser.Parse.loop p tokens = .ok q ∧
        (b = true ↔ ∀ e ∈ q.argument_map_, e.2.HasValue = true)) ∧
    (∀ name program : Str,
      (ArgParser.new name).Parse [program] = .ok (ArgParser.new name, true)) ∧
    (∀ (name program long_name description : Str) (slot : Nat) (T : TypeTag) (p : ArgParser),
      (ArgParser.new name).AddArgument slot T long_name description = .ok p →
        p.Parse [program] = .ok (p, false)) := by
  refine ⟨?_, ?_, ?_⟩
  · intro p q program tokens b h
    simp only [ArgParser.Parse] at h
    cases hl : ArgParser.Parse.loop p tokens with
    | error e => rw [hl] at h; cases h
    | ok r =>
      rw [hl] at h
      simp only [Except.ok.injEq, Prod.mk.injEq] at h
      obtain ⟨rfl, rfl⟩ := h
      refine ⟨rfl, ?_⟩
      exact List.all_eq_true
  · intro name program
    rfl
  · intro name program long_name description slot T p h
    simp only [ArgParser.AddArgument, ArgumentBase.new] at h
    split at h
    · cases h
    · simp only [ArgParser.insertDeclaration, emplace, find, ArgParser.new, List.find?_nil,
        Option.map_none', List.take_nil, List.drop_nil, List.nil_append] at h
      simp only [Except.ok.injEq] at h
      subst h
      rfl

/-- Witness of C1: the test `NoDefaultTest`; with no tokens `Parse` returns false, and not
every declaration of the registry has a value. -/
theorem Parse_true_iff_all_HasValue_witness :
    registryString.Parse [app] = .ok (registryString, false) ∧
    ¬ (∀ e ∈ registryString.argument_map_, e.2.HasValue = true) :=
  ⟨rfl, fun hall => Bool.false_ne_true
    ((Parse_true_iff_all_HasValue.1 registryString registryString app [] false rfl).2.2 hall)⟩

/-- C10: for a long-option token `--body`, with name the text of `body` up to its first `=` (or
all of it): when the name is not registered, `Parse` fails with `UnknownArgument`; when it
resolves to a non-boolean declaration, the token makes `Parse` fail with `NoArgumentValue` if the
token has no `=` or nothing after its first `=`, whatever follows in the stream, and `Parse` of
the stream made of that token alone fails with `NoArgumentValue` if and only if that is the case;
when it resolves to a boolean declaration and there is no `=`, `true` is stored in the
declaration, no error is raised, and the scan goes on with the rest of the stream. -/
theorem long_option_errors (p : ArgParser) (body : Str) (rest : List Str) :
    (find p.argument_map_ (optionName body) = none →
      Parse.loop p (('-' :: '-' :: body) :: rest) = .error .UnknownArgument) ∧
    (∀ d, find p.argument_map_ (optionName body) = some d → d.GetType ≠ .bool →
      (('=' ∉ body ∨ optionValue body = []) →
        Parse.loop p (('-' :: '-' :: body) :: rest) = .error .NoArgumentValue) ∧
      ∀ program, (p.Parse [program, '-' :: '-' :: body] = .error .NoArgumentValue ↔
        ('=' ∉ body ∨ optionValue body = []))) ∧
    (∀ d, find p.argument_map_ (optionName body) = some d → d.GetType = .bool → '=' ∉ body →
      Parse.loop p (('-' :: '-' :: body) :: rest) =
        Parse.loop (p.stored (optionName body) (.bool true)) rest ∧
      find (p.stored (optionName body) (.bool true)).argument_map_ (optionName body) =
        some (d.stored (.bool true))) := by
  refine ⟨?_, ?_, ?_⟩
  · intro hnone
    rw [ArgParser.Parse.loop_long, ArgParser.Parse.longOption_eq, hnone]
  · intro d hd hT
    have hbad : ('=' ∉ body ∨ optionValue body = []) →
        Parse.longOption p ('-' :: '-' :: body) = .error .NoArgumentValue := by
      intro hor
      rw [ArgParser.Parse.longOption_eq, hd]
      dsimp only
      by_cases hmem : '=' ∉ body
      · rw [if_pos hmem, if_neg hT]
      · rw [if_neg hmem]
        rcases hor with h | h
        · exact absurd h hmem
        · rw [if_pos ⟨hT, h⟩]
    refine ⟨fun hor => ?_, fun program => ⟨fun hfail => ?_, fun hor => ?_⟩⟩
    · rw [ArgParser.Parse.loop_long, hbad hor]
    · by_contra hcon
      rw [not_or] at hcon
      obtain ⟨hmem, hval⟩ := hcon
      have hgood : Parse.longOption p ('-' :: '-' :: body) =
          match extract d.GetType (optionValue body) with
          | some val => .ok (p.stored (optionName body) val)
          | none => .error .InvalidArgumentType := by
        rw [ArgParser.Parse.longOption_eq, hd]
        dsimp only
        rw [if_neg hmem, if_neg (fun h => hval h.2)]
      simp only [ArgParser.Parse, ArgParser.Parse.loop_long, hgood] at hfail
      cases he : extract d.GetType (optionValue body) with
      | none => rw [he] at hfail; cases hfail
      | some val =>
        rw [he] at hfail
        simp only [ArgParser.Parse.loop] at hfail
        cases hfail
    · simp only [ArgParser.Parse, ArgParser.Parse.loop_long, hbad hor]
  · intro d hd hT hmem
    constructor
    · rw [ArgParser.Parse.loop_long, ArgParser.Parse.longOption_eq, hd]
      dsimp only
      rw [if_pos hmem, if_pos hT]
    · rw [ArgParser.find_stored, if_pos rfl, hd]
      rfl

/-- Witness of C10: in the registry of `NoDefaultTest` (`param1` is a string), the token
`--param1`, which has no `=`, makes `Parse` fail with `NoArgumentValue`. -/
theorem long_option_errors_witness :
    Parse.loop registryString ["--param1".toList] = .error .NoArgumentValue :=
  ((long_option_errors registryString param1 []).2.1 _ rfl (by decide)).1 (Or.inl (by decide))

/-- C2, as amended: for every scalar string declaration whose name `n` has no `=`, and every
non-empty value text `v` without white space (`v` may contain `=`), parsing the single token
`--n=v` and then reading `GetArgumentValue<string>(n)` returns exactly `v`; for a scalar int
declaration and the decimal text of an `int` `i`, the int read back is `i`. -/
theorem long_option_round_trip (p : ArgParser) (program n : Str) (a : Argument)
    (hn : '=' ∉ n) (hfind : find p.argument_map_ n = some (.scalar a)) :
    (a.T = .string → ∀ v : Str, v ≠ [] → (∀ c ∈ v, isspace c = false) →
      ∃ q b, p.Parse [program, '-' :: '-' :: (n ++ '=' :: v)] = .ok (q, b) ∧
        q.GetArgumentValue .string n = .ok (.string v)) ∧
    (a.T = .int → ∀ i : Int, INT_MIN ≤ i → i ≤ INT_MAX →
      ∃ q b, p.Parse [program, '-' :: '-' :: (n ++ '=' :: decimalText i)] = .ok (q, b) ∧
        q.GetArgumentValue .int n = .ok (.int i)) := by
  have hstep : ∀ (v : Str) (val : Value), v ≠ [] → extract a.T v = some val →
      ∃ q b, p.Parse [program, '-' :: '-' :: (n ++ '=' :: v)] = .ok (q, b) ∧
        q.GetArgumentValue a.T n = .ok val := by
    intro v val hv he
    have hmem : ¬ ('=' ∉ n ++ '=' :: v) := by simp
    have hlong : Parse.longOption p ('-' :: '-' :: (n ++ '=' :: v)) =
        .ok (p.stored n val) := by
      rw [ArgParser.Parse.longOption_eq, optionName_append n v hn, optionValue_append n v hn,
        hfind]
      dsimp only
      rw [if_neg hmem, if_neg (fun h => hv h.2)]
      simp only [Declaration.GetType, he]
    refine ⟨p.stored n val, (p.stored n val).argument_map_.all (fun e => e.2.HasValue), ?_, ?_⟩
    · simp only [ArgParser.Parse, ArgParser.Parse.loop_long, hlong, ArgParser.Parse.loop]
    · exact ArgParser.GetArgumentValue_stored p n a val hfind
  constructor
  · intro hT v hv hall
    have he : extract a.T v = some (.string v) := by
      rw [hT]
      simp [extract, extractString_word v hv hall]
    have := hstep v (.string v) hv he
    rwa [hT] at this
  · intro hT i hlo hhi
    have he : extract a.T (decimalText i) = some (.int i) := by
      rw [hT]
      simp [extract, extractInt_decimalText i hlo hhi]
    have hv : decimalText i ≠ [] := by
      unfold decimalText
      split
      · simp
      · exact (toDigits_spec _).1
    have := hstep (decimalText i) (.int i) hv he
    rwa [hT] at this

/-- Witness of C2 as amended: in the registry of `NoDefaultTest`, `--param1=a=b` reads back as
`a=b`. -/
theorem long_option_round_trip_witness :
    ∃ q b, registryString.Parse [app, "--param1=a=b".toList] = .ok (q, b) ∧
      q.GetArgumentValue .string param1 = .ok (.string "a=b".toList) :=
  (long_option_round_trip registryString app param1 _ (by decide) rfl).1 rfl "a=b".toList
    (by decide) (by decide)

/-- Counterexample to C2 as stated: the value text `hello world` contains white space; parsing
the single token `--param1=hello world` succeeds, and reading `param1` returns `hello`, not the
value text. -/
theorem long_option_round_trip_counterexample :
    ∃ q b, registryString.Parse [app, "--param1=hello world".toList] = .ok (q, b) ∧
      q.GetArgumentValue .string param1 = .ok (.string "hello".toList) ∧
      Value.string "hello".toList ≠ Value.string "hello world".toList :=
  ⟨_, _, rfl, rfl, by decide⟩

/-! ### Clusters of flags -/

theorem clusterTargets_flags (p : ArgParser) (cs : List Char)
    (hflags : ∀ c ∈ cs, ∃ long_name d, find p.long_name_map_ c = some long_name ∧
      find p.argument_map_ long_name = some d ∧ d.GetType = .bool) :
    p.grammar.clusterTargets cs = (cs.filterMap (find p.long_name_map_), false) := by
  induction cs with
  | nil => rfl
  | cons c cs ih =>
    obtain ⟨long_name, d, hn, hd, hT⟩ := hflags c (by simp)
    have halias : p.grammar.aliasOf c = some long_name := hn
    have htype : p.grammar.typeOf long_name = some .bool := by
      show (find p.argument_map_ long_name).map Declaration.GetType = some .bool
      rw [hd, Option.map_some', hT]
    rw [Grammar.clusterTargets, halias]
    dsimp only
    rw [htype]
    dsimp only
    rw [ih (fun c' hc' => hflags c' (by simp [hc'])), List.filterMap_cons, hn]

theorem cluster_flags_ok (next : Option Str) (cs : List Char) :
    ∀ p : ArgParser,
      (∀ c ∈ cs, ∃ long_name d, find p.long_name_map_ c = some long_name ∧
        find p.argument_map_ long_name = some d ∧ d.GetType = .bool) →
      ∃ q, Parse.cluster next p cs = .ok (q, false) := by
  induction cs with
  | nil => intro p _; exact ⟨p, rfl⟩
  | cons c cs ih =>
    intro p hflags
    obtain ⟨long_name, d, hn, hd, hT⟩ := hflags c (by simp)
    rw [ArgParser.Parse.cluster_cons, hn]
    dsimp only
    rw [hd]
    dsimp only
    rw [if_pos hT]
    apply ih
    intro c' hc'
    obtain ⟨n', d', hn', hd', hT'⟩ := hflags c' (by simp [hc'])
    rw [ArgParser.long_name_map__stored]
    by_cases hk : n' = long_name
    · subst hk
      refine ⟨n', d'.stored (.bool true), hn', ?_, ?_⟩
      · rw [ArgParser.find_stored, if_pos rfl, hd']
        rfl
      · rw [Declaration.GetType_stored, hT']
    · exact ⟨n', d', hn', by rw [ArgParser.find_stored, if_neg hk, hd'], hT'⟩

theorem valuesFor_of_all (trace : List (Str × Value)) (v : Value) (key : Str)
    (h : ∀ e ∈ trace, e.1 = key → e.2 = v) :
    valuesFor trace key = List.replicate ((trace.map Prod.fst).count key) v := by
  apply List.eq_replicate_iff.mpr
  refine ⟨length_valuesFor trace key, ?_⟩
  intro b hb
  simp only [valuesFor, List.mem_map, List.mem_filter, decide_eq_true_eq] at hb
  obtain ⟨e, ⟨he, hk⟩, rfl⟩ := hb
  exact h e he hk

theorem foldl_stored_scalar (a : Argument) (v : Value) (k : Nat) :
    (List.replicate (k + 1) v).foldl Declaration.stored (.scalar a) =
      .scalar { a with value_ := some v } := by
  induction k generalizing a with
  | zero => rfl
  | succ k ih =>
    rw [List.replicate_succ, List.foldl_cons]
    exact ih _

theorem foldl_stored_repeated (a : ArgumentMulti) (vals : List Value) :
    vals.foldl Declaration.stored (.repeated a) =
      .repeated { a with value_ := a.value_ ++ vals } := by
  induction vals generalizing a with
  | nil => simp
  | cons v vals ih =>
    rw [List.foldl_cons]
    simp only [Declaration.stored]
    rw [ih]
    simp

/-- C7: for every short-cluster token `-c1c2...ck` (the first character after the `-` is not a
second `-`) in which every character is the alias of a boolean declaration, `Parse` raises no
error on the token, takes no further token for it and goes on with the rest of the stream in a
state `q` in which exactly the declarations aliased by `c1..ck` received `true`: each declaration
has `true` stored once per occurrence of its alias in the token (a scalar flag then holds `true`,
its default unchanged), and every declaration whose alias is not in the token is unchanged. Names,
aliases and the key set of the registry are unchanged. -/
theorem cluster_sets_exactly_its_flags (p : ArgParser) (cs : List Char) (rest : List Str)
    (hshort : ∀ cs', cs ≠ '-' :: cs')
    (hflags : ∀ c ∈ cs, ∃ long_name d, find p.long_name_map_ c = some long_name ∧
      find p.argument_map_ long_name = some d ∧ d.GetType = .bool) :
    ∃ q, Parse.loop p (('-' :: cs) :: rest) = Parse.loop q rest ∧
      q.long_name_map_ = p.long_name_map_ ∧
      q.argument_map_.map Prod.fst = p.argument_map_.map Prod.fst ∧
      (∀ key, find q.argument_map_ key =
        (find p.argument_map_ key).map (fun d =>
          (List.replicate ((cs.filterMap (find p.long_name_map_)).count key)
            (.bool true)).foldl Declaration.stored d)) ∧
      (∀ c ∈ cs, ∀ long_name a, find p.long_name_map_ c = some long_name →
        find p.argument_map_ long_name = some (.scalar a) →
        find q.argument_map_ long_name = some (.scalar { a with value_ := some (.bool true) })) ∧
      (∀ key, (∀ c ∈ cs, find p.long_name_map_ c ≠ some key) →
        find q.argument_map_ key = find p.argument_map_ key) := by
  obtain ⟨q, hq⟩ := cluster_flags_ok rest.head? cs p hflags
  obtain ⟨⟨trace, hfst, hadv, hval⟩, _, _⟩ :=
    ArgParser.Parse.cluster_advances rest.head? cs p q false hq
  rw [clusterTargets_flags p cs hflags] at hfst
  dsimp only at hfst
  have hmem : ∀ key, key ∈ cs.filterMap (find p.long_name_map_) ↔
      ∃ c ∈ cs, find p.long_name_map_ c = some key := by
    intro key
    simp [List.mem_filterMap]
  have htrue : ∀ e ∈ trace, e.2 = .bool true := by
    intro e he
    apply hval e he
    have h1 : e.1 ∈ cs.filterMap (find p.long_name_map_) := by
      rw [← hfst]
      exact List.mem_map_of_mem _ he
    obtain ⟨c, hc, hn⟩ := (hmem e.1).mp h1
    obtain ⟨n', d, hn', hd, hT⟩ := hflags c hc
    rw [hn] at hn'
    cases hn'
    show (find p.argument_map_ e.1).map Declaration.GetType = some .bool
    rw [hd, Option.map_some', hT]
  have hfind : ∀ key, find q.argument_map_ key =
      (find p.argument_map_ key).map (fun d =>
        (List.replicate ((cs.filterMap (find p.long_name_map_)).count key)
          (.bool true)).foldl Declaration.stored d) := by
    intro key
    rw [hadv.2.2.2.2 key, valuesFor_of_all trace (.bool true) key (fun e he _ => htrue e he),
      hfst]
  refine ⟨q, ?_, hadv.2.1, hadv.2.2.2.1, hfind, ?_, ?_⟩
  · rw [ArgParser.Parse.loop_short p cs rest hshort, hq]
    rfl
  · intro c hc long_name a hn hd
    have hpos : 0 < (cs.filterMap (find p.long_name_map_)).count long_name :=
      List.count_pos_iff.mpr ((hmem long_name).mpr ⟨c, hc, hn⟩)
    obtain ⟨k, hk⟩ := Nat.exists_eq_succ_of_ne_zero (Nat.pos_iff_ne_zero.mp hpos)
    rw [hfind, hd, hk, Option.map_some', foldl_stored_scalar]
  · intro key hkey
    have hzero : (cs.filterMap (find p.long_name_map_)).count key = 0 := by
      apply List.count_eq_zero.mpr
      intro hin
      obtain ⟨c, hc, hn⟩ := (hmem key).mp hin
      exact hkey c hc hn
    rw [hfind, hzero]
    cases find p.argument_map_ key <;> rfl

/-- Witness of C7: the test `FlagsTest`; `-ac` sets `flag1` and `flag3` and leaves `flag2`
(default true, no current value) as it was. -/
theorem cluster_sets_exactly_its_flags_witness :
    ∃ q, Parse.loop registryFlags ["-ac".toList] = .ok q ∧
      find q.argument_map_ "flag1".toList =
        some (.scalar ⟨⟨"flag1".toList, some 'a', [], false⟩, .bool, some (.bool true),
          some (.bool false)⟩) ∧
      find q.argument_map_ "flag3".toList =
        some (.scalar ⟨⟨"flag3".toList, some 'c', [], false⟩, .bool, some (.bool true),
          some (.bool false)⟩) ∧
      find q.argument_map_ "flag2".toList = find registryFlags.argument_map_ "flag2".toList := by
  have hflags : ∀ c ∈ ['a', 'c'], ∃ long_name d,
      find registryFlags.long_name_map_ c = some long_name ∧
      find registryFlags.argument_map_ long_name = some d ∧ d.GetType = .bool := by
    intro c hc
    simp only [List.mem_cons, List.mem_singleton, List.not_mem_nil, or_false] at hc
    rcases hc with rfl | rfl
    · exact ⟨_, _, rfl, rfl, rfl⟩
    · exact ⟨_, _, rfl, rfl, rfl⟩
  obtain ⟨q, hq, _, _, _, hset, hframe⟩ :=
    cluster_sets_exactly_its_flags registryFlags ['a', 'c'] []
      (fun cs' h => absurd (List.cons.inj h).1 (by decide)) hflags
  refine ⟨q, hq, hset 'a' (by decide) _ _ rfl rfl, hset 'c' (by decide) _ _ rfl rfl,
    hframe _ ?_⟩
  intro c hc
  simp only [List.mem_cons, List.mem_singleton, List.not_mem_nil, or_false] at hc
  rcases hc with rfl | rfl <;> decide

/-! ### Plain tokens -/

theorem toDigits_plain (k : Nat) : ∀ cs, Nat.toDigits 10 k ≠ '-' :: cs := by
  intro cs h
  obtain ⟨_, hall, _⟩ := toDigits_spec k
  have hd : isdigit '-' = true := hall '-' (by rw [h]; simp)
  revert hd
  decide

theorem extract_int_toDigits (k : Nat) (h : Int.ofNat k ≤ INT_MAX) :
    extract .int (Nat.toDigits 10 k) = some (.int (Int.ofNat k)) := by
  have hdec : decimalText (k : Int) = Nat.toDigits 10 k := by
    unfold decimalText
    rw [if_neg (by omega)]
    rfl
  have hlo : INT_MIN ≤ (k : Int) := by
    unfold INT_MIN
    omega
  rw [← hdec]
  simp [extract, extractInt_decimalText (k : Int) hlo h]

theorem positional_of_only (p : ArgParser) (long_name : Str) (d : Declaration)
    (hbound : p.positional_argument_ = none ∨ p.positional_argument_ = some long_name)
    (hfind : find p.argument_map_ long_name = some d) (hpos : d.IsPositional = true)
    (honly : ∀ e ∈ p.argument_map_, e.2.IsPositional = true → e.1 = long_name) :
    p.grammar.positional = some long_name := by
  have hex : ∃ e ∈ p.argument_map_, e.2.IsPositional = true := by
    unfold find at hfind
    cases hf : p.argument_map_.find? (fun e => decide (e.1 = long_name)) with
    | none => rw [hf] at hfind; cases hfind
    | some e =>
      rw [hf, Option.map_some'] at hfind
      refine ⟨e, List.mem_of_find?_eq_some hf, ?_⟩
      rw [Option.some.inj hfind]
      exact hpos
  rcases hbound with hbound | hbound
  swap
  · simp only [ArgParser.grammar, hbound]
  simp only [ArgParser.grammar, hbound]
  cases hf : p.argument_map_.find? (fun e => e.2.IsPositional) with
  | none =>
    obtain ⟨e, he, hp⟩ := hex
    have := List.find?_eq_none.mp hf e he
    exact absurd hp this
  | some e =>
    have hp : e.2.IsPositional = true :=
      @List.find?_some _ (fun e : Str × Declaration => e.2.IsPositional) e p.argument_map_ hf
    rw [Option.map_some', honly e (List.mem_of_find?_eq_some hf) hp]

theorem plain_integers_loop (long_name : Str) (ks : List Nat)
    (hrange : ∀ k ∈ ks, Int.ofNat k ≤ INT_MAX) :
    ∀ (p : ArgParser) (a : ArgumentMulti), p.grammar.positional = some long_name →
      find p.argument_map_ long_name = some (.repeated a) → a.T = .int →
      ∃ q, Parse.loop p (ks.map (fun k => Nat.toDigits 10 k)) = .ok q ∧
        find q.argument_map_ long_name =
          some (.repeated { a with value_ := a.value_ ++ ks.map (fun k : Nat => Value.int (Int.ofNat k)) }) := by
  induction ks with
  | nil =>
    intro p a _ hfind _
    exact ⟨p, rfl, by simpa using hfind⟩
  | cons k ks ih =>
    intro p a hpos hfind hint
    have hk : Int.ofNat k ≤ INT_MAX := hrange k (by simp)
    have hplain : Parse.plain p (Nat.toDigits 10 k) =
        .ok (({ p with positional_argument_ := some long_name }).stored long_name (.int (Int.ofNat k))) := by
      rw [ArgParser.Parse.plain_eq, hpos]
      dsimp only
      rw [hfind]
      dsimp only
      simp only [Declaration.GetType, hint, extract_int_toDigits k hk]
    have hpos' : (({ p with positional_argument_ := some long_name }).stored long_name
        (.int (Int.ofNat k))).grammar.positional = some long_name := by
      rw [ArgParser.grammar_stored]
      rfl
    have hfind' : find (({ p with positional_argument_ := some long_name }).stored long_name
        (.int (Int.ofNat k))).argument_map_ long_name =
        some (.repeated { a with value_ := a.value_ ++ [.int (Int.ofNat k)] }) := by
      rw [ArgParser.find_stored, if_pos rfl]
      show (find p.argument_map_ long_name).map _ = _
      rw [hfind]
      rfl
    obtain ⟨q, hq, hres⟩ := ih (fun k' hk' => hrange k' (by simp [hk'])) _ _ hpos' hfind' hint
    refine ⟨q, ?_, ?_⟩
    · rw [List.map_cons, ArgParser.Parse.loop_plain p _ _ (toDigits_plain k), hplain]
      exact hq
    · rw [hres]
      simp

theorem readInteger_plus_digits (l : List Char) (hne : l ≠ [])
    (hall : ∀ c ∈ l, isdigit c = true) :
    readInteger ('+' :: l) = some (digitsValue l : Int) := by
  have hdrop : ('+' :: l).dropWhile isspace = '+' :: l := by
    rw [List.dropWhile_cons]
    rfl
  have htake : l.takeWhile isdigit = l := takeWhile_eq_self_of_all hall
  have hempty : l.isEmpty = false := by
    cases l with
    | nil => exact absurd rfl hne
    | cons x xs => rfl
  simp only [readInteger, hdrop, htake, hempty]
  rfl

theorem numeralText_plain (n : Bool × List Char) (hne : n.2 ≠ [])
    (hall : ∀ c ∈ n.2, isdigit c = true) : ∀ cs, numeralText n ≠ '-' :: cs := by
  intro cs h
  unfold numeralText at h
  split at h
  · injection h with h1 _
    revert h1
    decide
  · cases hl : n.2 with
    | nil => exact hne hl
    | cons x xs =>
      rw [hl] at h
      injection h with h1 _
      have hx : isdigit x = true := hall x (by rw [hl]; simp)
      rw [h1] at hx
      revert hx
      decide

theorem extract_int_numeralText (n : Bool × List Char) (hne : n.2 ≠ [])
    (hall : ∀ c ∈ n.2, isdigit c = true) (hrange : (digitsValue n.2 : Int) ≤ INT_MAX) :
    extract .int (numeralText n) = some (.int (digitsValue n.2 : Int)) := by
  have hread : readInteger (numeralText n) = some (digitsValue n.2 : Int) := by
    unfold numeralText
    split
    · exact readInteger_plus_digits n.2 hne hall
    · exact readInteger_digits n.2 hne hall
  have hlo : INT_MIN ≤ (digitsValue n.2 : Int) := by
    unfold INT_MIN
    omega
  simp only [extract, extractInt, hread]
  rw [if_pos ⟨hlo, hrange⟩]
  rfl

theorem plain_values_loop (long_name : Str) (T : TypeTag) (ts : List Str) (vs : List Value)
    (h : List.Forall₂ (fun t v => (∀ cs, t ≠ '-' :: cs) ∧ extract T t = some v) ts vs) :
    ∀ (p : ArgParser) (a : ArgumentMulti), p.grammar.positional = some long_name →
      find p.argument_map_ long_name = some (.repeated a) → a.T = T →
      ∃ q, Parse.loop p ts = .ok q ∧
        find q.argument_map_ long_name =
          some (.repeated { a with value_ := a.value_ ++ vs }) := by
  induction h with
  | nil =>
    intro p a _ hfind _
    exact ⟨p, rfl, by simpa using hfind⟩
  | @cons t v ts vs htv _ ih =>
    intro p a hpos hfind hT
    have hplain : Parse.plain p t =
        .ok (({ p with positional_argument_ := some long_name }).stored long_name v) := by
      rw [ArgParser.Parse.plain_eq, hpos]
      dsimp only
      rw [hfind]
      dsimp only
      simp only [Declaration.GetType, hT, htv.2]
    have hpos' : (({ p with positional_argument_ := some long_name }).stored long_name
        v).grammar.positional = some long_name := by
      rw [ArgParser.grammar_stored]
      rfl
    have hfind' : find (({ p with positional_argument_ := some long_name }).stored long_name
        v).argument_map_ long_name =
        some (.repeated { a with value_ := a.value_ ++ [v] }) := by
      rw [ArgParser.find_stored, if_pos rfl]
      show (find p.argument_map_ long_name).map _ = _
      rw [hfind]
      rfl
    obtain ⟨q, hq, hres⟩ := ih _ _ hpos' hfind' hT
    refine ⟨q, ?_, ?_⟩
    · rw [ArgParser.Parse.loop_plain p _ _ htv.1, hplain]
      exact hq
    · rw [hres]
      simp

/-- C8, as amended: for a registry whose only positional declaration is a repeated int (nothing
stored in it yet; the positional target is not bound yet, or bound to that declaration by an
earlier call), and every token stream made of `n` plain tokens that are decimal integers in the
range of `int` (an optional `+`, then digits whose value is at most `INT_MAX`; a plain token has no
leading `-`), `Parse` ends without error and the stored sequence of the declaration has length `n`
and its `i`-th element is the integer value of the `i`-th token, in arrival order. -/
theorem positional_accumulation (p : ArgParser) (program long_name : Str) (a : ArgumentMulti)
    (ns : List (Bool × List Char))
    (hbound : p.positional_argument_ = none ∨ p.positional_argument_ = some long_name)
    (hfind : find p.argument_map_ long_name = some (.repeated a))
    (hpos : a.base.is_positional_ = true)
    (honly : ∀ e ∈ p.argument_map_, e.2.IsPositional = true → e.1 = long_name)
    (hint : a.T = .int) (hempty : a.value_ = [])
    (hnum : ∀ n ∈ ns, n.2 ≠ [] ∧ (∀ c ∈ n.2, isdigit c = true) ∧
      (digitsValue n.2 : Int) ≤ INT_MAX) :
    ∃ q b a', p.Parse (program :: ns.map numeralText) = .ok (q, b) ∧
      find q.argument_map_ long_name = some (.repeated a') ∧
      a'.value_ = ns.map (fun n => Value.int (digitsValue n.2 : Int)) ∧
      a'.value_.length = ns.length ∧
      ∀ i, a'.value_.get? i = (ns.get? i).map (fun n => Value.int (digitsValue n.2 : Int)) := by
  have hgr := positional_of_only p long_name (.repeated a) hbound hfind hpos honly
  have hall : List.Forall₂ (fun t v => (∀ cs, t ≠ '-' :: cs) ∧ extract .int t = some v)
      (ns.map numeralText) (ns.map (fun n => Value.int (digitsValue n.2 : Int))) := by
    rw [List.forall₂_map_left_iff, List.forall₂_map_right_iff]
    apply List.forall₂_same.mpr
    intro n hn
    obtain ⟨h1, h2, h3⟩ := hnum n hn
    exact ⟨numeralText_plain n h1 h2, extract_int_numeralText n h1 h2 h3⟩
  obtain ⟨q, hq, hres⟩ := plain_values_loop long_name .int _ _ hall p a hgr hfind hint
  rw [hempty, List.nil_append] at hres
  have hres' : ({ a with value_ := ns.map (fun n => Value.int (digitsValue n.2 : Int)) } :
      ArgumentMulti).value_ = ns.map (fun n => Value.int (digitsValue n.2 : Int)) := rfl
  refine ⟨q, q.argument_map_.all (fun e => e.2.HasValue), _, ?_, hres, rfl, ?_, ?_⟩
  · simp only [ArgParser.Parse, hq]
  · rw [hres']
    simp
  · intro i
    rw [hres']
    simp [List.get?_eq_getElem?]

/-- Witness of C8 as amended: the registry of `PositionalArgTest`; the tokens `1 2 +3 004 5`
give the sequence 1, 2, 3, 4, 5 of length 5. -/
theorem positional_accumulation_witness :
    ∃ q b a', registryPositional.Parse
        [app, "1".toList, "2".toList, "+3".toList, "004".toList, "5".toList] = .ok (q, b) ∧
      find q.argument_map_ "Param1".toList = some (.repeated a') ∧
      a'.value_ = [.int 1, .int 2, .int 3, .int 4, .int 5] ∧
      a'.value_.length = 5 ∧
      ∀ i, a'.value_.get? i =
        ([(false, "1".toList), (false, "2".toList), (true, "3".toList), (false, "004".toList),
          (false, "5".toList)].get? i).map (fun n => Value.int (digitsValue n.2 : Int)) :=
  positional_accumulation registryPositional app "Param1".toList _
    [(false, "1".toList), (false, "2".toList), (true, "3".toList), (false, "004".toList),
      (false, "5".toList)] (Or.inl rfl)
    rfl rfl
    (fun e he h => by
      simp only [registryPositional, List.mem_singleton] at he
      subst he
      rfl)
    rfl rfl
    (by decide)

/-- Counterexample to C8 as stated: in the registry of `PositionalArgTest` the stream of the one
plain token `99999999999`, a decimal integer, makes `Parse` fail with `InvalidArgumentType`: no
sequence of length 1 is stored. -/
theorem positional_accumulation_counterexample :
    (∀ cs, "99999999999".toList ≠ '-' :: cs) ∧
    readInteger "99999999999".toList = some 99999999999 ∧
    registryPositional.Parse [app, "99999999999".toList] = .error .InvalidArgumentType :=
  ⟨fun cs h => (by cases h), rfl, rfl⟩

/-! ### Occurrences and minimum counts -/

theorem find_of_keys_singleton {m : List (Str × Declaration)} {key : Str} {d : Declaration}
    (hkeys : m.map Prod.fst = [key]) (hfind : find m key = some d) : m = [(key, d)] := by
  cases m with
  | nil => cases hkeys
  | cons e m =>
    cases m with
    | cons e' m' => simp at hkeys
    | nil =>
      obtain ⟨k, d'⟩ := e
      simp only [List.map_cons, List.map_nil, List.cons.injEq, and_true] at hkeys
      subst hkeys
      simp only [find_cons, if_true, Option.some.injEq] at hfind
      rw [hfind]

/-- C5, as amended: after a token stream that `Parse` scans without fatal error and that holds
exactly `N` occurrences of a repeated declaration (minimum count `M`), the declaration holds `N`
more values than before, its minimum count and default unchanged. For a declaration without
default and with nothing stored before, `HasValue()` is true if and only if `N >= M`; for a
declaration with a default, `HasValue()` is true whatever `N` is. With that declaration alone in
the registry, `Parse` returns its `HasValue()`. -/
theorem multivalued_threshold (p q : ArgParser) (program : Str) (tokens : List Str) (b : Bool)
    (long_name : Str) (a : ArgumentMulti)
    (hfind : find p.argument_map_ long_name = some (.repeated a))
    (hparse : p.Parse (program :: tokens) = .ok (q, b)) :
    ∃ a', find q.argument_map_ long_name = some (.repeated a') ∧
      a'.min_size_ = a.min_size_ ∧ a'.default_value_ = a.default_value_ ∧
      a'.value_.length = a.value_.length + (p.grammar.targets tokens).count long_name ∧
      (a.value_ = [] → a.default_value_ = none →
        (a'.HasValue = true ↔ (p.grammar.targets tokens).count long_name ≥ a.min_size_)) ∧
      (a.default_value_.isSome = true → a'.HasValue = true) ∧
      (p.argument_map_ = [(long_name, .repeated a)] → b = a'.HasValue) := by
  have hloop : Parse.loop p tokens = .ok q ∧
      b = q.argument_map_.all (fun e => e.2.HasValue) := by
    simp only [ArgParser.Parse] at hparse
    cases hl : Parse.loop p tokens with
    | error e => rw [hl] at hparse; cases hparse
    | ok r =>
      rw [hl] at hparse
      simp only [Except.ok.injEq, Prod.mk.injEq] at hparse
      obtain ⟨rfl, rfl⟩ := hparse
      exact ⟨rfl, rfl⟩
  obtain ⟨hloop, hb⟩ := hloop
  obtain ⟨trace, hfst, hadv⟩ := ArgParser.Parse.loop_advances tokens p q hloop
  have hq : find q.argument_map_ long_name =
      some (.repeated { a with value_ := a.value_ ++ valuesFor trace long_name }) := by
    rw [hadv.2.2.2.2 long_name, hfind, Option.map_some', foldl_stored_repeated]
  have hlen : (valuesFor trace long_name).length = (p.grammar.targets tokens).count long_name := by
    rw [length_valuesFor, hfst]
  refine ⟨_, hq, rfl, rfl, ?_, ?_, ?_, ?_⟩
  · simp [hlen]
  · intro hempty hnone
    simp [ArgumentMulti.HasValue, hempty, hnone, hlen]
  · intro hsome
    simp [ArgumentMulti.HasValue, hsome]
  · intro hsingle
    have hkeys : q.argument_map_.map Prod.fst = [long_name] := by
      rw [hadv.2.2.2.1, hsingle]
      rfl
    rw [hb, find_of_keys_singleton hkeys hq]
    simp [Declaration.HasValue]

/-- Witness of C5 as amended: the test `MinCountMultiValueTest` (three occurrences, minimum
count 10, no default); the declaration holds three values, `HasValue()` is false and so is the
result of `Parse`. -/
theorem multivalued_threshold_witness :
    ∃ q a', registryMinCount.Parse (app :: threeValues) = .ok (q, false) ∧
      find q.argument_map_ param1 = some (.repeated a') ∧
      a'.value_.length = 3 ∧ a'.HasValue = false := by
  obtain ⟨a', h1, _, _, h4, _, _, h7⟩ :=
    multivalued_threshold registryMinCount _ app threeValues false param1 _ rfl rfl
  refine ⟨_, a', rfl, h1, ?_, ?_⟩
  · rw [h4]
    rfl
  · rw [← h7 rfl]

/-- Counterexample to C5 as stated: minimum count 10 and a default; after exactly three
occurrences (the tokens of `MinCountMultiValueTest`) the declaration holds three values, fewer
than 10, yet `HasValue()` is true and `Parse` returns true. -/
theorem multivalued_threshold_counterexample :
    ∃ q a', registryMinCountDefault.Parse (app :: threeValues) = .ok (q, true) ∧
      (registryMinCountDefault.grammar.targets threeValues).count param1 = 3 ∧
      find q.argument_map_ param1 = some (.repeated a') ∧
      a'.value_.length = 3 ∧ a'.min_size_ = 10 ∧ a'.HasValue = true :=
  ⟨_, _, rfl, by decide, rfl, rfl, rfl, rfl⟩

/-! ### Declarations no token addresses -/

/-- The part of C6 that holds on the code: a declaration that no occurrence of a token stream
addresses is the same after `Parse` as before, current values and default; so if it has a
default, `HasValue()` is true after `Parse`, and if it is a scalar declaration with a default and
no current value, reading it returns exactly the default. -/
theorem unaddressed_declaration_unchanged (p q : ArgParser) (program : Str)
    (tokens : List Str) (b : Bool) (key : Str) (d : Declaration)
    (hfind : find p.argument_map_ key = some d)
    (hparse : p.Parse (program :: tokens) = .ok (q, b))
    (hnot : key ∉ p.grammar.targets tokens) :
    find q.argument_map_ key = some d ∧
    (d.default_value_.isSome = true → d.HasValue = true) ∧
    (∀ a v, d = .scalar a → a.value_ = none → a.default_value_ = some v →
      q.GetArgumentValue a.T key = .ok v) := by
  have hloop : Parse.loop p tokens = .ok q := by
    simp only [ArgParser.Parse] at hparse
    cases hl : Parse.loop p tokens with
    | error e => rw [hl] at hparse; cases hparse
    | ok r =>
      rw [hl] at hparse
      simp only [Except.ok.injEq, Prod.mk.injEq] at hparse
      rw [hparse.1]
  obtain ⟨trace, hfst, hadv⟩ := ArgParser.Parse.loop_advances tokens p q hloop
  have hnil : valuesFor trace key = [] := by
    apply List.eq_nil_of_length_eq_zero
    rw [length_valuesFor, hfst]
    exact List.count_eq_zero.mpr hnot
  have hq : find q.argument_map_ key = some d := by
    rw [hadv.2.2.2.2 key, hfind, hnil]
    rfl
  refine ⟨hq, ?_, ?_⟩
  · intro hdef
    cases d with
    | scalar a =>
      simp only [Declaration.default_value_] at hdef
      simp [Declaration.HasValue, Argument.HasValue, hdef]
    | repeated a =>
      simp only [Declaration.default_value_] at hdef
      simp [Declaration.HasValue, ArgumentMulti.HasValue, hdef]
  · intro a v hd hval hdef
    subst hd
    simp [ArgParser.GetArgumentValue, hq, Declaration.GetType, Argument.GetValue,
      Argument.HasValue, hval, hdef]

/-- Instance of `unaddressed_declaration_unchanged`: the test `DefaultTest`; with no tokens the
declaration `param1` reads as its default `value1`. -/
theorem unaddressed_declaration_unchanged_witness :
    registryDefault.GetArgumentValue .string param1 = .ok (.string "value1".toList) :=
  (unaddressed_declaration_unchanged registryDefault registryDefault app [] true param1 _
    rfl rfl (by decide)).2.2 _ _ rfl rfl rfl

/-- C6 at its failing input: a repeated declaration `param1` with minimum count 1 and the default
42, and no tokens. `Parse` returns true (the default makes `HasValue()` true) and leaves the
registry as it was, the default is still 42, yet reading index 0 fails with `NoArgumentValue`
instead of returning the default. -/
theorem default_of_repeated_unreadable :
    registryRepeatedDefault.Parse [app] = .ok (registryRepeatedDefault, true) ∧
    (find registryRepeatedDefault.argument_map_ param1).map Declaration.default_value_ =
      some (some (.int 42)) ∧
    registryRepeatedDefault.GetArgumentValueAt .int param1 0 = .error .NoArgumentValue := by
  refine ⟨rfl, rfl, rfl⟩

/-! ## The values a token stream stores -/

theorem Converted.nil (g : Grammar) : Converted g [] [] := List.Forall₂.nil

theorem Converted.append {g : Grammar} {c₁ c₂ : List (Str × Str)} {t₁ t₂ : List (Str × Value)}
    (h₁ : Converted g c₁ t₁) (h₂ : Converted g c₂ t₂) : Converted g (c₁ ++ c₂) (t₁ ++ t₂) := by
  unfold Converted at h₁ h₂ ⊢
  induction h₁ with
  | nil => exact h₂
  | cons h _ ih => exact List.Forall₂.cons h ih

theorem Converted.single {g : Grammar} {key text : Str} {T : TypeTag} {val : Value}
    (hT : g.typeOf key = some T) (he : extract T text = some val) :
    Converted g [(key, text)] [(key, val)] :=
  List.Forall₂.cons ⟨rfl, T, hT, he⟩ List.Forall₂.nil

theorem Converted.map_fst {g : Grammar} {calls : List (Str × Str)}
    {trace : List (Str × Value)} (h : Converted g calls trace) :
    trace.map Prod.fst = calls.map Prod.fst := by
  unfold Converted at h
  induction h with
  | nil => rfl
  | cons h _ ih => simp [h.1, ih]

theorem ArgParser.typeOf_eq (p : ArgParser) (key : Str) (d : Declaration)
    (h : find p.argument_map_ key = some d) : p.grammar.typeOf key = some d.GetType := by
  show (find p.argument_map_ key).map Declaration.GetType = some d.GetType
  rw [h]
  rfl

theorem ArgParser.Parse.longOption_converted (p q : ArgParser) (body : Str)
    (h : Parse.longOption p ('-' :: '-' :: body) = .ok q) :
    ∃ T val, p.grammar.typeOf (optionName body) = some T ∧
      extract T (if '=' ∈ body then optionValue body else ['1']) = some val ∧
      q = p.stored (optionName body) val := by
  rw [ArgParser.Parse.longOption_eq] at h
  cases hd : find p.argument_map_ (optionName body) with
  | none => rw [hd] at h; cases h
  | some d =>
    rw [hd] at h
    dsimp only at h
    have hT := ArgParser.typeOf_eq p _ d hd
    by_cases hmem : '=' ∉ body
    · rw [if_pos hmem] at h
      have hin : ¬ ('=' ∈ body) := hmem
      by_cases hb : d.GetType = .bool
      · rw [if_pos hb] at h
        simp only [Except.ok.injEq] at h
        refine ⟨.bool, .bool true, by rw [hT, hb], ?_, h.symm⟩
        rw [if_neg hin]
        exact extract_bool_one
      · rw [if_neg hb] at h
        cases h
    · rw [if_neg hmem] at h
      have hin : '=' ∈ body := not_not.mp hmem
      split at h
      · cases h
      · cases he : extract d.GetType (optionValue body) with
        | none => rw [he] at h; cases h
        | some val =>
          rw [he] at h
          simp only [Except.ok.injEq] at h
          refine ⟨d.GetType, val, hT, ?_, h.symm⟩
          rw [if_pos hin]
          exact he

theorem ArgParser.Parse.cluster_converted (next : Option Str) (cs : List Char) :
    ∀ (p q : ArgParser) (consumed : Bool), Parse.cluster next p cs = .ok (q, consumed) →
      ∃ trace, Advances p q trace ∧ Converted p.grammar (p.grammar.clusterCalls next cs) trace := by
  induction cs with
  | nil =>
    intro p q consumed h
    simp only [ArgParser.Parse.cluster, Except.ok.injEq, Prod.mk.injEq] at h
    obtain ⟨rfl, rfl⟩ := h
    exact ⟨[], Advances.refl p, Converted.nil _⟩
  | cons c cs ih =>
    intro p q consumed h
    rw [ArgParser.Parse.cluster_cons] at h
    have halias : p.grammar.aliasOf c = find p.long_name_map_ c := rfl
    cases hn : find p.long_name_map_ c with
    | none => rw [hn] at h; cases h
    | some long_name =>
      rw [hn] at h
      dsimp only at h
      cases hd : find p.argument_map_ long_name with
      | none => rw [hd] at h; cases h
      | some d =>
        rw [hd] at h
        dsimp only at h
        have htype := ArgParser.typeOf_eq p long_name d hd
        by_cases hT : d.GetType = .bool
        · rw [if_pos hT] at h
          obtain ⟨trace, ha, hconv⟩ := ih _ _ _ h
          rw [ArgParser.grammar_stored] at hconv
          have hcalls : p.grammar.clusterCalls next (c :: cs) =
              (long_name, ['1']) :: p.grammar.clusterCalls next cs := by
            rw [Grammar.clusterCalls, halias, hn]
            dsimp only
            rw [htype, hT]
          rw [hcalls]
          refine ⟨(long_name, .bool true) :: trace,
            (Advances.stored p long_name (.bool true)).trans ha, ?_⟩
          exact List.Forall₂.cons ⟨rfl, .bool, by rw [htype, hT], extract_bool_one⟩ hconv
        · rw [if_neg hT] at h
          split at h
          · cases h
          · cases next with
            | none => cases h
            | some v =>
              dsimp only at h
              cases he : extract d.GetType v with
              | none => rw [he] at h; cases h
              | some val =>
                rw [he] at h
                simp only [Except.ok.injEq, Prod.mk.injEq] at h
                obtain ⟨rfl, rfl⟩ := h
                have hcalls : p.grammar.clusterCalls (some v) (c :: cs) = [(long_name, v)] := by
                  rw [Grammar.clusterCalls, halias, hn]
                  dsimp only
                  rw [htype]
                  cases hG : d.GetType with
                  | bool => exact absurd hG hT
                  | int => rfl
                  | string => rfl
                rw [hcalls]
                exact ⟨[(long_name, val)], Advances.stored p long_name val,
                  Converted.single htype he⟩

theorem ArgParser.Parse.plain_converted (p q : ArgParser) (str : Str)
    (h : Parse.plain p str = .ok q) :
    ∃ key val, p.grammar.positional = some key ∧ Advances p q [(key, val)] ∧
      Converted p.grammar [(key, str)] [(key, val)] := by
  rw [ArgParser.Parse.plain_eq] at h
  cases hk : p.grammar.positional with
  | none => rw [hk] at h; cases h
  | some key =>
    rw [hk] at h
    dsimp only at h
    cases hd : find p.argument_map_ key with
    | none => rw [hd] at h; cases h
    | some d =>
      rw [hd] at h
      dsimp only at h
      cases he : extract d.GetType str with
      | none => rw [he] at h; cases h
      | some val =>
        rw [he] at h
        simp only [Except.ok.injEq] at h
        subst h
        have h1 := Advances.bound p key hk
        have h2 := Advances.stored { p with positional_argument_ := some key } key val
        exact ⟨key, val, rfl, h1.trans h2, Converted.single (ArgParser.typeOf_eq p key d hd) he⟩

theorem Grammar.calls_long (g : Grammar) (body : Str) (rest : List Str) :
    g.calls (('-' :: '-' :: body) :: rest) =
      (optionName body, if '=' ∈ body then optionValue body else ['1']) :: g.calls rest := by
  rw [Grammar.calls]

theorem Grammar.calls_short (g : Grammar) (cs : List Char) (rest : List Str)
    (h : ∀ cs', cs ≠ '-' :: cs') :
    g.calls (('-' :: cs) :: rest) =
      g.clusterCalls rest.head? cs ++
        g.calls (if (g.clusterTargets cs).2 then rest.tail else rest) := by
  cases rest with
  | nil =>
    rw [Grammar.calls.eq_3 g cs (fun body hb => h body hb)]
    cases (g.clusterTargets cs).2 <;> simp [Grammar.calls]
  | cons v rest' =>
    rw [Grammar.calls.eq_4 g cs v rest' (fun body hb => h body hb)]
    cases (g.clusterTargets cs).2 <;> rfl

theorem Grammar.calls_plain (g : Grammar) (str : Str) (rest : List Str)
    (h : ∀ cs, str ≠ '-' :: cs) :
    g.calls (str :: rest) =
      match g.positional with
      | some key => (key, str) :: g.calls rest
      | none => [] := by
  exact Grammar.calls.eq_5 g str rest (fun body hb => h _ hb) (fun cs hb => h _ hb)

/-- The state `Parse` reaches on a token stream is the initial registry with, for each conversion
the stream asks for, the converted value stored in the declaration addressed, in order. -/
theorem ArgParser.Parse.loop_converted (tokens : List Str) :
    ∀ (p q : ArgParser), Parse.loop p tokens = .ok q →
      ∃ trace, Advances p q trace ∧ Converted p.grammar (p.grammar.calls tokens) trace := by
  generalize hn : tokens.length = n
  induction n using Nat.strong_induction_on generalizing tokens with
  | _ n ih =>
    intro p q h
    cases tokens with
    | nil =>
      simp only [ArgParser.Parse.loop, Except.ok.injEq] at h
      subst h
      exact ⟨[], Advances.refl p, Converted.nil _⟩
    | cons str rest =>
      have hrest : rest.length < n := by simp [← hn]
      rcases token_cases str with ⟨body, rfl⟩ | ⟨cs, rfl, hcs⟩ | hplain
      · rw [ArgParser.Parse.loop_long] at h
        rw [Grammar.calls_long]
        cases hl : Parse.longOption p ('-' :: '-' :: body) with
        | error e => rw [hl] at h; cases h
        | ok r =>
          rw [hl] at h
          dsimp only at h
          obtain ⟨T, val, hT, he, rfl⟩ := ArgParser.Parse.longOption_converted p r body hl
          obtain ⟨trace, h2, hconv⟩ := ih _ hrest rest rfl _ q h
          rw [ArgParser.grammar_stored] at hconv
          exact ⟨(optionName body, val) :: trace, (Advances.stored p _ val).trans h2,
            List.Forall₂.cons ⟨rfl, T, hT, he⟩ hconv⟩
      · rw [ArgParser.Parse.loop_short p cs rest hcs] at h
        rw [Grammar.calls_short _ cs rest hcs]
        cases hl : Parse.cluster rest.head? p cs with
        | error e => rw [hl] at h; cases h
        | ok r =>
          obtain ⟨r, consumed⟩ := r
          rw [hl] at h
          dsimp only at h
          obtain ⟨_, hc, _⟩ := ArgParser.Parse.cluster_advances rest.head? cs p r consumed hl
          obtain ⟨t1, h1, hconv1⟩ := ArgParser.Parse.cluster_converted rest.head? cs p r consumed hl
          rw [← hc]
          have hlen : (if consumed = true then rest.tail else rest).length < n := by
            split
            · exact lt_of_le_of_lt (by simp) hrest
            · exact hrest
          obtain ⟨t2, h2, hconv2⟩ := ih _ hlen _ rfl r q h
          rw [h1.1] at hconv2
          exact ⟨t1 ++ t2, h1.trans h2, hconv1.append hconv2⟩
      · rw [ArgParser.Parse.loop_plain p str rest hplain] at h
        rw [Grammar.calls_plain _ str rest hplain]
        cases hl : Parse.plain p str with
        | error e => rw [hl] at h; cases h
        | ok r =>
          rw [hl] at h
          dsimp only at h
          obtain ⟨key, val, hk, h1, hconv1⟩ := ArgParser.Parse.plain_converted p r str hl
          rw [hk]
          dsimp only
          obtain ⟨trace, h2, hconv2⟩ := ih _ hrest rest rfl r q h
          rw [h1.1] at hconv2
          exact ⟨[(key, val)] ++ trace, h1.trans h2, hconv1.append hconv2⟩

/-! ### Rejected and accepted clusters -/

/-- A cluster is rejected when one of its characters is no alias, or when a character that is not
its last one is the alias of a non-boolean declaration. -/
theorem cluster_rejects (g : Grammar)
    (hindex : ∀ c long_name, g.aliasOf c = some long_name → (g.typeOf long_name).isSome = true)
    (next : Option Str) (cs : List Char) :
    ∀ p : ArgParser, p.grammar = g →
      ((∃ c ∈ cs, g.aliasOf c = none) ∨
        (∃ pre c post long_name T, cs = pre ++ c :: post ∧ post ≠ [] ∧
          g.aliasOf c = some long_name ∧ g.typeOf long_name = some T ∧ T ≠ .bool)) →
      Parse.cluster next p cs = .error .UnknownArgument := by
  induction cs with
  | nil =>
    intro p _ hbad
    rcases hbad with ⟨c, hc, _⟩ | ⟨pre, c, post, _, _, hcs, _⟩
    · cases hc
    · cases pre <;> cases hcs
  | cons c cs ih =>
    intro p hg hbad
    rw [ArgParser.Parse.cluster_cons]
    have halias : find p.long_name_map_ c = g.aliasOf c := by rw [← hg]; rfl
    cases hn : g.aliasOf c with
    | none => rw [halias, hn]
    | some long_name =>
      rw [halias, hn]
      dsimp only
      have htype : (find p.argument_map_ long_name).map Declaration.GetType =
          g.typeOf long_name := by rw [← hg]; rfl
      cases hd : find p.argument_map_ long_name with
      | none =>
        have := hindex c long_name hn
        rw [← htype, hd] at this
        cases this
      | some d =>
        dsimp only
        rw [hd, Option.map_some'] at htype
        by_cases hT : d.GetType = .bool
        · rw [if_pos hT]
          apply ih _ ((ArgParser.grammar_stored p long_name (.bool true)).trans hg)
          rcases hbad with ⟨c', hc', hnone⟩ | ⟨pre, c', post, n', T, hcs, hpost, hn', hT', hne⟩
          · rcases List.mem_cons.mp hc' with rfl | hc'
            · rw [hn] at hnone
              cases hnone
            · exact Or.inl ⟨c', hc', hnone⟩
          · cases pre with
            | nil =>
              simp only [List.nil_append, List.cons.injEq] at hcs
              obtain ⟨rfl, _⟩ := hcs
              rw [hn] at hn'
              cases hn'
              rw [← htype, hT] at hT'
              exact absurd (Option.some.inj hT').symm hne
            | cons c0 pre' =>
              simp only [List.cons_append, List.cons.injEq] at hcs
              exact Or.inr ⟨pre', c', post, n', T, hcs.2, hpost, hn', hT', hne⟩
        · rw [if_neg hT]
          by_cases hcs : cs ≠ []
          · rw [if_pos hcs]
          · exfalso
            have hcs' : cs = [] := not_not.mp hcs
            subst hcs'
            rcases hbad with ⟨c', hc', hnone⟩ | ⟨pre, c', post, n', T, hcs, hpost, _⟩
            · rw [List.mem_singleton.mp hc', hn] at hnone
              cases hnone
            · cases pre with
              | nil =>
                simp only [List.nil_append, List.cons.injEq] at hcs
                exact hpost hcs.2.symm
              | cons c0 pre' =>
                simp only [List.cons_append, List.cons.injEq] at hcs
                cases pre' <;> cases hcs.2

/-- A cluster of flags that ends with the alias of a non-boolean declaration takes the following
token as the value of that declaration. -/
theorem cluster_flags_then_value (g : Grammar) (v : Str) (x : Char) (long_name : Str)
    (T : TypeTag) (hx : g.aliasOf x = some long_name) (hT : g.typeOf long_name = some T)
    (hne : T ≠ .bool) (flags : List Char) :
    ∀ p : ArgParser, p.grammar = g →
      (∀ c ∈ flags, ∃ n, g.aliasOf c = some n ∧ g.typeOf n = some .bool) →
      Parse.cluster (some v) p (flags ++ [x]) =
        match extract T v with
        | some val =>
          .ok ((flags.foldl (fun r c =>
            match g.aliasOf c with
            | some n => r.stored n (.bool true)
            | none => r) p).stored long_name val, true)
        | none => .error .InvalidArgumentType := by
  induction flags with
  | nil =>
    intro p hg _
    have halias : find p.long_name_map_ x = some long_name := by rw [← hx, ← hg]; rfl
    have htype : (find p.argument_map_ long_name).map Declaration.GetType = some T := by
      rw [← hT, ← hg]; rfl
    rw [List.nil_append, ArgParser.Parse.cluster_cons, halias]
    dsimp only
    cases hd : find p.argument_map_ long_name with
    | none => rw [hd] at htype; cases htype
    | some d =>
      rw [hd, Option.map_some', Option.some.injEq] at htype
      dsimp only
      rw [if_neg (by rw [htype]; exact hne), if_neg (by simp), htype]
      rfl
  | cons c flags ih =>
    intro p hg hflags
    obtain ⟨n, hn, hb⟩ := hflags c (by simp)
    have halias : find p.long_name_map_ c = some n := by rw [← hn, ← hg]; rfl
    have htype : (find p.argument_map_ n).map Declaration.GetType = some .bool := by
      rw [← hb, ← hg]; rfl
    rw [List.cons_append, ArgParser.Parse.cluster_cons, halias]
    dsimp only
    cases hd : find p.argument_map_ n with
    | none => rw [hd] at htype; cases htype
    | some d =>
      rw [hd, Option.map_some', Option.some.injEq] at htype
      dsimp only
      rw [if_pos htype, ih _ ((ArgParser.grammar_stored p n (.bool true)).trans hg)
        (fun c' hc' => hflags c' (by simp [hc'])), List.foldl_cons, hn]

/-- C11: in a short-cluster token `-c1...ck` (the first character after the `-` is not `-`), in
a registry whose alias index points to registered declarations: if one of the characters is not a
registered short alias, `Parse` fails with `UnknownArgument`; if a character that is not the last
one resolves to a non-boolean declaration, `Parse` fails with `UnknownArgument`; both for every
following token stream. A cluster of boolean aliases that ends with the alias of a non-boolean
declaration is accepted: its flags are set and the following token is converted and stored for the
last character (so `-abx value` is accepted and `-axb value` is rejected). -/
theorem cluster_errors (p : ArgParser) (cs : List Char) (rest : List Str)
    (hshort : ∀ cs', cs ≠ '-' :: cs')
    (hindex : ∀ c long_name, find p.long_name_map_ c = some long_name →
      (find p.argument_map_ long_name).isSome = true) :
    ((∃ c ∈ cs, find p.long_name_map_ c = none) →
      Parse.loop p (('-' :: cs) :: rest) = .error .UnknownArgument) ∧
    ((∃ pre c post long_name d, cs = pre ++ c :: post ∧ post ≠ [] ∧
        find p.long_name_map_ c = some long_name ∧
        find p.argument_map_ long_name = some d ∧ d.GetType ≠ .bool) →
      Parse.loop p (('-' :: cs) :: rest) = .error .UnknownArgument) ∧
    (∀ (flags : List Char) (x : Char) (long_name : Str) (d : Declaration) (v : Str)
        (val : Value), cs = flags ++ [x] →
      (∀ c ∈ flags, ∃ n e, find p.long_name_map_ c = some n ∧
        find p.argument_map_ n = some e ∧ e.GetType = .bool) →
      find p.long_name_map_ x = some long_name →
      find p.argument_map_ long_name = some d → d.GetType ≠ .bool →
      extract d.GetType v = some val →
      ∃ q, Parse.loop p (('-' :: cs) :: v :: rest) = Parse.loop q rest ∧
        find q.argument_map_ long_name = some (d.stored val)) := by
  have hindex' : ∀ c long_name, p.grammar.aliasOf c = some long_name →
      (p.grammar.typeOf long_name).isSome = true := by
    intro c long_name h
    have := hindex c long_name h
    show ((find p.argument_map_ long_name).map Declaration.GetType).isSome = true
    cases hd : find p.argument_map_ long_name with
    | none => rw [hd] at this; cases this
    | some d => rfl
  refine ⟨?_, ?_, ?_⟩
  · rintro ⟨c, hc, hnone⟩
    rw [ArgParser.Parse.loop_short p cs rest hshort,
      cluster_rejects p.grammar hindex' _ cs p rfl (Or.inl ⟨c, hc, hnone⟩)]
  · rintro ⟨pre, c, post, long_name, d, hcs, hpost, hn, hd, hT⟩
    rw [ArgParser.Parse.loop_short p cs rest hshort,
      cluster_rejects p.grammar hindex' _ cs p rfl
        (Or.inr ⟨pre, c, post, long_name, d.GetType, hcs, hpost, hn,
          ArgParser.typeOf_eq p long_name d hd, hT⟩)]
  · intro flags x long_name d v val hcs hflags hx hd hT he
    subst hcs
    have hflags' : ∀ c ∈ flags, ∃ n, p.grammar.aliasOf c = some n ∧
        p.grammar.typeOf n = some .bool := by
      intro c hc
      obtain ⟨n, e, hn, hfe, hb⟩ := hflags c hc
      exact ⟨n, hn, by rw [ArgParser.typeOf_eq p n e hfe, hb]⟩
    have hcl := cluster_flags_then_value p.grammar v x long_name d.GetType hx
      (ArgParser.typeOf_eq p long_name d hd) hT flags p rfl hflags'
    rw [he] at hcl
    dsimp only at hcl
    have hkeep : ∀ (fl : List Char) (r : ArgParser),
        (∀ c ∈ fl, ∃ n, p.grammar.aliasOf c = some n ∧ p.grammar.typeOf n = some .bool) →
        find r.argument_map_ long_name = some d →
        find (fl.foldl (fun r c =>
          match p.grammar.aliasOf c with
          | some n => r.stored n (.bool true)
          | none => r) r).argument_map_ long_name = some d := by
      intro fl
      induction fl with
      | nil => intro r _ hr; exact hr
      | cons c fl ih =>
        intro r hfl hr
        obtain ⟨n, hn, hb⟩ := hfl c (by simp)
        rw [List.foldl_cons, hn]
        apply ih _ (fun c' hc' => hfl c' (by simp [hc']))
        have hne : long_name ≠ n := by
          intro e
          rw [← e, ArgParser.typeOf_eq p long_name d hd] at hb
          exact hT (Option.some.inj hb)
        rw [ArgParser.find_stored, if_neg hne]
        exact hr
    have hk := hkeep flags p hflags' hd
    generalize List.foldl (fun r c =>
        match p.grammar.aliasOf c with
        | some n => r.stored n (.bool true)
        | none => r) p flags = q0 at hcl hk
    refine ⟨q0.stored long_name val, ?_, ?_⟩
    · rw [ArgParser.Parse.loop_short p _ (v :: rest) hshort, List.head?_cons, hcl]
      rfl
    · rw [ArgParser.find_stored, if_pos rfl, hk]
      rfl

/-- Witness of C11: with the flags `a`, `b` and the string option `x`, the cluster `-axb` is
rejected, the cluster `-aqb` (no alias `q`) is rejected, and `-abx value` stores `value`. -/
theorem cluster_errors_witness :
    Parse.loop registryMixed ["-axb".toList, "value".toList] = .error .UnknownArgument ∧
    Parse.loop registryMixed ["-aqb".toList, "value".toList] = .error .UnknownArgument ∧
    ∃ q, Parse.loop registryMixed ["-abx".toList, "value".toList] = .ok q ∧
      find q.argument_map_ param1 =
        some (.scalar ⟨⟨param1, some 'x', [], false⟩, .string, some (.string "value".toList),
          none⟩) := by
  have hindex : ∀ c long_name, find registryMixed.long_name_map_ c = some long_name →
      (find registryMixed.argument_map_ long_name).isSome = true := by
    intro c long_name h
    simp only [registryMixed, find_cons, find_nil] at h
    split at h
    · cases h; rfl
    · split at h
      · cases h; rfl
      · split at h
        · cases h; rfl
        · cases h
  refine ⟨?_, ?_, ?_⟩
  · exact (cluster_errors registryMixed ['a', 'x', 'b'] ["value".toList]
      (fun cs' h => absurd (List.cons.inj h).1 (by decide)) hindex).2.1
      ⟨['a'], 'x', ['b'], param1, _, rfl, by simp, rfl, rfl, by decide⟩
  · exact (cluster_errors registryMixed ['a', 'q', 'b'] ["value".toList]
      (fun cs' h => absurd (List.cons.inj h).1 (by decide)) hindex).1
      ⟨'q', by simp, rfl⟩
  · have hflags : ∀ c ∈ ['a', 'b'], ∃ n e, find registryMixed.long_name_map_ c = some n ∧
        find registryMixed.argument_map_ n = some e ∧ e.GetType = .bool := by
      intro c hc
      simp only [List.mem_cons, List.mem_singleton, List.not_mem_nil, or_false] at hc
      rcases hc with rfl | rfl
      · exact ⟨_, _, rfl, rfl, rfl⟩
      · exact ⟨_, _, rfl, rfl, rfl⟩
    obtain ⟨q, hq, hf⟩ := (cluster_errors registryMixed ['a', 'b', 'x'] []
      (fun cs' h => absurd (List.cons.inj h).1 (by decide)) hindex).2.2
      ['a', 'b'] 'x' param1 _ "value".toList (.string "value".toList) rfl hflags rfl rfl
      (by decide) rfl
    exact ⟨q, hq, hf⟩

/-! ### Declaring arguments -/

theorem find_eq_none_iff {κ ν : Type} [DecidableEq κ] (m : List (κ × ν)) (k : κ) :
    find m k = none ↔ ∀ e ∈ m, e.1 ≠ k := by
  induction m with
  | nil => simp [find_nil]
  | cons e m ih =>
    by_cases h : e.1 = k
    · simp [find_cons, h]
    · simp [find_cons, h, ih]

theorem find_append {κ ν : Type} [DecidableEq κ] (l₁ l₂ : List (κ × ν)) (k : κ) :
    find (l₁ ++ l₂) k = match find l₁ k with
      | some v => some v
      | none => find l₂ k := by
  induction l₁ with
  | nil => rfl
  | cons e l₁ ih =>
    by_cases h : e.1 = k
    · simp [find_cons, h]
    · simp only [List.cons_append, find_cons, h, if_false, ih]

theorem find_insert {κ ν : Type} [DecidableEq κ] (slot : Nat) (m : List (κ × ν)) (k k' : κ)
    (v : ν) (h : find m k = none) :
    find (m.take slot ++ (k, v) :: m.drop slot) k' =
      if k' = k then some v else find m k' := by
  have hsplit : find m k' = match find (m.take slot) k' with
      | some w => some w
      | none => find (m.drop slot) k' := by
    rw [← find_append, List.take_append_drop]
  rw [find_append, find_cons]
  by_cases hk : k' = k
  · subst hk
    have hnone : find (m.take slot) k' = none := by
      rw [find_eq_none_iff] at h ⊢
      exact fun e he => h e (List.mem_of_mem_take he)
    rw [hnone]
    simp
  · have hk' : ¬ k = k' := fun e => hk e.symm
    rw [if_neg hk, hsplit]
    simp only [hk', if_false]

theorem emplace_eq (slot : Nat) {κ ν : Type} [DecidableEq κ] (m : List (κ × ν)) (k : κ)
    (v : ν) :
    emplace slot m k v =
      if (find m k).isSome then none else some (m.take slot ++ (k, v) :: m.drop slot) := by
  unfold emplace
  cases find m k <;> rfl

theorem perm_insert {α : Type} (slot : Nat) (m : List α) (x : α) :
    (m.take slot ++ x :: m.drop slot).Perm (x :: m) := by
  have h := @List.perm_middle α x (m.take slot) (m.drop slot)
  rwa [List.take_append_drop] at h

theorem insertDeclaration_eq (p : ArgParser) (slot : Nat) (long_name : Str) (d : Declaration) :
    (p.insertDeclaration slot long_name d = .error .ArgumentAlreadyExists ↔
      (find p.argument_map_ long_name).isSome = true) ∧
    (find p.argument_map_ long_name = none →
      ∃ q, p.insertDeclaration slot long_name d = .ok q ∧ Registered p q long_name d ∧
        q.long_name_map_ = p.long_name_map_) := by
  unfold ArgParser.insertDeclaration
  rw [emplace_eq]
  cases h : find p.argument_map_ long_name with
  | some e => simp
  | none =>
    simp only [Option.isSome_none, Bool.false_eq_true, if_false]
    refine ⟨⟨fun hc => (by cases hc), fun hc => (by cases hc)⟩, fun _ => ⟨_, rfl, ?_, rfl⟩⟩
    refine ⟨?_, ?_, perm_insert _ _ _, rfl, rfl, rfl, rfl⟩
    · show find (p.argument_map_.take slot ++ _ :: p.argument_map_.drop slot) long_name = _
      rw [find_insert slot _ _ _ _ h, if_pos rfl]
    · intro key hkey
      show find (p.argument_map_.take slot ++ _ :: p.argument_map_.drop slot) key = _
      rw [find_insert slot _ _ _ _ h, if_neg hkey]

theorem insertAliased_eq (p : ArgParser) (slot : Nat) (short_name : Char) (long_name : Str)
    (d : Declaration) :
    let r : Except Error ArgParser :=
      match emplace slot p.long_name_map_ short_name long_name with
      | none => .error .ArgumentAlreadyExists
      | some names => ({ p with long_name_map_ := names }).insertDeclaration slot long_name d
    (r = .error .ArgumentAlreadyExists ↔
      ((find p.argument_map_ long_name).isSome = true ∨
        (find p.long_name_map_ short_name).isSome = true)) ∧
    (find p.argument_map_ long_name = none → find p.long_name_map_ short_name = none →
      ∃ q, r = .ok q ∧ Registered p q long_name d ∧ Aliased p q short_name long_name) := by
  intro r
  have hr : r = match emplace slot p.long_name_map_ short_name long_name with
      | none => .error .ArgumentAlreadyExists
      | some names =>
        ({ p with long_name_map_ := names }).insertDeclaration slot long_name d := rfl
  rw [emplace_eq] at hr
  cases hs : find p.long_name_map_ short_name with
  | some n =>
    rw [hs] at hr
    simp [hr]
  | none =>
    rw [hs] at hr
    simp only [Option.isSome_none, Bool.false_eq_true, if_false] at hr
    obtain ⟨h1, h2⟩ := insertDeclaration_eq
      { p with long_name_map_ :=
          p.long_name_map_.take slot ++ (short_name, long_name) :: p.long_name_map_.drop slot }
      slot long_name d
    rw [hr]
    refine ⟨by simpa using h1, fun hl _ => ?_⟩
    obtain ⟨q, hq, hreg, hnames⟩ := h2 hl
    refine ⟨q, hq, hreg, ?_⟩
    rw [Aliased, hnames]
    refine ⟨?_, ?_, perm_insert _ _ _⟩
    · show find (p.long_name_map_.take slot ++ _ :: p.long_name_map_.drop slot) short_name = _
      rw [find_insert slot _ _ _ _ hs, if_pos rfl]
    · intro c hc
      show find (p.long_name_map_.take slot ++ _ :: p.long_name_map_.drop slot) c = _
      rw [find_insert slot _ _ _ _ hs, if_neg hc]

theorem ArgumentBase.new_ok (long_name description : Str) (h : long_name ≠ []) :
    ArgumentBase.new long_name description = .ok ⟨long_name, none, description, false⟩ := by
  cases long_name with
  | nil => exact absurd rfl h
  | cons c cs => rfl

theorem ArgumentBase.newShort_ok (short_name : Char) (long_name description : Str)
    (hs : short_name ≠ ' ') (h : long_name ≠ []) :
    ArgumentBase.newShort short_name long_name description =
      .ok ⟨long_name, some short_name, description, false⟩ := by
  cases long_name with
  | nil => exact absurd rfl h
  | cons c cs =>
    unfold ArgumentBase.newShort
    rw [if_neg hs]
    rfl

/-- C12: declaring an argument with a non-empty long name and, when one is supplied, a short
name other than the blank, through any of the four `AddArgument` overloads: the call fails with
`ArgumentAlreadyExists` if and only if the long name is already registered or the supplied short
name is already registered; otherwise it succeeds, the registry then holds the new declaration
(no value, no default, not positional) under that long name, the alias index maps the short name
to that long name, and every other declaration and alias is as before. -/
theorem declare_already_exists_iff (p : ArgParser) (slot : Nat) (T : TypeTag) (min_size : Nat)
    (short_name : Char) (long_name description : Str) (hlong : long_name ≠ [])
    (hshort : short_name ≠ ' ') :
    ((p.AddArgument slot T long_name description = .error .ArgumentAlreadyExists ↔
        (find p.argument_map_ long_name).isSome = true) ∧
      (find p.argument_map_ long_name = none →
        ∃ q, p.AddArgument slot T long_name description = .ok q ∧
          Registered p q long_name (.scalar ⟨⟨long_name, none, description, false⟩, T, none,
            none⟩) ∧
          q.long_name_map_ = p.long_name_map_)) ∧
    ((p.AddArgumentMulti slot T min_size long_name description = .error .ArgumentAlreadyExists ↔
        (find p.argument_map_ long_name).isSome = true) ∧
      (find p.argument_map_ long_name = none →
        ∃ q, p.AddArgumentMulti slot T min_size long_name description = .ok q ∧
          Registered p q long_name (.repeated ⟨⟨long_name, none, description, false⟩, T,
            min_size, [], none⟩) ∧
          q.long_name_map_ = p.long_name_map_)) ∧
    ((p.AddArgumentShort slot T short_name long_name description =
          .error .ArgumentAlreadyExists ↔
        ((find p.argument_map_ long_name).isSome = true ∨
          (find p.long_name_map_ short_name).isSome = true)) ∧
      (find p.argument_map_ long_name = none → find p.long_name_map_ short_name = none →
        ∃ q, p.AddArgumentShort slot T short_name long_name description = .ok q ∧
          Registered p q long_name (.scalar ⟨⟨long_name, some short_name, description, false⟩,
            T, none, none⟩) ∧
          Aliased p q short_name long_name)) ∧
    ((p.AddArgumentMultiShort slot T min_size short_name long_name description =
          .error .ArgumentAlreadyExists ↔
        ((find p.argument_map_ long_name).isSome = true ∨
          (find p.long_name_map_ short_name).isSome = true)) ∧
      (find p.argument_map_ long_name = none → find p.long_name_map_ short_name = none →
        ∃ q, p.AddArgumentMultiShort slot T min_size short_name long_name description = .ok q ∧
          Registered p q long_name (.repeated ⟨⟨long_name, some short_name, description,
            false⟩, T, min_size, [], none⟩) ∧
          Aliased p q short_name long_name)) := by
  have h1 : p.AddArgument slot T long_name description =
      p.insertDeclaration slot long_name (.scalar ⟨⟨long_name, none, description, false⟩, T,
        none, none⟩) := by
    simp only [ArgParser.AddArgument, ArgumentBase.new_ok long_name description hlong]
  have h2 : p.AddArgumentMulti slot T min_size long_name description =
      p.insertDeclaration slot long_name (.repeated ⟨⟨long_name, none, description, false⟩, T,
        min_size, [], none⟩) := by
    simp only [ArgParser.AddArgumentMulti, ArgumentBase.new_ok long_name description hlong]
  have h3 : p.AddArgumentShort slot T short_name long_name description =
      match emplace slot p.long_name_map_ short_name long_name with
      | none => .error .ArgumentAlreadyExists
      | some names => ({ p with long_name_map_ := names }).insertDeclaration slot long_name
          (.scalar ⟨⟨long_name, some short_name, description, false⟩, T, none, none⟩) := by
    simp only [ArgParser.AddArgumentShort,
      ArgumentBase.newShort_ok short_name long_name description hshort hlong]
  have h4 : p.AddArgumentMultiShort slot T min_size short_name long_name description =
      match emplace slot p.long_name_map_ short_name long_name with
      | none => .error .ArgumentAlreadyExists
      | some names => ({ p with long_name_map_ := names }).insertDeclaration slot long_name
          (.repeated ⟨⟨long_name, some short_name, description, false⟩, T, min_size, [],
            none⟩) := by
    simp only [ArgParser.AddArgumentMultiShort,
      ArgumentBase.newShort_ok short_name long_name description hshort hlong]
  rw [h1, h2, h3, h4]
  exact ⟨insertDeclaration_eq p slot long_name _, insertDeclaration_eq p slot long_name _,
    insertAliased_eq p slot short_name long_name _, insertAliased_eq p slot short_name long_name _⟩

/-- Witness of C12: in the registry of `ShortNameTest` (`param1`, alias `p`), declaring
`param1` again fails with `ArgumentAlreadyExists`, so does declaring `other` with the alias `p`,
and declaring `other` with the alias `o` succeeds and keeps `param1` and its alias. -/
theorem declare_already_exists_iff_witness :
    registryShort.AddArgument 0 .int param1 [] = .error .ArgumentAlreadyExists ∧
    registryShort.AddArgumentShort 0 .int 'p' "other".toList [] =
      .error .ArgumentAlreadyExists ∧
    ∃ q, registryShort.AddArgumentShort 0 .int 'o' "other".toList [] = .ok q ∧
      find q.argument_map_ param1 = find registryShort.argument_map_ param1 ∧
      find q.long_name_map_ 'p' = some param1 ∧
      find q.long_name_map_ 'o' = some "other".toList := by
  refine ⟨?_, ?_, ?_⟩
  · exact (declare_already_exists_iff registryShort 0 .int 0 'p' param1 [] (by decide)
      (by decide)).1.1.mpr rfl
  · exact (declare_already_exists_iff registryShort 0 .int 0 'p' "other".toList [] (by decide)
      (by decide)).2.2.1.1.mpr (Or.inr rfl)
  · obtain ⟨q, hq, hreg, hal⟩ := (declare_already_exists_iff registryShort 0 .int 0 'o'
      "other".toList [] (by decide) (by decide)).2.2.1.2 rfl rfl
    exact ⟨q, hq, hreg.2.1 param1 (by decide), (hal.2.1 'p' (by decide)).trans rfl, hal.1⟩

/-- The part of C13 that holds on the code: an empty long name is rejected by every overload
(with `EmptyArgumentLongName` when no other check fires first), and so is the blank as short name
(with `EmptyArgumentShortName` when the blank is not an alias yet). -/
theorem declare_rejects_empty_names (p : ArgParser) (slot : Nat) (T : TypeTag) (min_size : Nat)
    (short_name : Char) (long_name description : Str) :
    p.AddArgument slot T [] description = .error .EmptyArgumentLongName ∧
    p.AddArgumentMulti slot T min_size [] description = .error .EmptyArgumentLongName ∧
    (∀ q, p.AddArgumentShort slot T short_name [] description ≠ .ok q) ∧
    (∀ q, p.AddArgumentMultiShort slot T min_size short_name [] description ≠ .ok q) ∧
    (∀ q, p.AddArgumentShort slot T ' ' long_name description ≠ .ok q) ∧
    (∀ q, p.AddArgumentMultiShort slot T min_size ' ' long_name description ≠ .ok q) ∧
    (find p.long_name_map_ ' ' = none →
      p.AddArgumentShort slot T ' ' long_name description = .error .EmptyArgumentShortName ∧
      p.AddArgumentMultiShort slot T min_size ' ' long_name description =
        .error .EmptyArgumentShortName) ∧
    (find p.long_name_map_ short_name = none → short_name ≠ ' ' →
      p.AddArgumentShort slot T short_name [] description = .error .EmptyArgumentLongName ∧
      p.AddArgumentMultiShort slot T min_size short_name [] description =
        .error .EmptyArgumentLongName) := by
  have hempty : ∀ c : Char, ∃ e, ArgumentBase.newShort c [] description = .error e := by
    intro c
    unfold ArgumentBase.newShort
    split
    · exact ⟨_, rfl⟩
    · exact ⟨_, rfl⟩
  have hblank : ArgumentBase.newShort ' ' long_name description =
      .error .EmptyArgumentShortName := rfl
  refine ⟨rfl, rfl, ?_, ?_, ?_, ?_, ?_, ?_⟩
  · intro q h
    obtain ⟨e, he⟩ := hempty short_name
    simp only [ArgParser.AddArgumentShort, he] at h
    split at h <;> cases h
  · intro q h
    obtain ⟨e, he⟩ := hempty short_name
    simp only [ArgParser.AddArgumentMultiShort, he] at h
    split at h <;> cases h
  · intro q h
    simp only [ArgParser.AddArgumentShort, hblank] at h
    split at h <;> cases h
  · intro q h
    simp only [ArgParser.AddArgumentMultiShort, hblank] at h
    split at h <;> cases h
  · intro hs
    simp only [ArgParser.AddArgumentShort, ArgParser.AddArgumentMultiShort, emplace_eq, hs,
      hblank]
    exact ⟨rfl, rfl⟩
  · intro hs hne
    have hnew : ArgumentBase.newShort short_name [] description =
        .error .EmptyArgumentLongName := by
      unfold ArgumentBase.newShort
      rw [if_neg hne]
      rfl
    simp only [ArgParser.AddArgumentShort, ArgParser.AddArgumentMultiShort, emplace_eq, hs,
      hnew]
    exact ⟨rfl, rfl⟩

/-- Instance of `declare_rejects_empty_names`: in a new registry the blank as short name gives
`EmptyArgumentShortName`. -/
theorem declare_rejects_empty_names_witness :
    (ArgParser.new "My Parser".toList).AddArgumentShort 0 .string ' ' param1 [] =
      .error .EmptyArgumentShortName :=
  ((declare_rejects_empty_names (ArgParser.new "My Parser".toList) 0 .string 0 ' ' param1
    []).2.2.2.2.2.2.1 rfl).1

/-- C13 at its failing input: the tab is a white space character, and declaring a string
argument `tab` with the tab as short name in a new registry succeeds; the registry then holds a
declaration whose short name is a white space character, and the alias index maps the tab. -/
theorem whitespace_short_name_accepted :
    isspace tab = true ∧
    ∃ q, (ArgParser.new "My Parser".toList).AddArgumentShort 0 .string tab "tab".toList [] =
        .ok q ∧
      find q.long_name_map_ tab = some "tab".toList ∧
      (find q.argument_map_ "tab".toList).map (fun d => d.base.short_name_) =
        some (some tab) :=
  ⟨rfl, _, rfl, rfl, rfl⟩

/-- C14, as amended: `AddHelp` fails with `HelpArgumentAlreadyExists` if help was already
declared by an earlier `AddHelp`; otherwise, if the long name `help` or the short alias `h` is
already registered, it fails with `ArgumentAlreadyExists`; in every other registry state it
succeeds and registers a boolean declaration with long name `help` and short alias `h` whose
default is false, leaves the other declarations as they were, and `Help()` is then false. -/
theorem AddHelp_outcome (p : ArgParser) (slot : Nat) (description : Str) :
    (p.help_argument_.isSome = true →
      p.AddHelp slot description = .error .HelpArgumentAlreadyExists) ∧
    (p.help_argument_ = none →
      ((find p.argument_map_ "help".toList).isSome = true ∨
        (find p.long_name_map_ 'h').isSome = true) →
      p.AddHelp slot description = .error .ArgumentAlreadyExists) ∧
    (p.help_argument_ = none → find p.argument_map_ "help".toList = none →
      find p.long_name_map_ 'h' = none →
      ∃ q, p.AddHelp slot description = .ok q ∧
        q.help_argument_ = some "help".toList ∧
        find q.argument_map_ "help".toList = some helpDeclaration ∧
        Aliased p q 'h' "help".toList ∧
        (∀ key, key ≠ "help".toList → find q.argument_map_ key = find p.argument_map_ key) ∧
        q.Help = .ok false) := by
  have hadd : p.AddArgumentShort slot .bool 'h' "help".toList
      "Display this help and exit".toList =
      match emplace slot p.long_name_map_ 'h' "help".toList with
      | none => .error .ArgumentAlreadyExists
      | some names => ({ p with long_name_map_ := names }).insertDeclaration slot "help".toList
          (.scalar ⟨⟨"help".toList, some 'h', "Display this help and exit".toList, false⟩,
            .bool, none, none⟩) := by
    simp only [ArgParser.AddArgumentShort,
      ArgumentBase.newShort_ok 'h' "help".toList _ (by decide) (by decide)]
  obtain ⟨hiff, hok⟩ := insertAliased_eq p slot 'h' "help".toList
    (.scalar ⟨⟨"help".toList, some 'h', "Display this help and exit".toList, false⟩,
      .bool, none, none⟩)
  rw [← hadd] at hiff hok
  refine ⟨?_, ?_, ?_⟩
  · intro h
    unfold ArgParser.AddHelp
    rw [if_pos h]
  · intro hnone hor
    unfold ArgParser.AddHelp
    rw [if_neg (by rw [hnone]; simp), hiff.mpr hor]
  · intro hnone hl hs
    obtain ⟨q0, hq0, hreg, hal⟩ := hok hl hs
    unfold ArgParser.AddHelp
    rw [if_neg (by rw [hnone]; simp), hq0]
    dsimp only
    have hon : (q0.onScalar "help".toList (fun a => a.Default (.bool false))).argument_map_ =
        assign q0.argument_map_ "help".toList helpDeclaration := by
      unfold ArgParser.onScalar
      rw [hreg.1]
      rfl
    have hnames : (q0.onScalar "help".toList (fun a => a.Default (.bool false))).long_name_map_ =
        q0.long_name_map_ := by
      unfold ArgParser.onScalar
      rw [hreg.1]
    have hfind : ∀ key, find (assign q0.argument_map_ "help".toList helpDeclaration) key =
        if key = "help".toList then some helpDeclaration else find p.argument_map_ key := by
      intro key
      rw [find_assign]
      by_cases hk : key = "help".toList
      · rw [if_pos hk, if_pos hk, hreg.1]
        rfl
      · rw [if_neg hk, if_neg hk, hreg.2.1 key hk]
    refine ⟨_, rfl, rfl, ?_, ?_, ?_, ?_⟩
    · show find (q0.onScalar "help".toList _).argument_map_ "help".toList = _
      rw [hon, hfind, if_pos rfl]
    · unfold Aliased
      show find (q0.onScalar "help".toList _).long_name_map_ 'h' = _ ∧
        (∀ c, c ≠ 'h' → find (q0.onScalar "help".toList _).long_name_map_ c = _) ∧
        (q0.onScalar "help".toList _).long_name_map_.Perm _
      rw [hnames]
      exact hal
    · intro key hk
      show find (q0.onScalar "help".toList _).argument_map_ key = _
      rw [hon, hfind, if_neg hk]
    · show (match find (q0.onScalar "help".toList _).argument_map_ "help".toList with
        | some (.scalar a) =>
          match a.GetValue with
          | .ok (.bool b) => .ok b
          | .ok _ => .error .UndefinedBehaviour
          | .error e => .error e
        | _ => .error .UndefinedBehaviour) = (.ok false : Except Error Bool)
      rw [hon, hfind, if_pos rfl]
      rfl

/-- Witness of C14 as amended: `AddHelp` on a new registry succeeds, `Help()` is false after it,
and a second `AddHelp` fails with `HelpArgumentAlreadyExists`. -/
theorem AddHelp_outcome_witness :
    ∃ q, (ArgParser.new "My Parser".toList).AddHelp 0 [] = .ok q ∧ q.Help = .ok false ∧
      q.AddHelp 0 [] = .error .HelpArgumentAlreadyExists := by
  obtain ⟨q, hq, hhelp, _, _, _, hfalse⟩ :=
    (AddHelp_outcome (ArgParser.new "My Parser".toList) 0 []).2.2 rfl rfl rfl
  exact ⟨q, hq, hfalse, (AddHelp_outcome q 0 []).1 (by rw [hhelp]; rfl)⟩

/-- Counterexample to C14 as stated: after `AddFlag('h', "hidden")` on a new registry, help
was never declared, yet `AddHelp` does not succeed: it fails with `ArgumentAlreadyExists`,
because the alias `h` is taken. -/
theorem AddHelp_outcome_counterexample :
    (ArgParser.new "My Parser".toList).AddFlagShort 0 'h' "hidden".toList [] =
      .ok registryAliasH ∧
    registryAliasH.help_argument_ = none ∧
    registryAliasH.AddHelp 0 [] = .error .ArgumentAlreadyExists :=
  ⟨rfl, rfl, rfl⟩

/-! ### The typed accessors -/

theorem Argument.GetValue_ne_type (a : Argument) : a.GetValue ≠ .error .InvalidArgumentType ∧
    a.GetValue ≠ .error .UnknownArgument := by
  obtain ⟨b, T, v, d⟩ := a
  cases v <;> cases d <;> simp [Argument.GetValue, Argument.HasValue]

theorem ArgumentMulti.GetValue_index_ne_type (a : ArgumentMulti) (index : Nat) :
    a.GetValue index ≠ .error .InvalidArgumentType ∧
    a.GetValue index ≠ .error .UnknownArgument := by
  unfold ArgumentMulti.GetValue
  constructor <;>
  · split
    · simp
    · split
      · split <;> simp
      · split <;> simp

/-- The part of C15 that holds on the code, for the typed accessors `GetArgumentValue<T>(name)`
and `GetArgumentValue<T>(name, index)`. By long name, either fails with `UnknownArgument` iff the name is not registered; for a registered
name either fails with `InvalidArgumentType` iff the type of the declaration differs from `T`;
when the types agree, the accessor without index on a scalar declaration returns exactly what
`GetValue()` of the declaration returns, and the accessor with index on a repeated declaration
exactly what its `GetValue(index)` returns. By short name, the accessor fails with
`UnknownArgument` when the character is not in the alias index and otherwise is the accessor by
the long name the alias index gives. -/
theorem typed_accessor_delegates (p : ArgParser) (T : TypeTag) (long_name : Str)
    (short_name : Char) (index : Nat) :
    (p.GetArgumentValue T long_name = .error .UnknownArgument ↔
      find p.argument_map_ long_name = none) ∧
    (p.GetArgumentValueAt T long_name index = .error .UnknownArgument ↔
      find p.argument_map_ long_name = none) ∧
    (∀ d, find p.argument_map_ long_name = some d →
      (p.GetArgumentValue T long_name = .error .InvalidArgumentType ↔ d.GetType ≠ T) ∧
      (p.GetArgumentValueAt T long_name index = .error .InvalidArgumentType ↔
        d.GetType ≠ T)) ∧
    (∀ a, find p.argument_map_ long_name = some (.scalar a) → a.T = T →
      p.GetArgumentValue T long_name = a.GetValue) ∧
    (∀ a, find p.argument_map_ long_name = some (.repeated a) → a.T = T →
      p.GetArgumentValueAt T long_name index = a.GetValue index) ∧
    (find p.long_name_map_ short_name = none →
      p.GetArgumentValueShort T short_name = .error .UnknownArgument ∧
      p.GetArgumentValueShortAt T short_name index = .error .UnknownArgument) ∧
    (∀ n, find p.long_name_map_ short_name = some n →
      p.GetArgumentValueShort T short_name = p.GetArgumentValue T n ∧
      p.GetArgumentValueShortAt T short_name index = p.GetArgumentValueAt T n index) := by
  have hcase : ∀ d, find p.argument_map_ long_name = some d →
      (p.GetArgumentValue T long_name = .error .UnknownArgument ↔ False) ∧
      (p.GetArgumentValueAt T long_name index = .error .UnknownArgument ↔ False) ∧
      (p.GetArgumentValue T long_name = .error .InvalidArgumentType ↔ d.GetType ≠ T) ∧
      (p.GetArgumentValueAt T long_name index = .error .InvalidArgumentType ↔
        d.GetType ≠ T) := by
    intro d hd
    unfold ArgParser.GetArgumentValue ArgParser.GetArgumentValueAt
    rw [hd]
    dsimp only
    by_cases hT : d.GetType ≠ T
    · rw [if_pos hT, if_pos hT]
      simp [hT]
    · rw [if_neg hT, if_neg hT]
      cases d with
      | scalar a =>
        have := Argument.GetValue_ne_type a
        simp [hT, this.1, this.2]
      | repeated a =>
        have := ArgumentMulti.GetValue_index_ne_type a index
        simp [hT, this.1, this.2]
  refine ⟨?_, ?_, ?_, ?_, ?_, ?_, ?_⟩
  · cases hd : find p.argument_map_ long_name with
    | none => simp [ArgParser.GetArgumentValue, hd]
    | some d => simpa using (hcase d hd).1
  · cases hd : find p.argument_map_ long_name with
    | none => simp [ArgParser.GetArgumentValueAt, hd]
    | some d => simpa using (hcase d hd).2.1
  · intro d hd
    exact ⟨(hcase d hd).2.2.1, (hcase d hd).2.2.2⟩
  · intro a hd hT
    unfold ArgParser.GetArgumentValue
    rw [hd]
    dsimp only
    rw [if_neg (by simp [Declaration.GetType, hT])]
  · intro a hd hT
    unfold ArgParser.GetArgumentValueAt
    rw [hd]
    dsimp only
    rw [if_neg (by simp [Declaration.GetType, hT])]
  · intro hs
    simp [ArgParser.GetArgumentValueShort, ArgParser.GetArgumentValueShortAt, hs]
  · intro n hs
    simp [ArgParser.GetArgumentValueShort, ArgParser.GetArgumentValueShortAt, hs]

/-- An instance on the registry of `ShortNameTest` (`param1` is a string without value):
reading `param1` as an int fails with `InvalidArgumentType`, reading it as a string gives what
its own `GetValue()` gives (`NoArgumentValue`), and reading an unknown name or alias fails with
`UnknownArgument`. -/
theorem typed_accessor_delegates_witness :
    registryShort.GetArgumentValue .int param1 = .error .InvalidArgumentType ∧
    registryShort.GetArgumentValue .string param1 = .error .NoArgumentValue ∧
    registryShort.GetArgumentValueShort .string 'p' = .error .NoArgumentValue ∧
    registryShort.GetArgumentValue .string "other".toList = .error .UnknownArgument ∧
    registryShort.GetArgumentValueShort .string 'q' = .error .UnknownArgument :=
  ⟨((typed_accessor_delegates registryShort .int param1 'p' 0).2.2.1 _ rfl).1.mpr (by decide),
   (typed_accessor_delegates registryShort .string param1 'p' 0).2.2.2.1 _ rfl rfl,
   ((typed_accessor_delegates registryShort .string param1 'p' 0).2.2.2.2.2.2 _ rfl).1,
   (typed_accessor_delegates registryShort .string "other".toList 'p' 0).1.mpr rfl,
   ((typed_accessor_delegates registryShort .string param1 'q' 0).2.2.2.2.2.1 rfl).1⟩

/-- The typed accessors on a declaration of the other kind: for a registered name whose type
agrees with `T`, the accessor without index on a repeated declaration and the accessor with index
on a scalar declaration dereference the null pointer their `dynamic_cast` returns. -/
theorem typed_accessor_other_kind (p : ArgParser) (T : TypeTag) (long_name : Str)
    (index : Nat) :
    (∀ a, find p.argument_map_ long_name = some (.repeated a) → a.T = T →
      p.GetArgumentValue T long_name = .error .UndefinedBehaviour) ∧
    (∀ a, find p.argument_map_ long_name = some (.scalar a) → a.T = T →
      p.GetArgumentValueAt T long_name index = .error .UndefinedBehaviour) := by
  constructor
  · intro a hfind hT
    have hG : ¬ (Declaration.repeated a).GetType ≠ T := not_not.mpr hT
    unfold ArgParser.GetArgumentValue
    rw [hfind]
    dsimp only
    rw [if_neg hG]
  · intro a hfind hT
    have hG : ¬ (Declaration.scalar a).GetType ≠ T := not_not.mpr hT
    unfold ArgParser.GetArgumentValueAt
    rw [hfind]
    dsimp only
    rw [if_neg hG]

/-- Instances on the registries of `MultiValueTest` and `DefaultTest`. -/
theorem typed_accessor_other_kind_witness :
    registryMultiValue.GetArgumentValue .int param1 = .error .UndefinedBehaviour ∧
    registryDefault.GetArgumentValueAt .string param1 0 = .error .UndefinedBehaviour :=
  ⟨(typed_accessor_other_kind registryMultiValue .int param1 0).1 _ rfl rfl,
   (typed_accessor_other_kind registryDefault .string param1 0).2 _ rfl rfl⟩

/-- C15 at its failing input: the registry of the test `MultiValueTest` after the tokens
`--param1=1 --param1=2 --param1=3`. The name `param1` is registered and its type is `int`; the
declaration's own accessor `GetValue(0)` returns 1, and so does `GetArgumentValue<int>("param1", 0)`,
but `GetArgumentValue<int>("param1")` and `GetArgumentValue<int>('p')` return nothing: they
dereference the null pointer of `dynamic_cast<Argument<int>*>`. Likewise, in the registry of
`DefaultTest`, `GetArgumentValue<std::string>("param1")` returns the default `value1` and
`GetArgumentValue<std::string>("param1", 0)` dereferences a null pointer. -/
theorem typed_accessor_null_cast :
    (∃ q a, registryMultiValue.Parse
          [app, "--param1=1".toList, "--param1=2".toList, "--param1=3".toList] = .ok (q, true) ∧
        find q.argument_map_ param1 = some (.repeated a) ∧ a.T = .int ∧
        a.GetValue 0 = .ok (.int 1) ∧
        q.GetArgumentValueAt .int param1 0 = .ok (.int 1) ∧
        q.GetArgumentValue .int param1 = .error .UndefinedBehaviour ∧
        q.GetArgumentValueShort .int 'p' = .error .UndefinedBehaviour) ∧
    (∃ a, find registryDefault.argument_map_ param1 = some (.scalar a) ∧ a.T = .string ∧
        a.GetValue = .ok (.string "value1".toList) ∧
        registryDefault.GetArgumentValue .string param1 = .ok (.string "value1".toList) ∧
        registryDefault.GetArgumentValueAt .string param1 0 = .error .UndefinedBehaviour) :=
  ⟨⟨_, _, rfl, rfl, rfl, rfl, rfl, rfl, rfl⟩, ⟨_, rfl, rfl, rfl, rfl, rfl⟩⟩

/-! ### The help text -/

theorem mem_of_find {κ ν : Type} [DecidableEq κ] {m : List (κ × ν)} {k : κ} {v : ν}
    (h : find m k = some v) : (k, v) ∈ m := by
  induction m with
  | nil => cases h
  | cons e m ih =>
    by_cases hk : e.1 = k
    · rw [find_cons, if_pos hk] at h
      have he : e = (k, v) := Prod.ext hk (Option.some.inj h)
      simp [he]
    · rw [find_cons, if_neg hk] at h
      simp [ih h]

/-- The main list of `HelpDescription` has a line for every entry of the declaration map, the
help declaration included: for every registry in which help is declared, the line of the help
declaration is one of the lines of the main list, and the text ends with that line once more. -/
theorem HelpDescription_lists_help (p : ArgParser) (key : Str) (d : Declaration)
    (hhelp : p.help_argument_ = some key) (hfind : find p.argument_map_ key = some d) :
    (∃ before after, p.argument_map_.map (fun e => e.2.line) = before ++ d.line :: after) ∧
    p.mainList = (p.argument_map_.map (fun e => e.2.line ++ [newline])).flatten ++ [newline] ∧
    ∃ head, p.HelpDescription = .ok (head ++ p.mainList ++ (d.line ++ [newline])) := by
  have hmem : (key, d) ∈ p.argument_map_ := mem_of_find hfind
  refine ⟨?_, ?_, ?_⟩
  · have : d.line ∈ p.argument_map_.map (fun e => e.2.line) :=
      List.mem_map.mpr ⟨(key, d), hmem, rfl⟩
    obtain ⟨before, after, h⟩ := List.append_of_mem this
    exact ⟨before, after, h⟩
  · unfold ArgParser.mainList
    cases hm : p.argument_map_ with
    | nil => rw [hm] at hmem; cases hmem
    | cons e m => rfl
  · unfold ArgParser.HelpDescription
    rw [hhelp]
    dsimp only
    rw [hfind]
    exact ⟨_, rfl⟩

/-- Instance of `HelpDescription_lists_help`: the registry of `HelpStringTest`. -/
theorem HelpDescription_lists_help_witness :
    ∃ before after, registryHelpTest.argument_map_.map (fun e => e.2.line) =
      before ++ helpLine :: after :=
  (HelpDescription_lists_help registryHelpTest "help".toList helpDeclaration rfl rfl).1

set_option maxRecDepth 100000 in
/-- C16 at its failing input: the registry of the test `HelpStringTest`. The text
`HelpDescription` returns has ten lines; the main list (lines 4 to 8) holds a line for each of the
four other declarations and also the line of the help declaration, which appears a second time as
the last line: it occurs twice in the output. -/
theorem help_line_appears_twice :
    declareHelpTest = .ok registryHelpTest ∧
    registryHelpTest.HelpDescription =
      .ok (helpTestLines.map (fun l => l ++ [newline])).flatten ∧
    helpTestLines.count helpLine = 2 ∧
    (helpTestLines.drop 3).take 5 =
      registryHelpTest.argument_map_.map (fun e => e.2.line) := by
  refine ⟨rfl, ?_, ?_, ?_⟩
  · rfl
  · decide
  · rfl

/-! ### The last conversion wins -/

theorem foldl_stored_scalar_last (vals : List Value) :
    ∀ a : Argument, vals.foldl Declaration.stored (.scalar a) =
      .scalar { a with value_ := match vals.getLast? with
                                 | some v => some v
                                 | none => a.value_ } := by
  induction vals with
  | nil => intro a; rfl
  | cons v vals ih =>
    intro a
    rw [List.foldl_cons]
    show vals.foldl Declaration.stored (.scalar { a with value_ := some v }) = _
    rw [ih, List.getLast?_cons]
    cases vals.getLast? <;> rfl

theorem Converted.split {g : Grammar} (c₁ : List (Str × Str)) :
    ∀ {call : Str × Str} {c₂ : List (Str × Str)} {trace : List (Str × Value)},
      Converted g (c₁ ++ call :: c₂) trace →
      ∃ t₁ val t₂, trace = t₁ ++ (call.1, val) :: t₂ ∧ Converted g c₁ t₁ ∧ Converted g c₂ t₂ ∧
        ∃ T, g.typeOf call.1 = some T ∧ extract T call.2 = some val := by
  induction c₁ with
  | nil =>
    intro call c₂ trace h
    rw [List.nil_append] at h
    obtain ⟨e, t, he, ht, rfl⟩ := List.forall₂_cons_left_iff.mp h
    obtain ⟨h1, T, hT, hx⟩ := he
    exact ⟨[], e.2, t, by rw [← h1]; rfl, Converted.nil g, ht, T, hT, hx⟩
  | cons c c₁ ih =>
    intro call c₂ trace h
    rw [List.cons_append] at h
    obtain ⟨e, t, he, ht, rfl⟩ := List.forall₂_cons_left_iff.mp h
    obtain ⟨t₁, val, t₂, rfl, h1, h2, hT⟩ := ih ht
    exact ⟨e :: t₁, val, t₂, rfl, List.Forall₂.cons he h1, h2, hT⟩

theorem valuesFor_of_not_mem (trace : List (Str × Value)) (key : Str)
    (h : key ∉ trace.map Prod.fst) : valuesFor trace key = [] := by
  apply List.eq_nil_of_length_eq_zero
  rw [length_valuesFor]
  exact List.count_eq_zero.mpr h

/-- A scalar declaration holds the conversion of the text of the last conversion that addressed
it. -/
theorem last_call_wins (p q : ArgParser) (tokens : List Str) (key text : Str) (a : Argument)
    (c₁ c₂ : List (Str × Str)) (hloop : Parse.loop p tokens = .ok q)
    (hfind : find p.argument_map_ key = some (.scalar a))
    (hcalls : p.grammar.calls tokens = c₁ ++ (key, text) :: c₂)
    (hlast : key ∉ c₂.map Prod.fst) :
    ∃ val, extract a.T text = some val ∧
      find q.argument_map_ key = some (.scalar { a with value_ := some val }) := by
  obtain ⟨trace, hadv, hconv⟩ := ArgParser.Parse.loop_converted tokens p q hloop
  rw [hcalls] at hconv
  obtain ⟨t₁, val, t₂, rfl, _, h2, T, hT, hx⟩ := Converted.split c₁ hconv
  have hTa : T = a.T := by
    rw [ArgParser.typeOf_eq p key _ hfind] at hT
    exact (Option.some.inj hT).symm
  have hvals : valuesFor (t₁ ++ (key, val) :: t₂) key = valuesFor t₁ key ++ [val] := by
    have hkey : valuesFor [(key, val)] key = [val] := by simp [valuesFor]
    have hsplit : t₁ ++ (key, val) :: t₂ = t₁ ++ ([(key, val)] ++ t₂) := rfl
    rw [hsplit, valuesFor_append, valuesFor_append, hkey,
      valuesFor_of_not_mem t₂ key (by rw [h2.map_fst]; exact hlast), List.append_nil]
  refine ⟨val, by rw [← hTa]; exact hx, ?_⟩
  rw [hadv.2.2.2.2 key, hfind, Option.map_some', hvals, foldl_stored_scalar_last,
    List.getLast?_concat]

theorem calls_plain_tokens (g : Grammar) (key : Str) (hpos : g.positional = some key)
    (ts : List Str) (hplain : ∀ s ∈ ts, ∀ cs, s ≠ '-' :: cs) :
    g.calls ts = ts.map (fun s => (key, s)) := by
  induction ts with
  | nil => rfl
  | cons t ts ih =>
    rw [Grammar.calls_plain g t ts (hplain t (by simp)), hpos]
    dsimp only
    rw [ih (fun s hs => hplain s (by simp [hs])), List.map_cons]

/-- C19: if the registry has no declaration marked positional (and so no positional target is
bound), then in every state a parse reaches from it a plain token (no leading `-`) makes `Parse`
fail with `NoPositionalArgument`; if the declaration plain tokens go to is scalar, then after the
plain tokens `t1..tn` (`n >= 1`), scanned without fatal error, its value is the conversion of
`tn`; more generally, after any token stream scanned without fatal error, a scalar declaration
holds the conversion of the text of the last occurrence that addressed it. -/
theorem plain_tokens_and_last_value (p : ArgParser) :
    (p.positional_argument_ = none → (∀ e ∈ p.argument_map_, e.2.IsPositional = false) →
      ∀ (before : List Str) (q : ArgParser), Parse.loop p before = .ok q →
      ∀ (str : Str) (rest : List Str), (∀ cs, str ≠ '-' :: cs) →
        Parse.loop q (str :: rest) = .error .NoPositionalArgument) ∧
    (∀ (key : Str) (a : Argument) (ts : List Str) (t : Str) (q : ArgParser),
      p.grammar.positional = some key → find p.argument_map_ key = some (.scalar a) →
      (∀ s ∈ ts ++ [t], ∀ cs, s ≠ '-' :: cs) → Parse.loop p (ts ++ [t]) = .ok q →
      ∃ val, extract a.T t = some val ∧
        find q.argument_map_ key = some (.scalar { a with value_ := some val })) ∧
    (∀ (key text : Str) (a : Argument) (tokens : List Str) (q : ArgParser)
        (c₁ c₂ : List (Str × Str)),
      find p.argument_map_ key = some (.scalar a) → Parse.loop p tokens = .ok q →
      p.grammar.calls tokens = c₁ ++ (key, text) :: c₂ → key ∉ c₂.map Prod.fst →
      ∃ val, extract a.T text = some val ∧
        find q.argument_map_ key = some (.scalar { a with value_ := some val })) := by
  refine ⟨?_, ?_, ?_⟩
  · intro hbound hnone before q hq str rest hplain
    have hgp : p.grammar.positional = none := by
      simp only [ArgParser.grammar, hbound]
      rw [List.find?_eq_none.mpr (fun e he => by simp [hnone e he])]
      rfl
    obtain ⟨trace, _, hadv⟩ := ArgParser.Parse.loop_advances before p q hq
    rw [ArgParser.Parse.loop_plain q str rest hplain, ArgParser.Parse.plain_eq, hadv.1, hgp]
  · intro key a ts t q hpos hfind hplain hq
    have hcalls : p.grammar.calls (ts ++ [t]) = ts.map (fun s => (key, s)) ++ (key, t) :: [] := by
      rw [calls_plain_tokens p.grammar key hpos _ hplain, List.map_append]
      rfl
    exact last_call_wins p q _ key t a _ [] hq hfind hcalls (by simp)
  · intro key text a tokens q c₁ c₂ hfind hq hcalls hlast
    exact last_call_wins p q tokens key text a c₁ c₂ hq hfind hcalls hlast

/-- Witness of C19: with the scalar int `number` as positional declaration, the plain tokens
`1 2 3` leave the value 3; the registry of `NoDefaultTest` has no positional declaration and the
plain token `value1` fails with `NoPositionalArgument`. -/
theorem plain_tokens_and_last_value_witness :
    (∃ q, Parse.loop registryScalarPositional ["1".toList, "2".toList, "3".toList] = .ok q ∧
      find q.argument_map_ "number".toList =
        some (.scalar ⟨⟨"number".toList, none, [], true⟩, .int, some (.int 3), none⟩)) ∧
    Parse.loop registryString ["value1".toList] = .error .NoPositionalArgument := by
  constructor
  · obtain ⟨val, hval, hq⟩ := (plain_tokens_and_last_value registryScalarPositional).2.1
      "number".toList _ ["1".toList, "2".toList] "3".toList _ rfl rfl
      (fun s hs cs h => by
        simp only [List.cons_append, List.nil_append, List.mem_cons, List.mem_singleton,
          List.not_mem_nil, or_false] at hs
        rcases hs with rfl | rfl | rfl <;> exact absurd (List.cons.inj h).1 (by decide))
      rfl
    have hv : val = .int 3 := (Option.some.inj hval).symm
    rw [hv] at hq
    exact ⟨_, rfl, hq⟩
  · exact (plain_tokens_and_last_value registryString).1 rfl
      (fun e he => by
        simp only [registryString, List.mem_singleton] at he
        subst he
        rfl)
      [] registryString rfl "value1".toList []
      (fun cs h => absurd (List.cons.inj h).1 (by decide))

/-! ### The help flag -/

theorem Parse_ok (p q : ArgParser) (program : Str) (tokens : List Str) (b : Bool)
    (h : p.Parse (program :: tokens) = .ok (q, b)) :
    Parse.loop p tokens = .ok q ∧ b = q.argument_map_.all (fun e => e.2.HasValue) := by
  simp only [ArgParser.Parse] at h
  cases hl : Parse.loop p tokens with
  | error e => rw [hl] at h; cases h
  | ok r =>
    rw [hl] at h
    simp only [Except.ok.injEq, Prod.mk.injEq] at h
    obtain ⟨rfl, rfl⟩ := h
    exact ⟨rfl, rfl⟩

/-- C17, as amended: for every registry in which help is declared, after a token stream scanned
without fatal error in which the last occurrence that addresses the help declaration converts the
text `1` (the token `--help`, or the alias of help in a short cluster), `Help()` returns true,
whatever `Parse` returned; in particular after a stream that starts with `--help` and does not
address help again. `Parse` returns false whenever some declaration lacks a value. When help is
not declared, `Help()` returns false. -/
theorem help_after_parse (p q : ArgParser) (program : Str) (tokens : List Str) (b : Bool)
    (key : Str) (a : Argument) (hhelp : p.help_argument_ = some key)
    (hfind : find p.argument_map_ key = some (.scalar a)) (hT : a.T = .bool)
    (hparse : p.Parse (program :: tokens) = .ok (q, b)) :
    (∀ c₁ c₂, p.grammar.calls tokens = c₁ ++ (key, ['1']) :: c₂ → key ∉ c₂.map Prod.fst →
      q.Help = .ok true) ∧
    ('=' ∉ key → ∀ rest, tokens = ('-' :: '-' :: key) :: rest →
      key ∉ (p.grammar.calls rest).map Prod.fst → q.Help = .ok true) ∧
    ((∃ e ∈ q.argument_map_, e.2.HasValue = false) → b = false) ∧
    (∀ r : ArgParser, r.help_argument_ = none → r.Help = .ok false) := by
  obtain ⟨hloop, hb⟩ := Parse_ok p q program tokens b hparse
  have hmain : ∀ c₁ c₂, p.grammar.calls tokens = c₁ ++ (key, ['1']) :: c₂ →
      key ∉ c₂.map Prod.fst → q.Help = .ok true := by
    intro c₁ c₂ hcalls hlast
    obtain ⟨val, hval, hq⟩ := last_call_wins p q tokens key ['1'] a c₁ c₂ hloop hfind hcalls hlast
    rw [hT, extract_bool_one] at hval
    obtain ⟨_, hadv⟩ := ArgParser.Parse.loop_advances tokens p q hloop
    unfold ArgParser.Help
    rw [hadv.2.2.2.1, hhelp]
    dsimp only
    rw [hq, ← Option.some.inj hval]
    rfl
  refine ⟨hmain, ?_, ?_, ?_⟩
  · intro hkey rest htokens hlast
    apply hmain [] (p.grammar.calls rest) _ hlast
    have hin : ¬ ('=' ∈ key) := hkey
    rw [htokens, Grammar.calls_long, if_neg hin]
    have hname : optionName key = key := takeWhile_ne_of_not_mem hkey
    rw [hname]
    rfl
  · rintro ⟨e, he, hfalse⟩
    rw [hb]
    apply Bool.eq_false_iff.mpr
    intro hall
    have := List.all_eq_true.mp hall e he
    rw [hfalse] at this
    cases this
  · intro r hr
    unfold ArgParser.Help
    rw [hr]

/-- Witness of C17 as amended: the test `HelpStringTest`; after the token `--help` alone
`Parse` returns false (the repeated string and the int have no value) and `Help()` is true. -/
theorem help_after_parse_witness :
    ∃ q, registryHelpTest.Parse [app, "--help".toList] = .ok (q, false) ∧
      q.Help = .ok true := by
  refine ⟨_, rfl, ?_⟩
  exact (help_after_parse registryHelpTest _ app ["--help".toList] false "help".toList _ rfl
    rfl rfl rfl).2.1 (by decide) [] rfl (by simp [Grammar.calls])

/-- Counterexample to C17 as stated: in the registry that `AddHelp` builds, the stream
`--help --help=0` contains the token `--help` and is scanned without fatal error, `Parse` returns
true, yet `Help()` returns false: the second token stores the conversion of `0`. -/
theorem help_after_parse_counterexample :
    (ArgParser.new "My Parser".toList).AddHelp 0 [] = .ok registryHelpOnly ∧
    ∃ q, registryHelpOnly.Parse [app, "--help".toList, "--help=0".toList] = .ok (q, true) ∧
      q.Help = .ok false :=
  ⟨rfl, _, rfl, rfl⟩

/-! ### Boolean declarations -/

theorem cluster_ok_targets (g : Grammar) (next : Option Str) (cs : List Char) :
    ∀ (p q : ArgParser) (consumed : Bool), p.grammar = g →
      Parse.cluster next p cs = .ok (q, consumed) →
      ∀ c ∈ cs, ∀ key, g.aliasOf c = some key → key ∈ (g.clusterTargets cs).1 := by
  induction cs with
  | nil => intro p q consumed _ _ c hc; cases hc
  | cons c0 cs ih =>
    intro p q consumed hg h c hc key hkey
    rw [ArgParser.Parse.cluster_cons] at h
    have halias : find p.long_name_map_ c0 = g.aliasOf c0 := by rw [← hg]; rfl
    cases hn : g.aliasOf c0 with
    | none => rw [halias, hn] at h; cases h
    | some n0 =>
      rw [halias, hn] at h
      dsimp only at h
      cases hd : find p.argument_map_ n0 with
      | none => rw [hd] at h; cases h
      | some d0 =>
        rw [hd] at h
        dsimp only at h
        have htype : g.typeOf n0 = some d0.GetType := by
          rw [← hg]
          exact ArgParser.typeOf_eq p n0 d0 hd
        by_cases hT : d0.GetType = .bool
        · rw [if_pos hT] at h
          have htargets : g.clusterTargets (c0 :: cs) =
              (n0 :: (g.clusterTargets cs).1, (g.clusterTargets cs).2) := by
            rw [Grammar.clusterTargets, hn]
            dsimp only
            rw [htype, hT]
          rw [htargets]
          rcases List.mem_cons.mp hc with rfl | hc
          · rw [hn] at hkey
            cases hkey
            exact List.mem_cons_self _ _
          · exact List.mem_cons_of_mem _
              (ih _ _ _ ((ArgParser.grammar_stored p n0 (.bool true)).trans hg) h c hc key hkey)
        · rw [if_neg hT] at h
          split at h
          · cases h
          · rename_i hcs
            have hcs' : cs = [] := not_not.mp hcs
            subst hcs'
            rw [List.mem_singleton.mp hc, hn] at hkey
            cases hkey
            have htargets : g.clusterTargets [c0] = ([key], true) := by
              rw [Grammar.clusterTargets, hn]
              dsimp only
              rw [htype]
              cases hG : d0.GetType with
              | bool => exact absurd hG hT
              | int => rfl
              | string => rfl
            rw [htargets]
            exact List.mem_singleton.mpr rfl

theorem extractBool_iff (text : Str) (b : Bool) :
    extractBool text = some b ↔ readInteger text = some (if b then 1 else 0) := by
  unfold extractBool
  cases h : readInteger text with
  | none => simp
  | some i =>
    by_cases h0 : i = 0
    · subst h0
      cases b <;> simp
    · by_cases h1 : i = 1
      · subst h1
        cases b <;> simp
      · have : (match some i with
            | some 0 => some false
            | some 1 => some true
            | _ => none) = (none : Option Bool) := by
          split
          · rename_i heq; exact absurd (Option.some.inj heq) h0
          · rename_i heq; exact absurd (Option.some.inj heq) h1
          · rfl
        rw [this]
        cases b <;> simp [h0, h1]

/-- C18, as amended: for every boolean declaration, a token `--name` without `=` stores `true`
in it and raises no error, and so does every occurrence of its alias in a short cluster that is
accepted; a token `--name=text` is accepted only when `text` starts (after optional white space)
with a numeral equal to 0 or 1, and then stores false for 0 and true for 1, otherwise it fails
with `InvalidArgumentType`. -/
theorem boolean_token_values (p : ArgParser) (key : Str) (d : Declaration)
    (hfind : find p.argument_map_ key = some d) (hT : d.GetType = .bool) :
    (∀ body rest, optionName body = key → '=' ∉ body →
      Parse.loop p (('-' :: '-' :: body) :: rest) =
        Parse.loop (p.stored key (.bool true)) rest) ∧
    (∀ body rest, optionName body = key → '=' ∈ body →
      Parse.loop p (('-' :: '-' :: body) :: rest) =
        match extractBool (optionValue body) with
        | some b => Parse.loop (p.stored key (.bool b)) rest
        | none => .error .InvalidArgumentType) ∧
    (∀ text b, extractBool text = some b ↔ readInteger text = some (if b then 1 else 0)) ∧
    (∀ next cs q consumed c, Parse.cluster next p cs = .ok (q, consumed) → c ∈ cs →
      find p.long_name_map_ c = some key →
      ∃ k, 0 < k ∧ find q.argument_map_ key =
        some ((List.replicate k (.bool true)).foldl Declaration.stored d)) ∧
    (∀ b, find (p.stored key (.bool b)).argument_map_ key = some (d.stored (.bool b))) := by
  refine ⟨?_, ?_, extractBool_iff, ?_, ?_⟩
  · intro body rest hname hmem
    rw [ArgParser.Parse.loop_long, ArgParser.Parse.longOption_eq, hname, hfind]
    dsimp only
    rw [if_pos hmem, if_pos hT]
  · intro body rest hname hmem
    rw [ArgParser.Parse.loop_long, ArgParser.Parse.longOption_eq, hname, hfind]
    dsimp only
    rw [if_neg (not_not.mpr hmem), if_neg (fun h => h.1 hT), hT]
    simp only [extract]
    cases extractBool (optionValue body) <;> rfl
  · intro next cs q consumed c hq hc halias
    obtain ⟨⟨trace, hfst, hadv, hval⟩, _, _⟩ :=
      ArgParser.Parse.cluster_advances next cs p q consumed hq
    have hin := cluster_ok_targets p.grammar next cs p q consumed rfl hq c hc key halias
    have hall : ∀ e ∈ trace, e.1 = key → e.2 = .bool true := by
      intro e he hk
      apply hval e he
      rw [hk, ArgParser.typeOf_eq p key d hfind, hT]
    refine ⟨(trace.map Prod.fst).count key, ?_, ?_⟩
    · rw [hfst]
      exact List.count_pos_iff.mpr hin
    · rw [hadv.2.2.2.2 key, hfind, valuesFor_of_all trace (.bool true) key hall]
      rfl
  · intro b
    rw [ArgParser.find_stored, if_pos rfl, hfind]
    rfl

/-- Witness of C18 as amended: in the registry of `FlagsTest`, `--flag1` stores true in
`flag1`. -/
theorem boolean_token_values_witness :
    Parse.loop registryFlags ["--flag1".toList] =
      .ok (registryFlags.stored "flag1".toList (.bool true)) :=
  (boolean_token_values registryFlags "flag1".toList _ rfl rfl).1 "flag1".toList [] rfl
    (by decide)

/-- Counterexample to C18 as stated: in the registry of `FlagsTest` the token `--flag1=0`
addresses the boolean declaration `flag1` and is accepted, and the value of `flag1` after it is
false. -/
theorem boolean_token_values_counterexample :
    ∃ q, Parse.loop registryFlags ["--flag1=0".toList] = .ok q ∧
      find q.argument_map_ "flag1".toList =
        some (.scalar ⟨⟨"flag1".toList, some 'a', [], false⟩, .bool, some (.bool false),
          some (.bool false)⟩) ∧
      q.GetArgumentValue .bool "flag1".toList = .ok (.bool false) :=
  ⟨_, rfl, rfl, rfl⟩

/-! ### The positional target -/

theorem Converted.plain_values {g : Grammar} {key : Str} {T : TypeTag}
    (hT : g.typeOf key = some T) :
    ∀ (ts : List Str) (trace : List (Str × Value)),
      Converted g (ts.map (fun s => (key, s))) trace →
      List.Forall₂ (fun s v => extract T s = some v) ts (trace.map Prod.snd) ∧
      valuesFor trace key = trace.map Prod.snd ∧
      ∀ k, k ≠ key → valuesFor trace k = [] := by
  intro ts
  induction ts with
  | nil =>
    intro trace h
    rw [List.map_nil] at h
    cases h
    exact ⟨List.Forall₂.nil, rfl, fun _ _ => rfl⟩
  | cons t ts ih =>
    intro trace h
    rw [List.map_cons] at h
    obtain ⟨e, tr, he, htr, rfl⟩ := List.forall₂_cons_left_iff.mp h
    obtain ⟨h1, T', hT', hx⟩ := he
    obtain ⟨ih1, ih2, ih3⟩ := ih tr htr
    have hTT : T' = T := Option.some.inj (hT'.symm.trans hT)
    rw [hTT] at hx
    have hkey : e.1 = key := h1
    refine ⟨List.Forall₂.cons hx ih1, ?_, ?_⟩
    · have : valuesFor (e :: tr) key = e.2 :: valuesFor tr key := by
        simp [valuesFor, List.filter_cons, hkey]
      rw [this, ih2, List.map_cons]
    · intro k hk
      have hne : ¬ e.1 = k := fun hc => hk (hc.symm.trans hkey)
      have : valuesFor (e :: tr) k = valuesFor tr k := by
        simp [valuesFor, List.filter_cons, hne]
      rw [this, ih3 k hk]

/-- C20, as amended: the iteration order of the declaration map (a `std::unordered_map`, whose
order need not be the order of registration) is what decides the positional target: for every
registry in which no target is bound yet and any number of declarations are marked positional,
plain tokens go to the positional declaration that comes first in iteration order, in every state
a parse reaches; all plain tokens of a parse of plain tokens are converted at its type and stored
in it, in order, and none in any other declaration. -/
theorem positional_target_by_iteration_order (p : ArgParser)
    (before after : List (Str × Declaration)) (key : Str) (d : Declaration)
    (hbound : p.positional_argument_ = none)
    (hmap : p.argument_map_ = before ++ (key, d) :: after)
    (hbefore : ∀ e ∈ before, e.2.IsPositional = false ∧ e.1 ≠ key)
    (hpos : d.IsPositional = true) :
    p.grammar.positional = some key ∧
    (∀ tokens q, Parse.loop p tokens = .ok q → q.grammar.positional = some key) ∧
    (∀ ts q, (∀ s ∈ ts, ∀ cs, s ≠ '-' :: cs) → Parse.loop p ts = .ok q →
      ∃ vals, List.Forall₂ (fun s v => extract d.GetType s = some v) ts vals ∧
        find q.argument_map_ key = some (vals.foldl Declaration.stored d) ∧
        ∀ k, k ≠ key → find q.argument_map_ k = find p.argument_map_ k) := by
  have hgp : p.grammar.positional = some key := by
    simp only [ArgParser.grammar, hbound, hmap, List.find?_append]
    rw [List.find?_eq_none.mpr (fun e he => by simp [(hbefore e he).1])]
    simp [hpos]
  have hfind : find p.argument_map_ key = some d := by
    unfold find
    rw [hmap, List.find?_append,
      List.find?_eq_none.mpr (fun e he => by simp [(hbefore e he).2])]
    simp
  refine ⟨hgp, ?_, ?_⟩
  · intro tokens q hq
    obtain ⟨_, _, hadv⟩ := ArgParser.Parse.loop_advances tokens p q hq
    rw [hadv.1, hgp]
  · intro ts q hplain hq
    obtain ⟨trace, hadv, hconv⟩ := ArgParser.Parse.loop_converted ts p q hq
    rw [calls_plain_tokens p.grammar key hgp ts hplain] at hconv
    obtain ⟨h1, h2, h3⟩ :=
      Converted.plain_values (ArgParser.typeOf_eq p key d hfind) ts trace hconv
    refine ⟨trace.map Prod.snd, h1, ?_, ?_⟩
    · rw [hadv.2.2.2.2 key, hfind, h2]
      rfl
    · intro k hk
      rw [hadv.2.2.2.2 k, h3 k hk]
      cases find p.argument_map_ k <;> rfl

/-- Witness of C20 as amended: in the registry in which `second` precedes `first` in iteration
order, both marked positional, the plain tokens `x y` leave `y` in `second` and nothing in
`first`. -/
theorem positional_target_by_iteration_order_witness :
    ∃ q, Parse.loop registryTwoPositional ["x".toList, "y".toList] = .ok q ∧
      ∃ vals, List.Forall₂ (fun s v => extract .string s = some v) ["x".toList, "y".toList] vals ∧
        find q.argument_map_ "second".toList =
          some (vals.foldl Declaration.stored
            (.scalar ⟨⟨"second".toList, none, [], true⟩, .string, none, none⟩)) ∧
        ∀ k, k ≠ "second".toList →
          find q.argument_map_ k = find registryTwoPositional.argument_map_ k :=
  ⟨_, rfl, (positional_target_by_iteration_order registryTwoPositional [] _ "second".toList _
    rfl rfl (fun _ h => by cases h) rfl).2.2 ["x".toList, "y".toList] _
    (fun s hs cs h => by
      simp only [List.mem_cons, List.mem_singleton, List.not_mem_nil, or_false] at hs
      rcases hs with rfl | rfl <;> exact absurd (List.cons.inj h).1 (by decide)) rfl⟩

/-- Counterexample to C20 as stated: `first` is declared and marked positional, then `second`
is declared and marked positional, the container linking each new element in front; the plain
token `x` of a parse is stored in `second`, declared later, and `first`, declared first, keeps
having no value. -/
theorem positional_target_by_iteration_order_counterexample :
    declareTwoPositional = .ok registryTwoPositional ∧
    ∃ q, registryTwoPositional.Parse [app, "x".toList] = .ok (q, false) ∧
      q.GetArgumentValue .string "second".toList = .ok (.string "x".toList) ∧
      find q.argument_map_ "first".toList =
        some (.scalar ⟨⟨"first".toList, none, [], true⟩, .string, none, none⟩) :=
  ⟨rfl, _, rfl, rfl, rfl⟩

/-! ### Conversion of a text to an int -/

theorem dropWhile_isspace_append (ws s : Str) (h : ∀ c ∈ ws, isspace c = true) :
    (ws ++ s).dropWhile isspace = s.dropWhile isspace := by
  induction ws with
  | nil => rfl
  | cons x xs ih =>
    rw [List.cons_append, List.dropWhile_cons, h x (by simp)]
    exact ih (fun c hc => h c (by simp [hc]))

theorem readInteger_skip_space (ws s : Str) (h : ∀ c ∈ ws, isspace c = true) :
    readInteger (ws ++ s) = readInteger s := by
  simp only [readInteger, dropWhile_isspace_append ws s h]

theorem takeWhile_isdigit_append (l rest : Str) (hall : ∀ c ∈ l, isdigit c = true)
    (hrest : ∀ c ∈ rest.head?, isdigit c = false) : (l ++ rest).takeWhile isdigit = l := by
  induction l with
  | nil =>
    cases rest with
    | nil => rfl
    | cons x xs =>
      rw [List.nil_append, List.takeWhile_cons, hrest x (by simp)]
      rfl
  | cons x xs ih =>
    rw [List.cons_append, List.takeWhile_cons, hall x (by simp),
      ih (fun c hc => hall c (by simp [hc]))]
    rfl

/-- The numeral read from a non-empty run of digits followed by a text that does not start with a
digit is the value of the run. -/
theorem readInteger_digits_append (l rest : Str) (hne : l ≠ [])
    (hall : ∀ c ∈ l, isdigit c = true) (hrest : ∀ c ∈ rest.head?, isdigit c = false) :
    readInteger (l ++ rest) = some (digitsValue l : Int) := by
  cases l with
  | nil => exact absurd rfl hne
  | cons x xs =>
    obtain ⟨hsp, hminus, hplus⟩ := isdigit_not_special (hall x (by simp))
    have hdrop : (x :: xs ++ rest).dropWhile isspace = x :: (xs ++ rest) := by
      rw [List.cons_append, List.dropWhile_cons, hsp]
      rfl
    have htake : (x :: (xs ++ rest)).takeWhile isdigit = x :: xs :=
      takeWhile_isdigit_append (x :: xs) rest hall hrest
    have hsign : (match x :: (xs ++ rest) with
        | '-' :: r => (true, r)
        | '+' :: r => (false, r)
        | _ => (false, x :: (xs ++ rest))) = (false, x :: (xs ++ rest)) := by
      split
      · rename_i r heq
        exact absurd (by injection heq) hminus
      · rename_i r heq
        exact absurd (by injection heq) hplus
      · rfl
    simp only [readInteger, hdrop, hsign, htake]
    rfl

theorem readInteger_minus_digits_append (l rest : Str) (hne : l ≠ [])
    (hall : ∀ c ∈ l, isdigit c = true) (hrest : ∀ c ∈ rest.head?, isdigit c = false) :
    readInteger ('-' :: l ++ rest) = some (-(digitsValue l : Int)) := by
  have hdrop : ('-' :: l ++ rest).dropWhile isspace = '-' :: (l ++ rest) := by
    rw [List.cons_append, List.dropWhile_cons]
    rfl
  have htake : (l ++ rest).takeWhile isdigit = l := takeWhile_isdigit_append l rest hall hrest
  have hempty : l.isEmpty = false := by
    cases l with
    | nil => exact absurd rfl hne
    | cons x xs => rfl
  simp only [readInteger, hdrop, htake, hempty]
  rfl

/-- The numeral read from optional white space, the decimal text of an integer and further
characters that do not start with a digit is that integer. -/
theorem readInteger_decimalText_append (ws : Str) (i : Int) (rest : Str)
    (hws : ∀ c ∈ ws, isspace c = true) (hrest : ∀ c ∈ rest.head?, isdigit c = false) :
    readInteger (ws ++ decimalText i ++ rest) = some i := by
  obtain ⟨hne, hall, hv⟩ := toDigits_spec i.natAbs
  rw [List.append_assoc, readInteger_skip_space ws _ hws]
  unfold decimalText
  by_cases hi : i < 0
  · rw [if_pos hi, readInteger_minus_digits_append _ rest hne hall hrest, hv]
    congr 1
    omega
  · rw [if_neg hi, readInteger_digits_append _ rest hne hall hrest, hv]
    congr 1
    omega

theorem extractInt_eq_none_iff (text : Str) :
    extractInt text = none ↔
      (readInteger text = none ∨ ∃ v, readInteger text = some v ∧ (v < INT_MIN ∨ INT_MAX < v)) := by
  unfold extractInt
  cases h : readInteger text with
  | none => simp
  | some v =>
    by_cases hr : INT_MIN ≤ v ∧ v ≤ INT_MAX
    · simp only [if_pos hr]
      constructor
      · intro hc; cases hc
      · rintro (hc | ⟨w, hw, hlt⟩)
        · cases hc
        · cases hw
          omega
    · show (if INT_MIN ≤ v ∧ v ≤ INT_MAX then some v else none) = none ↔ _
      rw [if_neg hr]
      refine ⟨fun _ => Or.inr ⟨v, rfl, ?_⟩, fun _ => rfl⟩
      by_contra hcon
      exact hr ⟨by omega, by omega⟩

/-- C25, as amended: for a scalar and for a repeated int declaration. A text whose leading
numeral (after optional white space: an optional sign and the longest run of digits) denotes a
number in the range of `int` is accepted whatever follows the numeral, and the number is stored
(overwriting the scalar, appended to the repeated one); so is the decimal text of an integer in
range preceded by white space and followed by characters that do not start with a digit.
`SetValueFromString` raises `InvalidArgumentType`, and no other error, exactly when the text has no
leading numeral or the leading numeral is outside the range of `int`. -/
theorem int_conversion_reads_numeral (a : Argument) (b : ArgumentMulti) (text : Str)
    (ha : a.T = .int) (hb : b.T = .int) :
    (∀ v, readInteger text = some v → INT_MIN ≤ v → v ≤ INT_MAX →
      a.SetValueFromString text = .ok { a with value_ := some (.int v) } ∧
      b.SetValueFromString text = .ok { b with value_ := b.value_ ++ [.int v] }) ∧
    (∀ (ws : Str) (i : Int) (rest : Str), (∀ c ∈ ws, isspace c = true) →
      (∀ c ∈ rest.head?, isdigit c = false) → INT_MIN ≤ i → i ≤ INT_MAX →
      a.SetValueFromString (ws ++ decimalText i ++ rest) =
        .ok { a with value_ := some (.int i) } ∧
      b.SetValueFromString (ws ++ decimalText i ++ rest) =
        .ok { b with value_ := b.value_ ++ [.int i] }) ∧
    (a.SetValueFromString text = .error .InvalidArgumentType ↔
      (readInteger text = none ∨
        ∃ v, readInteger text = some v ∧ (v < INT_MIN ∨ INT_MAX < v))) ∧
    (b.SetValueFromString text = .error .InvalidArgumentType ↔
      (readInteger text = none ∨
        ∃ v, readInteger text = some v ∧ (v < INT_MIN ∨ INT_MAX < v))) ∧
    (∀ e, a.SetValueFromString text = .error e ∨ b.SetValueFromString text = .error e →
      e = .InvalidArgumentType) := by
  have hok : ∀ (s : Str) (v : Int), readInteger s = some v → INT_MIN ≤ v → v ≤ INT_MAX →
      a.SetValueFromString s = .ok { a with value_ := some (.int v) } ∧
      b.SetValueFromString s = .ok { b with value_ := b.value_ ++ [.int v] } := by
    intro s v hv hlo hhi
    have hx : extract .int s = some (.int v) := by
      simp only [extract, extractInt, hv]
      rw [if_pos ⟨hlo, hhi⟩]
      rfl
    constructor
    · unfold Argument.SetValueFromString
      rw [ha, hx]
    · unfold ArgumentMulti.SetValueFromString
      rw [hb, hx]
  have hnone : ∀ s : Str, extract .int s = none ↔ extractInt s = none := by
    intro s
    simp only [extract]
    cases extractInt s <;> simp
  refine ⟨hok text, ?_, ?_, ?_, ?_⟩
  · intro ws i rest hws hrest hlo hhi
    exact hok _ i (readInteger_decimalText_append ws i rest hws hrest) hlo hhi
  · rw [← extractInt_eq_none_iff, ← hnone]
    unfold Argument.SetValueFromString
    rw [ha]
    cases extract .int text with
    | none => simp
    | some val => simp
  · rw [← extractInt_eq_none_iff, ← hnone]
    unfold ArgumentMulti.SetValueFromString
    rw [hb]
    cases extract .int text with
    | none => simp
    | some val => simp
  · intro e he
    rcases he with he | he
    · unfold Argument.SetValueFromString at he
      cases hx : extract a.T text with
      | none =>
        rw [hx] at he
        cases he
        rfl
      | some val =>
        rw [hx] at he
        cases he
    · unfold ArgumentMulti.SetValueFromString at he
      cases hx : extract b.T text with
      | none =>
        rw [hx] at he
        cases he
        rfl
      | some val =>
        rw [hx] at he
        cases he

/-- Witness of C25 as amended: the text `12abc` stores 12 in the int declarations of `IntTest`
and `MultiValueTest`. -/
theorem int_conversion_reads_numeral_witness :
    scalarInt.SetValueFromString "12abc".toList =
      .ok { scalarInt with value_ := some (.int 12) } ∧
    repeatedInt.SetValueFromString "12abc".toList =
      .ok { repeatedInt with value_ := repeatedInt.value_ ++ [.int 12] } :=
  (int_conversion_reads_numeral scalarInt repeatedInt "12abc".toList rfl rfl).1 12 rfl
    (by decide) (by decide)

/-- Counterexample to C25 as stated: the text `99999999999` begins with an integer numeral, and
the text `123456789012` is the in-range decimal integer `12` followed by further characters; for
both `SetValueFromString` of an int declaration raises `InvalidArgumentType`, the numeral read
being outside the range of `int`. -/
theorem int_conversion_reads_numeral_counterexample :
    readInteger "99999999999".toList = some 99999999999 ∧
    scalarInt.SetValueFromString "99999999999".toList = .error .InvalidArgumentType ∧
    repeatedInt.SetValueFromString "99999999999".toList = .error .InvalidArgumentType ∧
    "123456789012".toList = decimalText 12 ++ "3456789012".toList ∧
    scalarInt.SetValueFromString "123456789012".toList = .error .InvalidArgumentType :=
  ⟨rfl, rfl, rfl, rfl, rfl⟩

/-! ### The storage of a scalar declaration -/

theorem find_middle {κ ν : Type} [DecidableEq κ] (before after : List (κ × ν)) (k : κ) (v : ν)
    (h : ∀ e ∈ before, e.1 ≠ k) : find (before ++ (k, v) :: after) k = some v := by
  rw [find_append, (find_eq_none_iff before k).mpr h]
  dsimp only
  rw [find_cons, if_pos rfl]

theorem assign_middle {κ ν : Type} [DecidableEq κ] (before after : List (κ × ν)) (k : κ)
    (v w : ν) (h : ∀ e ∈ before, e.1 ≠ k) :
    assign (before ++ (k, v) :: after) k w = before ++ (k, w) :: after := by
  induction before with
  | nil => simp [assign]
  | cons e m ih =>
    have he : ¬ e.1 = k := h e (by simp)
    rw [List.cons_append, assign, if_neg he, ih (fun x hx => h x (by simp [hx]))]
    rfl

/-- C23: `GetStorage` of a scalar declaration changes the declaration: when no current value is
set, the current value becomes the default if there is one and otherwise the value-initialised
`T()` (the empty string, 0, false); a current value is kept. After the call `HasValue()` is true.
So for a registry whose other declarations all have a value and a scalar declaration with neither
value nor default, `Parse` of an empty token stream returns false, and after one `GetStorage()`
call on that declaration it returns true. -/
theorem GetStorage_binds_value (a : Argument) :
    (a.value_ = none → ∀ d, a.default_value_ = some d →
      a.GetStorage = { a with value_ := some d }) ∧
    (a.value_ = none → a.default_value_ = none →
      a.GetStorage = { a with value_ := some (Argument.zero a.T) }) ∧
    (Argument.zero .string = .string [] ∧ Argument.zero .int = .int 0 ∧
      Argument.zero .bool = .bool false) ∧
    (a.value_.isSome = true → a.GetStorage = a) ∧
    a.GetStorage.HasValue = true ∧
    (∀ (p : ArgParser) (before after : List (Str × Declaration)) (key program : Str),
      p.argument_map_ = before ++ (key, .scalar a) :: after → (∀ e ∈ before, e.1 ≠ key) →
      a.value_ = none → a.default_value_ = none →
      (∀ e ∈ before ++ after, e.2.HasValue = true) →
      p.Parse [program] = .ok (p, false) ∧
      (p.onScalar key Argument.GetStorage).argument_map_ =
        before ++ (key, .scalar a.GetStorage) :: after ∧
      (p.onScalar key Argument.GetStorage).Parse [program] =
        .ok (p.onScalar key Argument.GetStorage, true)) := by
  refine ⟨?_, ?_, ⟨rfl, rfl, rfl⟩, ?_, ?_, ?_⟩
  · intro hv d hd
    unfold Argument.GetStorage
    rw [hv, hd]
  · intro hv hd
    unfold Argument.GetStorage
    rw [hv, hd]
  · intro hv
    unfold Argument.GetStorage
    cases h : a.value_ with
    | none => rw [h] at hv; cases hv
    | some v => rfl
  · unfold Argument.GetStorage
    cases h : a.value_ with
    | none => rfl
    | some v =>
      show (a.value_.isSome || a.default_value_.isSome) = true
      rw [h]
      rfl
  · intro p before after key program hmap hbefore hv hd hothers
    have hfind : find p.argument_map_ key = some (.scalar a) := by
      rw [hmap]
      exact find_middle before after key _ hbefore
    have hmap' : (p.onScalar key Argument.GetStorage).argument_map_ =
        before ++ (key, .scalar a.GetStorage) :: after := by
      unfold ArgParser.onScalar
      rw [hfind]
      dsimp only
      rw [hmap]
      exact assign_middle before after key _ _ hbefore
    have hno : a.HasValue = false := by
      unfold Argument.HasValue
      rw [hv, hd]
      rfl
    have hyes : a.GetStorage.HasValue = true := by
      unfold Argument.GetStorage
      rw [hv]
      rfl
    refine ⟨?_, hmap', ?_⟩
    · have hall : p.argument_map_.all (fun e => e.2.HasValue) = false := by
        apply Bool.eq_false_iff.mpr
        intro hall
        have hmem : (key, Declaration.scalar a) ∈ p.argument_map_ := by
          rw [hmap]
          simp
        have := List.all_eq_true.mp hall _ hmem
        rw [show (key, Declaration.scalar a).2.HasValue = a.HasValue from rfl, hno] at this
        cases this
      simp only [ArgParser.Parse, ArgParser.Parse.loop, hall]
    · have hall : (p.onScalar key Argument.GetStorage).argument_map_.all
          (fun e => e.2.HasValue) = true := by
        rw [hmap']
        apply List.all_eq_true.mpr
        intro e he
        rcases List.mem_append.mp he with he | he
        · exact hothers e (List.mem_append.mpr (Or.inl he))
        · rcases List.mem_cons.mp he with rfl | he
          · exact hyes
          · exact hothers e (List.mem_append.mpr (Or.inr he))
      simp only [ArgParser.Parse, ArgParser.Parse.loop, hall]

/-- Witness of C23: the registry of `StoreValueTest`, one scalar string declaration `param1`
with neither value nor default. `Parse` of the program name alone returns false; after
`GetStorage()` the declaration holds the empty string and `Parse` returns true. -/
theorem GetStorage_binds_value_witness :
    registryString.Parse [app] = .ok (registryString, false) ∧
    (registryString.onScalar param1 Argument.GetStorage).argument_map_ =
      [] ++ (param1, .scalar (Argument.GetStorage
        ⟨⟨param1, none, [], false⟩, .string, none, none⟩)) :: [] ∧
    (registryString.onScalar param1 Argument.GetStorage).Parse [app] =
      .ok (registryString.onScalar param1 Argument.GetStorage, true) :=
  (GetStorage_binds_value ⟨⟨param1, none, [], false⟩, .string, none, none⟩).2.2.2.2.2
    registryString [] [] param1 app rfl (fun _ h => by cases h) rfl rfl
    (fun _ h => by cases h)

/-! ### The token `-` -/

theorem cluster_consumed_eq (g : Grammar) (next : Option Str) (cs : List Char) :
    ∀ (p q : ArgParser) (consumed : Bool), p.grammar = g →
      Parse.cluster next p cs = .ok (q, consumed) → consumed = g.clusterTakesNext cs := by
  induction cs with
  | nil =>
    intro p q consumed _ h
    simp only [ArgParser.Parse.cluster, Except.ok.injEq, Prod.mk.injEq] at h
    rw [← h.2]
    rfl
  | cons c cs ih =>
    intro p q consumed hg h
    rw [ArgParser.Parse.cluster_cons] at h
    have halias : find p.long_name_map_ c = g.aliasOf c := by rw [← hg]; rfl
    cases hn : g.aliasOf c with
    | none => rw [halias, hn] at h; cases h
    | some n =>
      rw [halias, hn] at h
      dsimp only at h
      cases hd : find p.argument_map_ n with
      | none => rw [hd] at h; cases h
      | some d =>
        rw [hd] at h
        dsimp only at h
        have htype : g.typeOf n = some d.GetType := by
          rw [← hg]
          exact ArgParser.typeOf_eq p n d hd
        by_cases hT : d.GetType = .bool
        · rw [if_pos hT] at h
          have hstatic : g.clusterTakesNext (c :: cs) = g.clusterTakesNext cs := by
            rw [Grammar.clusterTakesNext, hn]
            dsimp only
            rw [htype, hT]
          rw [hstatic]
          exact ih _ _ _ ((ArgParser.grammar_stored p n (.bool true)).trans hg) h
        · rw [if_neg hT] at h
          have hstatic : g.clusterTakesNext (c :: cs) = cs.isEmpty := by
            rw [Grammar.clusterTakesNext, hn]
            dsimp only
            rw [htype]
            cases hG : d.GetType with
            | bool => exact absurd hG hT
            | int => rfl
            | string => rfl
          rw [hstatic]
          split at h
          · cases h
          · rename_i hcs
            have hcs' : cs = [] := not_not.mp hcs
            subst hcs'
            cases next with
            | none => cases h
            | some v =>
              dsimp only at h
              cases hx : extract d.GetType v with
              | none => rw [hx] at h; cases h
              | some val =>
                rw [hx] at h
                simp only [Except.ok.injEq, Prod.mk.injEq] at h
                rw [← h.2]
                rfl

theorem cluster_next_irrelevant (g : Grammar) (cs : List Char) :
    ∀ (p : ArgParser), p.grammar = g → g.clusterTakesNext cs = false →
      ∀ next next', Parse.cluster next p cs = Parse.cluster next' p cs := by
  induction cs with
  | nil => intro p _ _ next next'; rfl
  | cons c cs ih =>
    intro p hg hstatic next next'
    rw [ArgParser.Parse.cluster_cons, ArgParser.Parse.cluster_cons]
    have halias : find p.long_name_map_ c = g.aliasOf c := by rw [← hg]; rfl
    cases hn : g.aliasOf c with
    | none => rw [halias, hn]
    | some n =>
      rw [halias, hn]
      dsimp only
      cases hd : find p.argument_map_ n with
      | none => rfl
      | some d =>
        dsimp only
        have htype : g.typeOf n = some d.GetType := by
          rw [← hg]
          exact ArgParser.typeOf_eq p n d hd
        by_cases hT : d.GetType = .bool
        · rw [if_pos hT, if_pos hT]
          have hstatic' : g.clusterTakesNext cs = false := by
            rw [Grammar.clusterTakesNext, hn] at hstatic
            dsimp only at hstatic
            rw [htype, hT] at hstatic
            exact hstatic
          exact ih _ ((ArgParser.grammar_stored p n (.bool true)).trans hg) hstatic' next next'
        · rw [if_neg hT, if_neg hT]
          have hcs : cs ≠ [] := by
            rw [Grammar.clusterTakesNext, hn] at hstatic
            dsimp only at hstatic
            rw [htype] at hstatic
            intro hnil
            subst hnil
            cases hG : d.GetType with
            | bool => exact absurd hG hT
            | int => rw [hG] at hstatic; cases hstatic
            | string => rw [hG] at hstatic; cases hstatic
          rw [if_pos hcs, if_pos hcs]


theorem Grammar.noDashValue_short (g : Grammar) (cs : List Char) (rest : List Str)
    (h : ∀ cs', cs ≠ '-' :: cs') :
    g.noDashValue (('-' :: cs) :: rest) =
      if g.clusterTakesNext cs then
        match rest with
        | [] => true
        | v :: rest' => decide (v ≠ ['-']) && g.noDashValue rest'
      else g.noDashValue rest := by
  cases rest with
  | nil => rw [Grammar.noDashValue.eq_3 g cs (fun body hb => h body hb)]
  | cons v rest' => rw [Grammar.noDashValue.eq_4 g cs v rest' (fun body hb => h body hb)]

theorem Grammar.noDashValue_plain (g : Grammar) (str : Str) (rest : List Str)
    (h : ∀ cs, str ≠ '-' :: cs) : g.noDashValue (str :: rest) = g.noDashValue rest :=
  Grammar.noDashValue.eq_5 g str rest (fun _ hb => h _ hb) (fun _ hb => h _ hb)

/-- Removing the tokens `-` from a stream in which none of them is taken as the value of a short
option does not change what the loop of `Parse` does. -/
theorem ArgParser.Parse.loop_filter_dash (g : Grammar) (ts : List Str) :
    ∀ (p : ArgParser), p.grammar = g → g.noDashValue ts = true →
      Parse.loop p ts = Parse.loop p (ts.filter (fun t => decide (t ≠ ['-']))) := by
  generalize hn : ts.length = n
  induction n using Nat.strong_induction_on generalizing ts with
  | _ n ih =>
    intro p hg hnd
    cases ts with
    | nil => rfl
    | cons str rest =>
      have hlen : rest.length < n := by rw [← hn]; simp
      rcases token_cases str with ⟨body, rfl⟩ | ⟨cs, rfl, hcs⟩ | hplain
      · have hkeep : decide (('-' :: '-' :: body) ≠ ['-']) = true :=
          decide_eq_true (fun hc => by injection hc with _ h2; cases h2)
        rw [List.filter_cons, if_pos hkeep, ArgParser.Parse.loop_long,
          ArgParser.Parse.loop_long]
        rw [Grammar.noDashValue.eq_2] at hnd
        cases hl : Parse.longOption p ('-' :: '-' :: body) with
        | error e => rfl
        | ok q =>
          obtain ⟨_, hadv⟩ := ArgParser.Parse.longOption_advances p q body hl
          exact ih rest.length hlen rest rfl q (hadv.1.trans hg) hnd
      · rw [Grammar.noDashValue_short g cs rest hcs] at hnd
        cases cs with
        | nil =>
          have hdrop : ¬ decide ((['-'] : Str) ≠ ['-']) = true := by simp
          rw [List.filter_cons, if_neg hdrop, ArgParser.Parse.loop_short p [] rest hcs]
          have hnd' : g.noDashValue rest = true := hnd
          exact ih rest.length hlen rest rfl p hg hnd'
        | cons c cs' =>
          have hkeep : decide (('-' :: c :: cs') ≠ ['-']) = true :=
            decide_eq_true (fun hc => by injection hc with _ h2; cases h2)
          rw [List.filter_cons, if_pos hkeep, ArgParser.Parse.loop_short p _ rest hcs,
            ArgParser.Parse.loop_short p _ _ hcs]
          cases htake : g.clusterTakesNext (c :: cs') with
          | false =>
            rw [htake] at hnd
            rw [cluster_next_irrelevant g (c :: cs') p hg htake
              (rest.filter (fun t => decide (t ≠ ['-']))).head? rest.head?]
            cases hc : Parse.cluster rest.head? p (c :: cs') with
            | error e => rfl
            | ok r =>
              obtain ⟨q, consumed⟩ := r
              have hcons := cluster_consumed_eq g _ _ p q consumed hg hc
              rw [htake] at hcons
              subst hcons
              obtain ⟨⟨_, _, hadv, _⟩, _, _⟩ :=
                ArgParser.Parse.cluster_advances _ _ p q false hc
              exact ih rest.length hlen rest rfl q (hadv.1.trans hg) hnd
          | true =>
            rw [htake] at hnd
            cases rest with
            | nil => rfl
            | cons v rest' =>
              have hnd' : (decide (v ≠ ['-']) && g.noDashValue rest') = true := hnd
              rw [Bool.and_eq_true] at hnd'
              rw [List.filter_cons, if_pos hnd'.1]
              simp only [List.head?_cons]
              cases hc : Parse.cluster (some v) p (c :: cs') with
              | error e => rfl
              | ok r =>
                obtain ⟨q, consumed⟩ := r
                have hcons := cluster_consumed_eq g _ _ p q consumed hg hc
                rw [htake] at hcons
                subst hcons
                obtain ⟨⟨_, _, hadv, _⟩, _, _⟩ :=
                  ArgParser.Parse.cluster_advances _ _ p q true hc
                have hlen' : rest'.length < n := by
                  rw [← hn]
                  simp only [List.length_cons]
                  omega
                exact ih rest'.length hlen' rest' rfl q (hadv.1.trans hg) hnd'.2
      · have hkeep : decide (str ≠ ['-']) = true := decide_eq_true (hplain [])
        rw [List.filter_cons, if_pos hkeep, ArgParser.Parse.loop_plain p str rest hplain,
          ArgParser.Parse.loop_plain p str _ hplain]
        rw [Grammar.noDashValue_plain g str rest hplain] at hnd
        cases hl : Parse.plain p str with
        | error e => rfl
        | ok q =>
          obtain ⟨_, _, _, hadv⟩ := ArgParser.Parse.plain_advances p q str hl
          exact ih rest.length hlen rest rfl q (hadv.1.trans hg) hnd

/-- C24: the token `-` is accepted silently. In every registry state the loop of `Parse` on a
stream that starts with `-` is the loop on the rest of the stream from the same state: no error
is raised for that token, no declaration changes and no positional value is bound (the inner loop
over its characters has no iteration). So for every stream in which no token `-` is taken as the
value of a short option, `Parse` gives the same result (state and returned flag, or error) as on
the stream without its `-` tokens. -/
theorem dash_token_is_skipped (p : ArgParser) :
    (∀ rest, Parse.loop p (['-'] :: rest) = Parse.loop p rest) ∧
    (∀ next, Parse.cluster next p [] = .ok (p, false)) ∧
    (∀ ts, p.grammar.noDashValue ts = true →
      Parse.loop p ts = Parse.loop p (ts.filter (fun t => decide (t ≠ ['-'])))) ∧
    (∀ program ts, p.grammar.noDashValue ts = true →
      p.Parse (program :: ts) =
        p.Parse (program :: ts.filter (fun t => decide (t ≠ ['-'])))) := by
  refine ⟨?_, fun _ => rfl, ?_, ?_⟩
  · intro rest
    rw [ArgParser.Parse.loop_short p [] rest (fun cs' h => by cases h)]
    rfl
  · intro ts hts
    exact ArgParser.Parse.loop_filter_dash p.grammar ts p rfl hts
  · intro program ts hts
    simp only [ArgParser.Parse]
    rw [ArgParser.Parse.loop_filter_dash p.grammar ts p rfl hts]

/-- Witness of C24: in the registry of `ShortNameTest` the stream `- -p value1 -` gives what
`-p value1` gives. -/
theorem dash_token_is_skipped_witness :
    registryShort.Parse [app, "-".toList, "-p".toList, "value1".toList, "-".toList] =
      registryShort.Parse [app, "-p".toList, "value1".toList] :=
  (dash_token_is_skipped registryShort).2.2.2 app
    ["-".toList, "-p".toList, "value1".toList, "-".toList] rfl

/-- The proviso of C24 is needed: in the registry of `ShortNameTest` the `-` of the stream
`-p -` is taken as the value of `param1`, and without it the stream `-p` fails with
`NoArgumentValue`. -/
theorem dash_taken_as_value :
    registryShort.grammar.noDashValue ["-p".toList, "-".toList] = false ∧
    (∃ q, Parse.loop registryShort ["-p".toList, "-".toList] = .ok q ∧
      q.GetArgumentValue .string param1 = .ok (.string "-".toList)) ∧
    Parse.loop registryShort ["-p".toList] = .error .NoArgumentValue :=
  ⟨rfl, ⟨_, rfl, rfl⟩, rfl⟩

/-! ### Satisfaction is monotone -/

theorem ArgParser.Parse.longOption_stored (p q : ArgParser) (body : Str)
    (h : Parse.longOption p ('-' :: '-' :: body) = .ok q) :
    ∃ val, q = p.stored (optionName body) val := by
  rw [ArgParser.Parse.longOption_eq] at h
  cases hd : find p.argument_map_ (optionName body) with
  | none => rw [hd] at h; cases h
  | some d =>
    rw [hd] at h
    dsimp only at h
    split at h
    · split at h
      · exact ⟨_, (Except.ok.inj h).symm⟩
      · cases h
    · split at h
      · cases h
      · cases hx : extract d.GetType (optionValue body) with
        | none => rw [hx] at h; cases h
        | some val =>
          rw [hx] at h
          exact ⟨val, (Except.ok.inj h).symm⟩

theorem ArgParser.Parse.plain_stored (p q : ArgParser) (str : Str)
    (h : Parse.plain p str = .ok q) :
    ∃ key val, q = ({ p with positional_argument_ := some key }).stored key val := by
  rw [ArgParser.Parse.plain_eq] at h
  cases hpos : p.grammar.positional with
  | none => rw [hpos] at h; cases h
  | some key =>
    rw [hpos] at h
    dsimp only at h
    cases hd : find p.argument_map_ key with
    | none => rw [hd] at h; cases h
    | some d =>
      rw [hd] at h
      dsimp only at h
      cases hx : extract d.GetType str with
      | none => rw [hx] at h; cases h
      | some val =>
        rw [hx] at h
        exact ⟨key, val, (Except.ok.inj h).symm⟩

theorem ArgParser.Parse.cluster_induction (P : ArgParser → Prop)
    (hstored : ∀ p key val, P p → P (p.stored key val)) (next : Option Str) (cs : List Char) :
    ∀ (p q : ArgParser) (consumed : Bool), P p → Parse.cluster next p cs = .ok (q, consumed) →
      P q := by
  induction cs with
  | nil =>
    intro p q consumed hp h
    simp only [ArgParser.Parse.cluster, Except.ok.injEq, Prod.mk.injEq] at h
    rw [← h.1]
    exact hp
  | cons c cs ih =>
    intro p q consumed hp h
    rw [ArgParser.Parse.cluster_cons] at h
    cases hn : find p.long_name_map_ c with
    | none => rw [hn] at h; cases h
    | some n =>
      rw [hn] at h
      dsimp only at h
      cases hd : find p.argument_map_ n with
      | none => rw [hd] at h; cases h
      | some d =>
        rw [hd] at h
        dsimp only at h
        split at h
        · exact ih _ _ _ (hstored p n _ hp) h
        · split at h
          · cases h
          · cases next with
            | none => cases h
            | some v =>
              dsimp only at h
              cases hx : extract d.GetType v with
              | none => rw [hx] at h; cases h
              | some val =>
                rw [hx] at h
                simp only [Except.ok.injEq, Prod.mk.injEq] at h
                rw [← h.1]
                exact hstored p n val hp

/-- A property of the registry that storing a value and binding the positional target keep holds
in every state the loop of `Parse` reaches. -/
theorem ArgParser.Parse.loop_induction (P : ArgParser → Prop)
    (hstored : ∀ p key val, P p → P (p.stored key val))
    (hbound : ∀ (p : ArgParser) key, P p → P { p with positional_argument_ := some key })
    (tokens : List Str) :
    ∀ (p q : ArgParser), P p → Parse.loop p tokens = .ok q → P q := by
  generalize hn : tokens.length = n
  induction n using Nat.strong_induction_on generalizing tokens with
  | _ n ih =>
    intro p q hp h
    cases tokens with
    | nil =>
      simp only [ArgParser.Parse.loop, Except.ok.injEq] at h
      rw [← h]
      exact hp
    | cons str rest =>
      have hlen : rest.length < n := by rw [← hn]; simp
      rcases token_cases str with ⟨body, rfl⟩ | ⟨cs, rfl, hcs⟩ | hplain
      · rw [ArgParser.Parse.loop_long] at h
        cases hl : Parse.longOption p ('-' :: '-' :: body) with
        | error e => rw [hl] at h; cases h
        | ok r =>
          rw [hl] at h
          obtain ⟨val, rfl⟩ := ArgParser.Parse.longOption_stored p r body hl
          exact ih rest.length hlen rest rfl _ q (hstored p _ val hp) h
      · rw [ArgParser.Parse.loop_short p cs rest hcs] at h
        cases hc : Parse.cluster rest.head? p cs with
        | error e => rw [hc] at h; cases h
        | ok r =>
          obtain ⟨r, consumed⟩ := r
          rw [hc] at h
          have hr := ArgParser.Parse.cluster_induction P hstored _ cs p r consumed hp hc
          have hlen' : (if consumed = true then rest.tail else rest).length < n := by
            split
            · exact lt_of_le_of_lt (by simp) hlen
            · exact hlen
          exact ih _ hlen' _ rfl r q hr h
      · rw [ArgParser.Parse.loop_plain p str rest hplain] at h
        cases hl : Parse.plain p str with
        | error e => rw [hl] at h; cases h
        | ok r =>
          rw [hl] at h
          obtain ⟨key, val, rfl⟩ := ArgParser.Parse.plain_stored p r str hl
          exact ih rest.length hlen rest rfl _ q (hstored _ _ val (hbound p key hp)) h


theorem Accumulates.same (m : List (Str × Declaration)) : Accumulates m m := by
  unfold Accumulates
  induction m with
  | nil => exact List.Forall₂.nil
  | cons e m ih => exact List.Forall₂.cons ⟨rfl, [], rfl⟩ ih

theorem Accumulates.assign_stored (key : Str) (d : Declaration) (val : Value) :
    ∀ (m₀ m : List (Str × Declaration)), Accumulates m₀ m → find m key = some d →
      Accumulates m₀ (ArgumentParser.assign m key (d.stored val)) := by
  intro m₀ m h
  unfold Accumulates at h ⊢
  induction h with
  | nil => intro _; exact List.Forall₂.nil
  | @cons e₀ e l₀ l hR hrest ih =>
    intro hfind
    rw [find_cons] at hfind
    by_cases hk : e.1 = key
    · rw [if_pos hk] at hfind
      rw [ArgumentParser.assign, if_pos hk]
      obtain ⟨h1, vals, h2⟩ := hR
      refine List.Forall₂.cons ⟨h1, vals ++ [val], ?_⟩ hrest
      rw [List.foldl_append, ← h2, ← Option.some.inj hfind]
      rfl
    · rw [if_neg hk] at hfind
      rw [ArgumentParser.assign, if_neg hk]
      exact List.Forall₂.cons hR (ih hfind)

theorem Accumulates.chain {m₁ m₂ m₃ : List (Str × Declaration)} (h₁ : Accumulates m₁ m₂) :
    Accumulates m₂ m₃ → Accumulates m₁ m₃ := by
  unfold Accumulates at h₁ ⊢
  induction h₁ generalizing m₃ with
  | nil => intro h; cases h; exact List.Forall₂.nil
  | @cons e₁ e₂ l₁ l₂ hR _ ih =>
    intro h
    obtain ⟨e₃, l₃, hR', hrest, rfl⟩ := List.forall₂_cons_left_iff.mp h
    obtain ⟨h1, vals, h2⟩ := hR
    obtain ⟨h1', vals', h2'⟩ := hR'
    refine List.Forall₂.cons ⟨h1'.trans h1, vals ++ vals', ?_⟩ (ih hrest)
    rw [List.foldl_append, ← h2, ← h2']

/-- In every state the loop of `Parse` reaches, the declaration map has the entries of the
initial one, in the same order, each with some values stored in it. -/
theorem ArgParser.Parse.loop_accumulates (tokens : List Str) (p q : ArgParser)
    (h : Parse.loop p tokens = .ok q) : Accumulates p.argument_map_ q.argument_map_ := by
  refine ArgParser.Parse.loop_induction (fun r => Accumulates p.argument_map_ r.argument_map_)
    ?_ ?_ tokens p q (Accumulates.same _) h
  · intro r key val hr
    unfold ArgParser.stored
    cases hd : find r.argument_map_ key with
    | none => exact hr
    | some d => exact Accumulates.assign_stored key d val _ _ hr hd
  · intro r key hr
    exact hr

theorem Declaration.HasValue_stored (d : Declaration) (val : Value)
    (h : d.HasValue = true) : (d.stored val).HasValue = true := by
  cases d with
  | scalar a => rfl
  | repeated a =>
    simp only [Declaration.HasValue, ArgumentMulti.HasValue, Bool.or_eq_true,
      decide_eq_true_eq] at h
    simp only [Declaration.stored, Declaration.HasValue, ArgumentMulti.HasValue,
      Bool.or_eq_true, decide_eq_true_eq, List.length_append, List.length_singleton]
    rcases h with h | h
    · exact Or.inl (by omega)
    · exact Or.inr h

theorem Declaration.HasValue_foldl_stored (vals : List Value) :
    ∀ d : Declaration, d.HasValue = true →
      (vals.foldl Declaration.stored d).HasValue = true := by
  induction vals with
  | nil => intro d h; exact h
  | cons v vs ih => intro d h; exact ih _ (Declaration.HasValue_stored d v h)

theorem Accumulates.keeps_HasValue {m m' : List (Str × Declaration)} (h : Accumulates m m') :
    List.Forall₂ (fun e e' => e'.1 = e.1 ∧ (e.2.HasValue = true → e'.2.HasValue = true))
      m m' := by
  refine List.Forall₂.imp ?_ h
  rintro e e' ⟨h1, vals, h2⟩
  exact ⟨h1, fun hv => by rw [h2]; exact Declaration.HasValue_foldl_stored vals _ hv⟩

theorem Accumulates.all_HasValue {m m' : List (Str × Declaration)} (h : Accumulates m m')
    (hall : m.all (fun e => e.2.HasValue) = true) :
    m'.all (fun e => e.2.HasValue) = true := by
  have h' := h.keeps_HasValue
  clear h
  induction h' with
  | nil => rfl
  | @cons e e' l l' hR _ ih =>
    rw [List.all_cons, Bool.and_eq_true] at hall ⊢
    exact ⟨hR.2 hall.1, ih hall.2⟩

theorem ArgParser.Parse.cluster_none_ok (cs : List Char) :
    ∀ (p q : ArgParser) (consumed : Bool), Parse.cluster none p cs = .ok (q, consumed) →
      ∀ next, Parse.cluster next p cs = .ok (q, consumed) := by
  induction cs with
  | nil => intro p q consumed h next; exact h
  | cons c cs ih =>
    intro p q consumed h next
    rw [ArgParser.Parse.cluster_cons] at h ⊢
    cases hn : find p.long_name_map_ c with
    | none => rw [hn] at h; cases h
    | some n =>
      rw [hn] at h
      dsimp only at h ⊢
      cases hd : find p.argument_map_ n with
      | none => rw [hd] at h; cases h
      | some d =>
        rw [hd] at h
        dsimp only at h ⊢
        by_cases hT : d.GetType = .bool
        · rw [if_pos hT] at h ⊢
          exact ih _ _ _ h next
        · rw [if_neg hT] at h
          split at h <;> cases h

/-- The loop of `Parse` on a stream continued by further tokens passes through the state it
reaches on the stream alone. -/
theorem ArgParser.Parse.loop_append (tokens more : List Str) :
    ∀ (p q : ArgParser), Parse.loop p tokens = .ok q →
      Parse.loop p (tokens ++ more) = Parse.loop q more := by
  generalize hn : tokens.length = n
  induction n using Nat.strong_induction_on generalizing tokens with
  | _ n ih =>
    intro p q h
    cases tokens with
    | nil =>
      simp only [ArgParser.Parse.loop, Except.ok.injEq] at h
      rw [← h]
      rfl
    | cons str rest =>
      have hlen : rest.length < n := by rw [← hn]; simp
      rw [List.cons_append]
      rcases token_cases str with ⟨body, rfl⟩ | ⟨cs, rfl, hcs⟩ | hplain
      · rw [ArgParser.Parse.loop_long] at h ⊢
        cases hl : Parse.longOption p ('-' :: '-' :: body) with
        | error e => rw [hl] at h; cases h
        | ok r =>
          rw [hl] at h
          exact ih rest.length hlen rest rfl r q h
      · rw [ArgParser.Parse.loop_short p cs _ hcs] at h ⊢
        cases rest with
        | nil =>
          cases hc : Parse.cluster none p cs with
          | error e =>
            rw [show ([] : List Str).head? = none from rfl, hc] at h
            cases h
          | ok r =>
            obtain ⟨r, consumed⟩ := r
            rw [show ([] : List Str).head? = none from rfl, hc] at h
            obtain ⟨_, _, hsome⟩ := ArgParser.Parse.cluster_advances none cs p r consumed hc
            cases consumed with
            | true => exact absurd (hsome rfl) (by simp)
            | false =>
              rw [ArgParser.Parse.cluster_none_ok cs p r false hc]
              have hq : r = q := by
                simpa [ArgParser.Parse.loop] using h
              rw [hq]
              rfl
        | cons v rest' =>
          simp only [List.cons_append, List.head?_cons] at h ⊢
          cases hc : Parse.cluster (some v) p cs with
          | error e => rw [hc] at h; cases h
          | ok r =>
            obtain ⟨r, consumed⟩ := r
            rw [hc] at h
            cases consumed with
            | true =>
              have hlen' : rest'.length < n := by
                rw [← hn]
                simp only [List.length_cons]
                omega
              exact ih rest'.length hlen' rest' rfl r q h
            | false => exact ih _ hlen (v :: rest') rfl r q h
      · rw [ArgParser.Parse.loop_plain p str _ hplain] at h ⊢
        cases hl : Parse.plain p str with
        | error e => rw [hl] at h; cases h
        | ok r =>
          rw [hl] at h
          exact ih rest.length hlen rest rfl r q h

/-- C22: no token removes a value. In the state the loop of `Parse` reaches on a token stream,
the declaration map has the entries of the initial state, each with some values stored in it, and
storing values keeps `HasValue()` true; so from any state a parse reaches, `HasValue()` of a
declaration, once true, is true in every later state of the parse. The parse of a stream
continued by further tokens passes through the state reached on the stream alone; consequently,
if `Parse` returns true on a stream, it returns true on every continuation of the stream that
raises no fatal error. -/
theorem HasValue_stays_true (p : ArgParser) (tokens more : List Str) :
    (∀ q, Parse.loop p tokens = .ok q →
      Accumulates p.argument_map_ q.argument_map_ ∧
      Parse.loop p (tokens ++ more) = Parse.loop q more) ∧
    (∀ (d : Declaration) (vals : List Value), d.HasValue = true →
      (vals.foldl Declaration.stored d).HasValue = true) ∧
    (∀ q r, Parse.loop p tokens = .ok q → Parse.loop q more = .ok r →
      List.Forall₂ (fun e e' => e'.1 = e.1 ∧ (e.2.HasValue = true → e'.2.HasValue = true))
        q.argument_map_ r.argument_map_ ∧
      ∀ key d, find q.argument_map_ key = some d → d.HasValue = true →
        ∃ d', find r.argument_map_ key = some d' ∧ d'.HasValue = true) ∧
    (∀ program q r b, p.Parse (program :: tokens) = .ok (q, true) →
      p.Parse (program :: (tokens ++ more)) = .ok (r, b) → b = true) := by
  refine ⟨?_, ?_, ?_, ?_⟩
  · intro q hq
    exact ⟨ArgParser.Parse.loop_accumulates tokens p q hq,
      ArgParser.Parse.loop_append tokens more p q hq⟩
  · intro d vals hd
    exact Declaration.HasValue_foldl_stored vals d hd
  · intro q r _ hr
    refine ⟨(ArgParser.Parse.loop_accumulates more q r hr).keeps_HasValue, ?_⟩
    intro key d hfind hd
    obtain ⟨trace, _, hadv⟩ := ArgParser.Parse.loop_advances more q r hr
    refine ⟨_, ?_, Declaration.HasValue_foldl_stored (valuesFor trace key) d hd⟩
    rw [hadv.2.2.2.2 key, hfind]
    rfl
  · intro program q r b hq hr
    obtain ⟨hq1, hq2⟩ := Parse_ok p q program tokens true hq
    obtain ⟨hr1, hr2⟩ := Parse_ok p r program (tokens ++ more) b hr
    rw [ArgParser.Parse.loop_append tokens more p q hq1] at hr1
    rw [hr2]
    exact (ArgParser.Parse.loop_accumulates more q r hr1).all_HasValue hq2.symm

/-- Witness of C22: in the registry of `StringTest`, `Parse` returns true on `--param1=value1`
and on its continuation by `--param1=value2`. -/
theorem HasValue_stays_true_witness :
    ∃ q r b, registryString.Parse [app, "--param1=value1".toList] = .ok (q, true) ∧
      registryString.Parse [app, "--param1=value1".toList, "--param1=value2".toList] =
        .ok (r, b) ∧ b = true :=
  ⟨_, _, _, rfl, rfl,
    (HasValue_stays_true registryString ["--param1=value1".toList]
      ["--param1=value2".toList]).2.2.2 app _ _ _ rfl rfl⟩

/-! ### The alias index -/

theorem AliasIndexSound.congr {p q : ArgParser} (hnames : q.long_name_map_ = p.long_name_map_)
    (hmap : q.argument_map_ = p.argument_map_) (h : AliasIndexSound p) : AliasIndexSound q := by
  intro c n hc
  rw [hnames] at hc
  rw [hmap]
  exact h c n hc

theorem AliasIndexSound.insert {p q : ArgParser} (names : List (Char × Str)) (slot : Nat)
    (n : Str) (d : Declaration) (hsound : AliasIndexSound p)
    (hnames : ∀ c m, find names c = some m →
      find p.long_name_map_ c = some m ∨ (m = n ∧ d.base.short_name_ = some c))
    (h : ({ p with long_name_map_ := names }).insertDeclaration slot n d = .ok q) :
    AliasIndexSound q := by
  unfold ArgParser.insertDeclaration at h
  rw [emplace_eq] at h
  cases hn : find p.argument_map_ n with
  | some d' =>
    simp only [hn, Option.isSome_some, if_true] at h
    cases h
  | none =>
    simp only [hn, Option.isSome_none, Bool.false_eq_true, if_false] at h
    have hq := Except.ok.inj h
    subst hq
    intro c m hc
    rcases hnames c m hc with hp | ⟨rfl, hd⟩
    · obtain ⟨d', hd', hs⟩ := hsound c m hp
      refine ⟨d', ?_, hs⟩
      have hne : m ≠ n := fun he => by rw [he, hn] at hd'; cases hd'
      show find (p.argument_map_.take slot ++ (n, d) :: p.argument_map_.drop slot) m = _
      rw [find_insert slot _ _ _ _ hn, if_neg hne, hd']
    · refine ⟨d, ?_, hd⟩
      show find (p.argument_map_.take slot ++ (m, d) :: p.argument_map_.drop slot) m = _
      rw [find_insert slot _ _ _ _ hn, if_pos rfl]

theorem AliasIndexSound.insertAliased {p q : ArgParser} (slot : Nat) (short_name : Char)
    (long_name description : Str) (mk : ArgumentBase → Declaration)
    (hmk : ∀ b, (mk b).base = b) (hsound : AliasIndexSound p)
    (h : (match emplace slot p.long_name_map_ short_name long_name with
      | none => Except.error Error.ArgumentAlreadyExists
      | some names =>
        match ArgumentBase.newShort short_name long_name description with
        | Except.error e => Except.error e
        | Except.ok b =>
          ({ p with long_name_map_ := names }).insertDeclaration slot long_name (mk b))
      = Except.ok q) : AliasIndexSound q := by
  rw [emplace_eq] at h
  cases hs : find p.long_name_map_ short_name with
  | some n =>
    simp only [hs, Option.isSome_some, if_true] at h
    cases h
  | none =>
    simp only [hs, Option.isSome_none, Bool.false_eq_true, if_false] at h
    cases hb : ArgumentBase.newShort short_name long_name description with
    | error e => rw [hb] at h; cases h
    | ok b =>
      rw [hb] at h
      have hshort : b.short_name_ = some short_name := by
        unfold ArgumentBase.newShort at hb
        split at hb
        · cases hb
        · split at hb
          · cases hb
          · rw [← Except.ok.inj hb]
      refine AliasIndexSound.insert _ slot long_name (mk b) hsound ?_ h
      intro c m hc
      rw [find_insert slot _ _ _ _ hs] at hc
      by_cases hcs : c = short_name
      · rw [if_pos hcs] at hc
        exact Or.inr ⟨(Option.some.inj hc).symm, by rw [hmk, hshort, hcs]⟩
      · rw [if_neg hcs] at hc
        exact Or.inl hc

theorem AliasIndexSound.insertPlain {p q : ArgParser} (slot : Nat)
    (long_name description : Str) (mk : ArgumentBase → Declaration)
    (hsound : AliasIndexSound p)
    (h : (match ArgumentBase.new long_name description with
      | Except.error e => Except.error e
      | Except.ok b => p.insertDeclaration slot long_name (mk b)) = Except.ok q) :
    AliasIndexSound q := by
  cases hb : ArgumentBase.new long_name description with
  | error e => rw [hb] at h; cases h
  | ok b =>
    rw [hb] at h
    exact AliasIndexSound.insert p.long_name_map_ slot long_name (mk b) hsound
      (fun c m hc => Or.inl hc) h

theorem AliasIndexSound.onScalar {p : ArgParser} (key : Str) (f : Argument → Argument)
    (hf : ∀ a, (f a).base.short_name_ = a.base.short_name_) (h : AliasIndexSound p) :
    AliasIndexSound (p.onScalar key f) := by
  unfold ArgParser.onScalar
  cases hd : find p.argument_map_ key with
  | none => exact h
  | some d =>
    cases d with
    | repeated a => exact h
    | scalar a =>
      intro c n hc
      obtain ⟨d', hd', hs⟩ := h c n hc
      show ∃ d, find (assign p.argument_map_ key (.scalar (f a))) n = some d ∧ _
      rw [find_assign]
      by_cases hn : n = key
      · rw [if_pos hn, hd]
        refine ⟨_, rfl, ?_⟩
        rw [hn, hd] at hd'
        rw [← Option.some.inj hd'] at hs
        exact (hf a).trans hs
      · rw [if_neg hn]
        exact ⟨d', hd', hs⟩

theorem AliasIndexSound.onRepeated {p : ArgParser} (key : Str)
    (f : ArgumentMulti → ArgumentMulti)
    (hf : ∀ a, (f a).base.short_name_ = a.base.short_name_) (h : AliasIndexSound p) :
    AliasIndexSound (p.onRepeated key f) := by
  unfold ArgParser.onRepeated
  cases hd : find p.argument_map_ key with
  | none => exact h
  | some d =>
    cases d with
    | scalar a => exact h
    | repeated a =>
      intro c n hc
      obtain ⟨d', hd', hs⟩ := h c n hc
      show ∃ d, find (assign p.argument_map_ key (.repeated (f a))) n = some d ∧ _
      rw [find_assign]
      by_cases hn : n = key
      · rw [if_pos hn, hd]
        refine ⟨_, rfl, ?_⟩
        rw [hn, hd] at hd'
        rw [← Option.some.inj hd'] at hs
        exact (hf a).trans hs
      · rw [if_neg hn]
        exact ⟨d', hd', hs⟩

theorem Declaration.base_stored (d : Declaration) (val : Value) :
    (d.stored val).base = d.base := by
  cases d <;> rfl

theorem AliasIndexSound.after_stored {p : ArgParser} (key : Str) (val : Value)
    (h : AliasIndexSound p) : AliasIndexSound (p.stored key val) := by
  intro c n hc
  rw [ArgParser.long_name_map__stored] at hc
  obtain ⟨d, hd, hs⟩ := h c n hc
  rw [ArgParser.find_stored]
  by_cases hn : n = key
  · rw [if_pos hn, ← hn, hd]
    exact ⟨_, rfl, by rw [Declaration.base_stored]; exact hs⟩
  · rw [if_neg hn]
    exact ⟨d, hd, hs⟩


theorem AliasIndexSound.loop {p q : ArgParser} (tokens : List Str) (h : AliasIndexSound p)
    (hq : Parse.loop p tokens = .ok q) : AliasIndexSound q :=
  ArgParser.Parse.loop_induction AliasIndexSound
    (fun _ key val hr => AliasIndexSound.after_stored key val hr)
    (fun _ _ hr => AliasIndexSound.congr rfl rfl hr) tokens p q h hq

/-- The alias index of every reachable registry state is sound. -/
theorem Reachable.sound {p : ArgParser} (h : Reachable p) : AliasIndexSound p := by
  induction h with
  | new name =>
    intro c n hc
    cases hc
  | AddArgument p q slot T long_name description _ hq ih =>
    exact AliasIndexSound.insertPlain slot long_name description
      (fun b => .scalar ⟨b, T, none, none⟩) ih hq
  | AddArgumentShort p q slot T short_name long_name description _ hq ih =>
    exact AliasIndexSound.insertAliased slot short_name long_name description
      (fun b => .scalar ⟨b, T, none, none⟩) (fun _ => rfl) ih hq
  | AddArgumentMulti p q slot T min_size long_name description _ hq ih =>
    exact AliasIndexSound.insertPlain slot long_name description
      (fun b => .repeated ⟨b, T, min_size, [], none⟩) ih hq
  | AddArgumentMultiShort p q slot T min_size short_name long_name description _ hq ih =>
    exact AliasIndexSound.insertAliased slot short_name long_name description
      (fun b => .repeated ⟨b, T, min_size, [], none⟩) (fun _ => rfl) ih hq
  | AddFlag p q slot long_name description _ hq ih =>
    unfold ArgParser.AddFlag at hq
    cases hr : p.AddArgument slot .bool long_name description with
    | error e => rw [hr] at hq; cases hq
    | ok r =>
      rw [hr] at hq
      rw [← Except.ok.inj hq]
      exact AliasIndexSound.onScalar _ _ (fun _ => rfl)
        (AliasIndexSound.insertPlain slot long_name description
          (fun b => .scalar ⟨b, .bool, none, none⟩) ih hr)
  | AddFlagShort p q slot short_name long_name description _ hq ih =>
    unfold ArgParser.AddFlagShort at hq
    cases hr : p.AddArgumentShort slot .bool short_name long_name description with
    | error e => rw [hr] at hq; cases hq
    | ok r =>
      rw [hr] at hq
      rw [← Except.ok.inj hq]
      exact AliasIndexSound.onScalar _ _ (fun _ => rfl)
        (AliasIndexSound.insertAliased slot short_name long_name description
          (fun b => .scalar ⟨b, .bool, none, none⟩) (fun _ => rfl) ih hr)
  | AddHelp p q slot description _ hq ih =>
    unfold ArgParser.AddHelp at hq
    split at hq
    · cases hq
    · cases hr : p.AddArgumentShort slot .bool 'h' "help".toList
          "Display this help and exit".toList with
      | error e => rw [hr] at hq; cases hq
      | ok r =>
        rw [hr] at hq
        rw [← Except.ok.inj hq]
        exact AliasIndexSound.congr rfl rfl (AliasIndexSound.onScalar _ _ (fun _ => rfl)
          (AliasIndexSound.insertAliased slot 'h' "help".toList
            "Display this help and exit".toList
            (fun b => .scalar ⟨b, .bool, none, none⟩) (fun _ => rfl) ih hr))
  | scalarDefault p long_name value _ ih =>
    exact AliasIndexSound.onScalar _ _ (fun _ => rfl) ih
  | scalarSetValue p long_name value _ ih =>
    exact AliasIndexSound.onScalar _ _ (fun _ => rfl) ih
  | scalarPositional p long_name _ ih =>
    exact AliasIndexSound.onScalar _ _ (fun _ => rfl) ih
  | scalarGetStorage p long_name _ ih =>
    exact AliasIndexSound.onScalar _ _
      (fun a => by unfold Argument.GetStorage; cases a.value_ <;> rfl) ih
  | repeatedDefault p long_name value _ ih =>
    exact AliasIndexSound.onRepeated _ _ (fun _ => rfl) ih
  | repeatedSetValue p long_name value _ ih =>
    exact AliasIndexSound.onRepeated _ _ (fun _ => rfl) ih
  | repeatedPositional p long_name _ ih =>
    exact AliasIndexSound.onRepeated _ _ (fun _ => rfl) ih
  | Parse p q vec b _ hq ih =>
    cases vec with
    | nil => cases hq
    | cons program tokens =>
      exact AliasIndexSound.loop tokens ih (Parse_ok p q program tokens b hq).1

/-- With a sound alias index the lookup `argument_map_.find(iter_name->second)` of the
short-cluster branch finds the declaration of every resolved alias. -/
theorem ArgParser.Parse.cluster_never_misses (next : Option Str) (cs : List Char) :
    ∀ p : ArgParser, AliasIndexSound p →
      Parse.cluster next p cs ≠ .error .UndefinedBehaviour := by
  induction cs with
  | nil => intro p _ h; cases h
  | cons c cs ih =>
    intro p hp h
    rw [ArgParser.Parse.cluster_cons] at h
    cases hn : find p.long_name_map_ c with
    | none => rw [hn] at h; cases h
    | some n =>
      rw [hn] at h
      dsimp only at h
      obtain ⟨d, hd, _⟩ := hp c n hn
      rw [hd] at h
      dsimp only at h
      split at h
      · exact ih _ (AliasIndexSound.after_stored n _ hp) h
      · split at h
        · cases h
        · cases next with
          | none => cases h
          | some v =>
            dsimp only at h
            cases hx : extract d.GetType v with
            | none => rw [hx] at h; cases h
            | some val => rw [hx] at h; cases h

/-- C21: the alias-index invariant. In every registry state reached from the constructor by
calls that return (the `AddArgument` overloads, `AddFlag`, `AddHelp`, also interleaved with member
functions called on the declarations and with `Parse`), every short name in the alias index maps
to a long name that is a key of the declaration map, and the short name of that declaration is
that character. The invariant holds in every state the loop of `Parse` reaches from such a state;
hence the lookup of the declaration of a resolved alias in the short-cluster branch never misses:
no cluster, whatever the following token, ends in the unchecked dereference of `end()`. -/
theorem alias_index_invariant (p : ArgParser) (h : Reachable p) :
    (∀ c long_name, find p.long_name_map_ c = some long_name →
      ∃ d, find p.argument_map_ long_name = some d ∧ d.base.short_name_ = some c) ∧
    (∀ tokens q, Parse.loop p tokens = .ok q →
      AliasIndexSound q ∧
      (∀ c long_name, find q.long_name_map_ c = some long_name →
        (find q.argument_map_ long_name).isSome = true) ∧
      ∀ next cs, Parse.cluster next q cs ≠ .error .UndefinedBehaviour) := by
  refine ⟨h.sound, ?_⟩
  intro tokens q hq
  have hs := AliasIndexSound.loop tokens h.sound hq
  refine ⟨hs, ?_, fun next cs => ArgParser.Parse.cluster_never_misses next cs q hs⟩
  intro c n hc
  obtain ⟨d, hd, _⟩ := hs c n hc
  rw [hd]
  rfl

/-- Witness of C21: the registry of `ShortNameTest` is reached by one `AddArgument` call with
the short name `p`, and its alias index maps `p` to `param1`, whose declaration has the short
name `p`; from it no cluster misses. -/
theorem alias_index_invariant_witness :
    (ArgParser.new "My Parser".toList).AddArgumentShort 0 .string 'p' param1 [] =
      .ok registryShort ∧
    AliasIndexSound registryShort ∧
    ∀ next cs, Parse.cluster next registryShort cs ≠ .error .UndefinedBehaviour :=
  ⟨rfl,
    (alias_index_invariant registryShort
      (Reachable.AddArgumentShort (ArgParser.new "My Parser".toList) registryShort 0 .string
        'p' param1 [] (Reachable.new _) rfl)).1,
    ((alias_index_invariant registryShort
      (Reachable.AddArgumentShort (ArgParser.new "My Parser".toList) registryShort 0 .string
        'p' param1 [] (Reachable.new _) rfl)).2 [] registryShort rfl).2.2⟩

end ArgumentParser
